import Mathlib

/-!
# flight-aggregator: the merge pipeline of `aggregator/aggregator.go`

A shallow embedding of the data model (`models/models.go`) and of the stages
`filterFlights`, `comparePrices`, `calcDurations`, `rankFlights`, `sortFlights`
and of `Search` (`aggregator/aggregator.go`, `aggregator/cache.go`), and of the
source gateway `fetchFromProviders`.

Conventions of the embedding.

* Go `int` (taken to be 64 bits wide) and `int64` values are `Int`; every arithmetic
  operation of the source that can overflow is wrapped to 64 bits two's complement
  (`wrapInt64`), and Go's `/` and `%` are the truncating `Int.tdiv` and `Int.tmod`.
* A Go pointer `*T` is `Option (Ptr T)`: `none` is `nil`, and `Ptr` carries the
  address next to the value pointed to.
* A Go `map[string]T` is an association list with pairwise distinct keys (`GoMap`).
* What the Go runtime and standard library decide (the order of a `range` over a
  map, the permutation chosen by `sort.Slice`, the local time zone) is a field of
  `Runtime`, constrained only by the documented contract.
* The `sort.Slice` of the Go library itself (`pdqsort_func` of `sort/zsortfunc.go`,
  Go 1.19 and later) is embedded as `sortSlice`; it meets the contract of `Runtime`,
  and `rankFlightsGo` is `rankFlights` with it.
* A function returning `error` returns `Option GoError`, `none` being `nil`.
* The goroutines of `fetchFromProviders` are programs of steps on the memory they
  share; the Go scheduler is a list of steps, an interleaving of these programs.
-/

namespace FlightAgg

/-! ## Go values -/

/-- A non-nil Go pointer: the address and the value stored there. -/
structure Ptr (α : Type) where
  addr : Nat
  val : α
deriving DecidableEq

/-- Go `error` values that `Search` can return. -/
inductive GoError where
  | canceled
  | deadlineExceeded
  | other (msg : String)
deriving DecidableEq

/-- Two's complement wrap-around of a 64 bit signed integer operation. -/
def wrapInt64 (x : Int) : Int := (x + 2 ^ 63) % 2 ^ 64 - 2 ^ 63

/-- The values of Go's `int64` (and of `int` on a 64 bit platform). -/
def inInt64 (x : Int) : Prop := -(2 ^ 63) ≤ x ∧ x < 2 ^ 63

instance (x : Int) : Decidable (inInt64 x) := by unfold inInt64; infer_instance

/-- Go `a + b` on `int`. -/
def goAdd (a b : Int) : Int := wrapInt64 (a + b)

/-- Go `a - b` on `int64`. -/
def goSub (a b : Int) : Int := wrapInt64 (a - b)

/-- Go `a * b` on `int`. -/
def goMul (a b : Int) : Int := wrapInt64 (a * b)

/-- Go `a / b` for a positive constant `b`: truncation toward zero. -/
def goDiv (a b : Int) : Int := Int.tdiv a b

/-- Go `a % b` for a positive constant `b`: the sign follows the dividend. -/
def goMod (a b : Int) : Int := Int.tmod a b

/-- Decimal rendering `strconv.FormatInt(i, 10)`, also what `%d` prints. -/
def formatInt (i : Int) : String :=
  if i < 0 then "-" ++ Nat.repr i.natAbs else Nat.repr i.natAbs

/-- Two decimal digits, zero padded: the `15` and `04` fields of a Go time layout. -/
def pad2 (n : Nat) : String :=
  if n < 10 then "0" ++ Nat.repr n else Nat.repr n

/-! ## Data model (`models/models.go`) -/

structure Airline where
  Name : String
  Code : String
deriving DecidableEq

structure Event where
  Airport : String
  City : String
  Datetime : String
  Timestamp : Int
deriving DecidableEq

structure Duration where
  TotalMinutes : Int
  Formatted : String
deriving DecidableEq

structure Price where
  Amount : Int
  Currency : String
deriving DecidableEq

structure Baggage where
  CarryOn : String
  Checked : String
deriving DecidableEq

structure Flight where
  ID : String
  Provider : String
  Airline : Airline
  FlightNumber : String
  Departure : Event
  Arrival : Event
  Duration : Duration
  Stops : Int
  Price : Price
  AvailableSeats : Int
  CabinClass : String
  Aircraft : Option (Ptr String)
  Amenities : List String
  Baggage : Baggage
deriving DecidableEq

structure SearchRequest where
  Origin : String
  Destination : String
  DepartureDate : String
  ReturnDate : Option (Ptr String)
  Passengers : String
  CabinClass : String
  MinPrice : Option (Ptr Int)
  MaxPrice : Option (Ptr Int)
  MinStops : Option (Ptr Int)
  MaxStops : Option (Ptr Int)
  DepartureTimeStart : Option (Ptr String)
  DepartureTimeEnd : Option (Ptr String)
  ArrivalTimeStart : Option (Ptr String)
  ArrivalTimeEnd : Option (Ptr String)
  Airlines : List String
  MinDurationMinutes : Option (Ptr Int)
  MaxDurationMinutes : Option (Ptr Int)
  SortBy : Option (Ptr String)
deriving DecidableEq

structure Metadata where
  TotalResults : Int
  ProvidersQueried : Int
  ProvidersSucceeded : Int
  ProvidersFailed : Int
  SearchTimeMs : Int
  CacheHit : Bool
deriving DecidableEq

structure SearchResponse where
  SearchCriteria : SearchRequest
  Metadata : Metadata
  Flights : List Flight
deriving DecidableEq

/-! ## Runtime and standard library -/

/-- The requirement Go's `sort` package puts on a `less` function: a strict weak
ordering (irreflexive, transitive, with transitive incomparability). -/
def StrictWeakOrder (less : Flight → Flight → Bool) : Prop :=
  (∀ a, less a a = false) ∧
  (∀ a b c, less a b = true → less b c = true → less a c = true) ∧
  (∀ a b c, less a b = false → less b c = false → less a c = false)

/-- What the Go runtime and standard library choose, with their documented contracts.
`sort.Slice` reorders the slice so that no later element is `less` than an earlier
one (it need not be stable); a `range` over a map visits every entry once, in an
order of the runtime's choosing; `time.Unix(t, 0)` is rendered in the local zone. -/
structure Runtime where
  zoneOffset : Int → Int
  sortSlice : (Flight → Flight → Bool) → List Flight → List Flight
  mapRange : List (String × Flight) → List (String × Flight)
  sortSlice_perm : ∀ less l, (sortSlice less l).Perm l
  sortSlice_sorted : ∀ less l, StrictWeakOrder less →
    (sortSlice less l).Pairwise (fun a b => less b a = false)
  mapRange_perm : ∀ m, (mapRange m).Perm m

/-- Rendering `time.Unix(ts, 0).Format("15:04")`: hour and minute of the wall clock
in the local zone. The `time` package adds the zone offset, counts the seconds from
its absolute zero year in a `uint64` (`abs = uint64(sec + 9223372028715321600)`, the
additions wrapping at 64 bits), and reads the clock off `abs % 86400`. -/
def formatHHMM (rt : Runtime) (ts : Int) : String :=
  let abs := (ts + rt.zoneOffset ts + 9223372028715321600) % 2 ^ 64
  let secs := abs % 86400
  pad2 (secs / 3600).toNat ++ ":" ++ pad2 (secs % 3600 / 60).toNat

/-! ## Filter (`filterFlights`, aggregator.go 222-273) -/

/-- The guard `p != nil && test(*p)`. -/
def nonNilAnd {α : Type} (p : Option (Ptr α)) (test : α → Bool) : Bool :=
  match p with
  | none => false
  | some q => test q.val

/-- The inner loop over `req.Airlines`: `found` is set at the first match. -/
def airlineFound (f : Flight) : List String → Bool
  | [] => false
  | airline :: rest =>
    if f.Airline.Name = airline ∨ f.Airline.Code = airline then true
    else airlineFound f rest

/-- One iteration of the loop body: `false` where the source says `continue`,
`true` where it reaches the `append`. -/
def filterKeeps (rt : Runtime) (req : SearchRequest) (f : Flight) : Bool :=
  if f.Departure.Airport ≠ req.Origin ∨ f.Arrival.Airport ≠ req.Destination then false
  else if nonNilAnd req.MinPrice (fun v => decide (f.Price.Amount < v)) then false
  else if nonNilAnd req.MaxPrice (fun v => decide (f.Price.Amount > v)) then false
  else if nonNilAnd req.MinStops (fun v => decide (f.Stops < v)) then false
  else if nonNilAnd req.MaxStops (fun v => decide (f.Stops > v)) then false
  else if (match req.DepartureTimeStart, req.DepartureTimeEnd with
      | some s, some e =>
        let depTime := formatHHMM rt f.Departure.Timestamp
        decide (depTime < s.val ∨ depTime > e.val)
      | _, _ => false) then false
  else if (match req.ArrivalTimeStart, req.ArrivalTimeEnd with
      | some s, some e =>
        let arrTime := formatHHMM rt f.Arrival.Timestamp
        decide (arrTime < s.val ∨ arrTime > e.val)
      | _, _ => false) then false
  else if req.Airlines.length > 0 ∧ airlineFound f req.Airlines = false then false
  else if nonNilAnd req.MinDurationMinutes (fun v => decide (f.Duration.TotalMinutes < v)) then false
  else if nonNilAnd req.MaxDurationMinutes (fun v => decide (f.Duration.TotalMinutes > v)) then false
  else true

/-- The loop of `filterFlights`: `filtered` grows by `append` in input order. -/
def filterFlightsLoop (rt : Runtime) (req : SearchRequest) :
    List Flight → List Flight → List Flight
  | filtered, [] => filtered
  | filtered, f :: rest =>
    if filterKeeps rt req f then filterFlightsLoop rt req (filtered ++ [f]) rest
    else filterFlightsLoop rt req filtered rest

/-- The method `filterFlights(flights, req)`; its error is always nil. -/
def filterFlights (rt : Runtime) (flights : List Flight) (req : SearchRequest) :
    List Flight × Option GoError :=
  (filterFlightsLoop rt req [] flights, none)

/-- Reference reading of an optional bound: absent, it holds of every offer. -/
def whenPresent {α : Type} (o : Option (Ptr α)) (P : α → Prop) : Prop :=
  match o with
  | none => True
  | some p => P p.val

instance {α : Type} (o : Option (Ptr α)) (P : α → Prop) [DecidablePred P] :
    Decidable (whenPresent o P) := by
  unfold whenPresent; split <;> infer_instance

/-- Reference reading of a time-of-day window: it constrains only when both bounds
are present, and then the rendering lies lexically within them. -/
def withinWindow (start stop : Option (Ptr String)) (t : String) : Prop :=
  match start, stop with
  | some s, some e => s.val ≤ t ∧ t ≤ e.val
  | _, _ => True

instance (start stop : Option (Ptr String)) (t : String) :
    Decidable (withinWindow start stop t) := by
  unfold withinWindow; split <;> infer_instance

/-- Reference definition of the filter, following the specification: the route
matches and every present constraint holds, all bounds inclusive. -/
def satisfiesRequest (rt : Runtime) (req : SearchRequest) (f : Flight) : Prop :=
  f.Departure.Airport = req.Origin ∧ f.Arrival.Airport = req.Destination ∧
  whenPresent req.MinPrice (fun v => v ≤ f.Price.Amount) ∧
  whenPresent req.MaxPrice (fun v => f.Price.Amount ≤ v) ∧
  whenPresent req.MinStops (fun v => v ≤ f.Stops) ∧
  whenPresent req.MaxStops (fun v => f.Stops ≤ v) ∧
  whenPresent req.MinDurationMinutes (fun v => v ≤ f.Duration.TotalMinutes) ∧
  whenPresent req.MaxDurationMinutes (fun v => f.Duration.TotalMinutes ≤ v) ∧
  (req.Airlines ≠ [] → f.Airline.Name ∈ req.Airlines ∨ f.Airline.Code ∈ req.Airlines) ∧
  withinWindow req.DepartureTimeStart req.DepartureTimeEnd
    (formatHHMM rt f.Departure.Timestamp) ∧
  withinWindow req.ArrivalTimeStart req.ArrivalTimeEnd
    (formatHHMM rt f.Arrival.Timestamp)

instance (rt : Runtime) (req : SearchRequest) (f : Flight) :
    Decidable (satisfiesRequest rt req f) := by
  unfold satisfiesRequest; infer_instance

/-! ## Go maps -/

/-- A Go `map[string]α`: its entries, with pairwise distinct keys. -/
abbrev GoMap (α : Type) := List (String × α)

/-- The lookup `v, ok := m[key]`. -/
def mapGet {α : Type} : GoMap α → String → Option α
  | [], _ => none
  | (k, v) :: rest, key => if k = key then some v else mapGet rest key

/-- The assignment `m[key] = v`: replaces the entry of `key`, or adds one. -/
def mapSet {α : Type} : GoMap α → String → α → GoMap α
  | [], key, v => [(key, v)]
  | (k, w) :: rest, key, v =>
    if k = key then (k, v) :: rest else (k, w) :: mapSet rest key v

/-- The builtin `delete(m, key)`. -/
def mapDelete {α : Type} (m : GoMap α) (key : String) : GoMap α :=
  m.filter (fun e => decide (e.1 ≠ key))

/-! ## Deduplicate (`comparePrices`, aggregator.go 276-293) -/

/-- The map key `f.FlightNumber + "|" + strconv.FormatInt(f.Departure.Timestamp, 10)`. -/
def flightKey (f : Flight) : String :=
  f.FlightNumber ++ "|" ++ formatInt f.Departure.Timestamp

/-- The first loop of `comparePrices`: `flightMap` after the remaining offers. -/
def comparePricesLoop : GoMap Flight → List Flight → GoMap Flight
  | flightMap, [] => flightMap
  | flightMap, f :: rest =>
    let key := flightKey f
    match mapGet flightMap key with
    | some existing =>
      if f.Price.Amount < existing.Price.Amount then
        comparePricesLoop (mapSet flightMap key f) rest
      else comparePricesLoop flightMap rest
    | none => comparePricesLoop (mapSet flightMap key f) rest

/-- The method `comparePrices(flights)`: the values of the map, in the order the
`range` over the map visits them; its error is always nil. -/
def comparePrices (rt : Runtime) (flights : List Flight) : List Flight × Option GoError :=
  ((rt.mapRange (comparePricesLoop [] flights)).map Prod.snd, none)

/-- The grouping pair of the specification: flight number and departure instant. -/
def groupOf (f : Flight) : String × Int := (f.FlightNumber, f.Departure.Timestamp)

/-! ## Duration-fill (`calcDurations`, aggregator.go 296-306) -/

/-- The rendering `fmt.Sprintf("%dh %dm", dur/60, dur%60)`. -/
def formatDuration (dur : Int) : String :=
  formatInt (goDiv dur 60) ++ "h " ++ formatInt (goMod dur 60) ++ "m"

/-- The loop body of `calcDurations` on the offer `f` points to. -/
def calcDurationsBody (f : Flight) : Flight :=
  if f.Duration.TotalMinutes = 0 ∧ f.Departure.Timestamp > 0 ∧ f.Arrival.Timestamp > 0 then
    let dur := goDiv (goSub f.Arrival.Timestamp f.Departure.Timestamp) 60
    { f with Duration := { TotalMinutes := dur, Formatted := formatDuration dur } }
  else f

/-- One iteration of the loop of `calcDurations`: `f := &flights[i]`, then the body
writes through `f`. -/
def calcDurationsStep (flights : List Flight) (i : Nat) : List Flight :=
  match flights[i]? with
  | none => flights
  | some f => flights.set i (calcDurationsBody f)

/-- The method `calcDurations(flights)`: the slice after the in-place loop over
`i = 0 .. len(flights)-1`; its error is always nil. -/
def calcDurations (flights : List Flight) : List Flight × Option GoError :=
  ((List.range flights.length).foldl calcDurationsStep flights, none)

/-- The offer `f` with its Duration field replaced by `d`, every other field kept. -/
def withDuration (f : Flight) (d : Duration) : Flight := { f with Duration := d }

/-- Reference definition of the duration fill of one offer, following the
specification: minutes are the difference of the instants divided by 60. -/
def fillDuration (f : Flight) : Flight :=
  if f.Duration.TotalMinutes = 0 ∧ 0 < f.Departure.Timestamp ∧ 0 < f.Arrival.Timestamp then
    let d := Int.tdiv (f.Arrival.Timestamp - f.Departure.Timestamp) 60
    { f with Duration :=
        { TotalMinutes := d
          Formatted := formatInt (Int.tdiv d 60) ++ "h " ++ formatInt (Int.tmod d 60) ++ "m" } }
  else f

/-! ## Rank (`rankFlights`, aggregator.go 309-317) -/

/-- The closure `bestValue` of `rankFlights`, in Go's `int` arithmetic. -/
def bestValue (f : Flight) : Int :=
  goAdd (goAdd (goAdd f.Price.Amount (goMul f.Stops 100000))
    (goMul f.Duration.TotalMinutes 100)) (goDiv f.Departure.Timestamp 3600)

/-- The composite score of the specification over the unbounded integers. -/
def score (f : Flight) : Int :=
  f.Price.Amount + f.Stops * 100000 + f.Duration.TotalMinutes * 100 +
    Int.tdiv f.Departure.Timestamp 3600

/-- The method `rankFlights(flights)`: the slice after `sort.Slice` by `bestValue`;
its error is always nil. -/
def rankFlights (rt : Runtime) (flights : List Flight) : List Flight × Option GoError :=
  (rt.sortSlice (fun a b => decide (bestValue a < bestValue b)) flights, none)

/-! ## Sort (`sortFlights`, aggregator.go 320-359) -/

/-- The method `sortFlights(flights, req)`: the guard, then the `switch` on the
directive; a directive matching no `case` falls through. The error is always nil. -/
def sortFlights (rt : Runtime) (flights : List Flight) (req : SearchRequest) :
    List Flight × Option GoError :=
  match req.SortBy with
  | none => (flights, none)
  | some sortBy =>
    if sortBy.val = "" ∨ flights.length < 2 then (flights, none)
    else if sortBy.val = "price_asc" then
      (rt.sortSlice (fun a b => decide (a.Price.Amount < b.Price.Amount)) flights, none)
    else if sortBy.val = "price_desc" then
      (rt.sortSlice (fun a b => decide (a.Price.Amount > b.Price.Amount)) flights, none)
    else if sortBy.val = "duration_asc" then
      (rt.sortSlice (fun a b => decide (a.Duration.TotalMinutes < b.Duration.TotalMinutes))
        flights, none)
    else if sortBy.val = "duration_desc" then
      (rt.sortSlice (fun a b => decide (a.Duration.TotalMinutes > b.Duration.TotalMinutes))
        flights, none)
    else if sortBy.val = "departure_asc" then
      (rt.sortSlice (fun a b => decide (a.Departure.Timestamp < b.Departure.Timestamp))
        flights, none)
    else if sortBy.val = "departure_desc" then
      (rt.sortSlice (fun a b => decide (a.Departure.Timestamp > b.Departure.Timestamp))
        flights, none)
    else if sortBy.val = "arrival_asc" then
      (rt.sortSlice (fun a b => decide (a.Arrival.Timestamp < b.Arrival.Timestamp))
        flights, none)
    else if sortBy.val = "arrival_desc" then
      (rt.sortSlice (fun a b => decide (a.Arrival.Timestamp > b.Arrival.Timestamp))
        flights, none)
    else (flights, none)

/-- The eight directives that `sortFlights` has a `case` for. -/
def recognizedDirectives : List String :=
  ["price_asc", "price_desc", "duration_asc", "duration_desc",
   "departure_asc", "departure_desc", "arrival_asc", "arrival_desc"]

/-! ## Cache (`aggregator/cache.go`) -/

/-- An entry of the cache; `expiresAt` is an instant in nanoseconds. -/
structure cacheEntry where
  value : SearchResponse
  expiresAt : Int
deriving DecidableEq

/-- The cache: the store, the capacity, the time to live and the FIFO order. -/
structure aggregatorCache where
  store : GoMap cacheEntry
  maxSize : Int
  ttl : Int
  order : List String
deriving DecidableEq

/-- The constructor `newAggregatorCache(maxSize, ttl)`. -/
def newAggregatorCache (maxSize ttl : Int) : aggregatorCache :=
  { store := [], maxSize := maxSize, ttl := ttl, order := [] }

/-- The package variable `aggCache`: 1000 entries, 5 minutes. -/
def aggCache : aggregatorCache := newAggregatorCache 1000 (5 * 60 * 1000000000)

/-- The zero value `models.SearchResponse{}`. -/
def zeroResponse : SearchResponse :=
  { SearchCriteria :=
      { Origin := "", Destination := "", DepartureDate := "", ReturnDate := none,
        Passengers := "", CabinClass := "", MinPrice := none, MaxPrice := none,
        MinStops := none, MaxStops := none, DepartureTimeStart := none,
        DepartureTimeEnd := none, ArrivalTimeStart := none, ArrivalTimeEnd := none,
        Airlines := [], MinDurationMinutes := none, MaxDurationMinutes := none,
        SortBy := none }
    Metadata :=
      { TotalResults := 0, ProvidersQueried := 0, ProvidersSucceeded := 0,
        ProvidersFailed := 0, SearchTimeMs := 0, CacheHit := false }
    Flights := [] }

/-- The method `removeOrder(key)`: drops the first occurrence of `key` from `order`. -/
def aggregatorCache.removeOrder (c : aggregatorCache) (key : String) : aggregatorCache :=
  { c with order := c.order.erase key }

/-- The method `Get(key)` when `time.Now()` is `now`: the returned pair and the cache
afterwards. An entry found expired is deleted from the store and from the order. -/
def aggregatorCache.Get (c : aggregatorCache) (now : Int) (key : String) :
    (SearchResponse × Bool) × aggregatorCache :=
  match mapGet c.store key with
  | none => ((zeroResponse, false), c)
  | some entry =>
    if now > entry.expiresAt then
      ((zeroResponse, false),
        aggregatorCache.removeOrder { c with store := mapDelete c.store key } key)
    else ((entry.value, true), c)

/-- The method `Set(key, value)` when `time.Now()` is `now`. At capacity the oldest key
of `order` is evicted; `none` is the run-time panic of `c.order[0]` on an empty order. -/
def aggregatorCache.Set (c : aggregatorCache) (now : Int) (key : String)
    (value : SearchResponse) : Option aggregatorCache :=
  let entry : cacheEntry := { value := value, expiresAt := now + c.ttl }
  if (c.store.length : Int) ≥ c.maxSize then
    match c.order with
    | [] => none
    | oldest :: rest =>
      some { c with store := mapSet (mapDelete c.store oldest) key entry
                    order := rest ++ [key] }
  else some { c with store := mapSet c.store key entry, order := c.order ++ [key] }

/-- The verb `%v` applied to a pointer: `<nil>`, or the address in hexadecimal. -/
def formatPtr {α : Type} (p : Option (Ptr α)) : String :=
  match p with
  | none => "<nil>"
  | some q => "0x" ++ String.mk (Nat.toDigits 16 q.addr)

/-- The verb `%v` applied to a `[]string`: the elements between brackets, separated
by one space. -/
def formatStrings (l : List String) : String :=
  "[" ++ " ".intercalate l ++ "]"

/-- The function `cacheKey(req)`: the eighteen fields joined by a vertical bar. -/
def cacheKey (req : SearchRequest) : String :=
  "|".intercalate
    [req.Origin, req.Destination, req.DepartureDate, req.Passengers, req.CabinClass,
     formatPtr req.MinPrice, formatPtr req.MaxPrice, formatPtr req.MinStops,
     formatPtr req.MaxStops, formatPtr req.DepartureTimeStart,
     formatPtr req.DepartureTimeEnd, formatPtr req.ArrivalTimeStart,
     formatPtr req.ArrivalTimeEnd, formatStrings req.Airlines,
     formatPtr req.MinDurationMinutes, formatPtr req.MaxDurationMinutes,
     formatPtr req.SortBy, formatPtr req.ReturnDate]

/-! ## Search (`AggregatorService.Search`, aggregator.go 22-175) -/

/-- What one call of `Search` reads from outside the merge pipeline: the clock, the
state of the context before and after the provider calls, and what
`fetchFromProviders` returned (offers, success count, error). -/
structure CallEnv where
  nowGet : Int
  nowSet : Int
  elapsedMs : Int
  ctxErrBefore : Option GoError
  fetched : List Flight × Int × Option GoError
  ctxErrAfter : Option GoError

/-- The response of every failing exit of `Search`: no flights, zero results. -/
def failedResponse (req : SearchRequest) (queried succeeded : Int) (env : CallEnv) :
    SearchResponse :=
  { SearchCriteria := req
    Metadata :=
      { TotalResults := 0, ProvidersQueried := queried, ProvidersSucceeded := succeeded,
        ProvidersFailed := queried - succeeded, SearchTimeMs := env.elapsedMs,
        CacheHit := false }
    Flights := [] }

/-- The method `Search(ctx, req)` of a service with `providers` registered sources,
on the cache `cache`: the response, the error and the cache afterwards; `none` is a
run-time panic (of `aggCache.Set`). -/
def Search (rt : Runtime) (providers : Int) (cache : aggregatorCache) (env : CallEnv)
    (req : SearchRequest) : Option (SearchResponse × Option GoError × aggregatorCache) :=
  let key := cacheKey req
  match aggregatorCache.Get cache env.nowGet key with
  | ((resp, true), cache1) =>
    some ({ resp with Metadata :=
              { resp.Metadata with SearchTimeMs := env.elapsedMs, CacheHit := true } },
          none, cache1)
  | ((_, false), cache1) =>
    match env.ctxErrBefore with
    | some err => some (failedResponse req providers 0 env, some err, cache1)
    | none =>
    match env.fetched with
    | (_, successCount, some err) =>
      some (failedResponse req providers successCount env, some err, cache1)
    | (results, successCount, none) =>
    match env.ctxErrAfter with
    | some err => some (failedResponse req providers successCount env, some err, cache1)
    | none =>
    match filterFlights rt results req with
    | (_, some err) => some (failedResponse req providers successCount env, some err, cache1)
    | (filtered, none) =>
    match comparePrices rt filtered with
    | (_, some err) => some (failedResponse req providers successCount env, some err, cache1)
    | (unique, none) =>
    match calcDurations unique with
    | (_, some err) => some (failedResponse req providers successCount env, some err, cache1)
    | (unique1, none) =>
    match rankFlights rt unique1 with
    | (_, some err) => some (failedResponse req providers successCount env, some err, cache1)
    | (unique2, none) =>
    match sortFlights rt unique2 req with
    | (_, some err) => some (failedResponse req providers successCount env, some err, cache1)
    | (sorted, none) =>
      let resp : SearchResponse :=
        { SearchCriteria := req
          Metadata :=
            { TotalResults := sorted.length, ProvidersQueried := providers,
              ProvidersSucceeded := successCount,
              ProvidersFailed := providers - successCount,
              SearchTimeMs := env.elapsedMs, CacheHit := false }
          Flights := sorted }
      match aggregatorCache.Set cache1 env.nowSet key resp with
      | none => none
      | some cache2 => some (resp, none, cache2)

/-- The flights a successful `Search` computes on a cache miss from the fetched
offers: filter, deduplicate, duration-fill, rank, sort. -/
def mergePipeline (rt : Runtime) (results : List Flight) (req : SearchRequest) : List Flight :=
  (sortFlights rt (rankFlights rt (calcDurations
    (comparePrices rt (filterFlights rt results req).1).1).1).1 req).1

/-- Whether `Search` reaches the call `s.fetchFromProviders(ctx, req)` (aggregator.go
line 49), the only place from which a source is invoked: not on a cache hit, and not
when the context already reports an error. -/
def gatewayCalled (cache : aggregatorCache) (env : CallEnv) (req : SearchRequest) : Bool :=
  match aggregatorCache.Get cache env.nowGet (cacheKey req) with
  | ((_, true), _) => false
  | ((_, false), _) =>
    match env.ctxErrBefore with
    | some _ => false
    | none => true

/-! ## Histories of cache operations -/

/-- One operation on the cache, with the instant `time.Now()` it reads. -/
inductive CacheOp where
  | set (now : Int) (key : String) (value : SearchResponse)
  | get (now : Int) (key : String)
deriving DecidableEq

/-- The cache after one operation; `none` is the panic of `Set`. -/
def aggregatorCache.step (c : aggregatorCache) : CacheOp → Option aggregatorCache
  | CacheOp.set now key value => aggregatorCache.Set c now key value
  | CacheOp.get now key => some (aggregatorCache.Get c now key).2

/-- The cache after a sequence of operations, run in order. -/
def aggregatorCache.run (c : aggregatorCache) : List CacheOp → Option aggregatorCache
  | [] => some c
  | op :: ops =>
    match aggregatorCache.step c op with
    | none => none
    | some c1 => aggregatorCache.run c1 ops

/-- A store request: the instant, the key and the value of a `Set`. -/
structure StoreReq where
  now : Int
  key : String
  value : SearchResponse
deriving DecidableEq

/-- The `Set` operations of a history, in order. -/
def setsOf : List CacheOp → List StoreReq
  | [] => []
  | CacheOp.set now key value :: ops => { now := now, key := key, value := value } :: setsOf ops
  | CacheOp.get _ _ :: ops => setsOf ops

/-- The entry `Set` writes for a store request under time to live `ttl`. -/
def entryOf (ttl : Int) (s : StoreReq) : String × cacheEntry :=
  (s.key, { value := s.value, expiresAt := s.now + ttl })

/-- The cache that holds exactly the store requests `sets`, oldest first. -/
def filledCache (maxSize ttl : Int) (sets : List StoreReq) : aggregatorCache :=
  { store := sets.map (entryOf ttl), maxSize := maxSize, ttl := ttl
    order := sets.map StoreReq.key }

/-- Invariant of every cache reached from `newAggregatorCache`: keys of the store are
distinct and each occurs in the order list. -/
def CacheInv (c : aggregatorCache) : Prop :=
  (c.store.map Prod.fst).Nodup ∧ ∀ k ∈ c.store.map Prod.fst, k ∈ c.order

/-- Invariant of a cache reached by a history that stores no key twice, `sets` being
the stores so far: the entries of the store are stores of the history, in the order
in which they were made, and the order list is the list of their keys. -/
def FifoInv (c : aggregatorCache) (sets : List StoreReq) : Prop :=
  c.store.Sublist (sets.map (entryOf c.ttl)) ∧ c.order = c.store.map Prod.fst ∧
  (sets.map StoreReq.key).Nodup

/-! ## Reference notions for the cache key -/

/-- Field-for-field identity of two requests: the same strings, the same Airlines, and
each optional field absent in both or present in both with the same value. The
addresses of the variables holding the optional values play no part. -/
def sameFields (a b : SearchRequest) : Prop :=
  a.Origin = b.Origin ∧ a.Destination = b.Destination ∧
  a.DepartureDate = b.DepartureDate ∧ a.Passengers = b.Passengers ∧
  a.CabinClass = b.CabinClass ∧ a.Airlines = b.Airlines ∧
  a.ReturnDate.map Ptr.val = b.ReturnDate.map Ptr.val ∧
  a.MinPrice.map Ptr.val = b.MinPrice.map Ptr.val ∧
  a.MaxPrice.map Ptr.val = b.MaxPrice.map Ptr.val ∧
  a.MinStops.map Ptr.val = b.MinStops.map Ptr.val ∧
  a.MaxStops.map Ptr.val = b.MaxStops.map Ptr.val ∧
  a.DepartureTimeStart.map Ptr.val = b.DepartureTimeStart.map Ptr.val ∧
  a.DepartureTimeEnd.map Ptr.val = b.DepartureTimeEnd.map Ptr.val ∧
  a.ArrivalTimeStart.map Ptr.val = b.ArrivalTimeStart.map Ptr.val ∧
  a.ArrivalTimeEnd.map Ptr.val = b.ArrivalTimeEnd.map Ptr.val ∧
  a.MinDurationMinutes.map Ptr.val = b.MinDurationMinutes.map Ptr.val ∧
  a.MaxDurationMinutes.map Ptr.val = b.MaxDurationMinutes.map Ptr.val ∧
  a.SortBy.map Ptr.val = b.SortBy.map Ptr.val

/-- The five required strings of the request contain no vertical bar, the separator
of the cache key. -/
def barFree (r : SearchRequest) : Prop :=
  '|' ∉ r.Origin.data ∧ '|' ∉ r.Destination.data ∧ '|' ∉ r.DepartureDate.data ∧
  '|' ∉ r.Passengers.data ∧ '|' ∉ r.CabinClass.data

instance (r : SearchRequest) : Decidable (barFree r) := by
  unfold barFree; infer_instance

/-- Every entry of an airline list is non-empty and contains no space, the separator
`%v` puts between the elements of a slice. -/
def plainAirlines (l : List String) : Prop :=
  ∀ a ∈ l, a.data ≠ [] ∧ ' ' ∉ a.data

instance (l : List String) : Decidable (plainAirlines l) := by
  unfold plainAirlines; infer_instance

/-! ## Definitions used by the proofs -/

/-- Loop invariant of `comparePrices` after the offers `seen`: keys are distinct,
every entry is stored under its own key and comes from `seen`, and every offer seen
has an entry under its key whose price is not above its own. -/
def DedupInv (m : GoMap Flight) (seen : List Flight) : Prop :=
  (m.map Prod.fst).Nodup ∧
  (∀ e ∈ m, e.1 = flightKey e.2 ∧ e.2 ∈ seen) ∧
  (∀ f ∈ seen, ∃ v, mapGet m (flightKey f) = some v ∧ v.Price.Amount ≤ f.Price.Amount)

/-- Reading a decimal numeral back, most significant digit first. -/
def decodeDigits (cs : List Char) : Nat :=
  cs.foldl (fun v c => 10 * v + (c.toNat - 48)) 0

/-! ## A concrete runtime -/

/-- A runtime for evaluating the model: UTC as the local zone, insertion sort for
`sort.Slice` (what Go runs on slices of at most 12 elements), and a `range` that
visits a map in insertion order. -/
def stdRuntime : Runtime where
  zoneOffset := fun _ => 0
  sortSlice := fun less l => l.insertionSort (fun a b => less b a = false)
  mapRange := fun m => m
  sortSlice_perm := fun less l => List.perm_insertionSort _ l
  sortSlice_sorted := by
    intro less l hswo
    obtain ⟨hirr, htrans, hneg⟩ := hswo
    haveI : IsTotal Flight (fun a b => less b a = false) := ⟨by
      intro a b
      by_cases h1 : less b a = true
      · by_cases h2 : less a b = true
        · have := htrans a b a h2 h1
          rw [hirr a] at this
          cases this
        · exact Or.inr (by simpa using h2)
      · exact Or.inl (by simpa using h1)⟩
    haveI : IsTrans Flight (fun a b => less b a = false) :=
      ⟨fun a b c hab hbc => hneg c b a hbc hab⟩
    exact List.sorted_insertionSort _ l
  mapRange_perm := fun m => List.Perm.refl m

/-- An offer on the route CGK to DPS, for evaluating the model. -/
def sampleFlight (id flightNumber : String) (dep arr minutes stops amount : Int) : Flight :=
  { ID := id, Provider := "Garuda Indonesia"
    Airline := { Name := "Garuda Indonesia", Code := "GA" }
    FlightNumber := flightNumber
    Departure := { Airport := "CGK", City := "Jakarta", Datetime := "", Timestamp := dep }
    Arrival := { Airport := "DPS", City := "Denpasar", Datetime := "", Timestamp := arr }
    Duration := { TotalMinutes := minutes, Formatted := "" }
    Stops := stops
    Price := { Amount := amount, Currency := "IDR" }
    AvailableSeats := 9, CabinClass := "economy", Aircraft := none, Amenities := []
    Baggage := { CarryOn := "1 piece(s)", Checked := "1 piece(s)" } }

/-- The request of the test suite: CGK to DPS on 2025-12-15, no optional field. -/
def sampleRequest : SearchRequest :=
  { Origin := "CGK", Destination := "DPS", DepartureDate := "2025-12-15", ReturnDate := none
    Passengers := "1", CabinClass := "economy", MinPrice := none, MaxPrice := none
    MinStops := none, MaxStops := none, DepartureTimeStart := none, DepartureTimeEnd := none
    ArrivalTimeStart := none, ArrivalTimeEnd := none, Airlines := []
    MinDurationMinutes := none, MaxDurationMinutes := none, SortBy := none }

/-- The flight GA400 as offered by a first source. -/
def offerA : Flight := sampleFlight "GA400_Garuda" "GA400" 1765760400 1765767000 110 0 1250000

/-- The same flight GA400, same departure, from a second source at a lower price. -/
def offerB : Flight := sampleFlight "GA400_Batik" "GA400" 1765760400 1765767000 110 0 1100000

/-- An offer with one stop that arrives without a duration. -/
def offerC : Flight := sampleFlight "QZ520_AirAsia" "QZ520" 1765764000 1765770000 0 1 650000

/-- A call on a live context in which four sources succeeded. -/
def sampleEnv : CallEnv :=
  { nowGet := 1765700000000000000, nowSet := 1765700000400000000, elapsedMs := 400
    ctxErrBefore := none, fetched := ([offerA, offerB, offerC], 4, none), ctxErrAfter := none }

/-- The response `Search` computes for `sampleRequest` in `sampleEnv`. -/
def sampleResponse : SearchResponse :=
  { SearchCriteria := sampleRequest
    Metadata :=
      { TotalResults := 2, ProvidersQueried := 4, ProvidersSucceeded := 4,
        ProvidersFailed := 0, SearchTimeMs := 400, CacheHit := false }
    Flights := [withDuration offerC { TotalMinutes := 100, Formatted := "1h 40m" }, offerB] }

/-- The cache after that call: one entry, expiring five minutes after the store. -/
def sampleCacheAfter : aggregatorCache :=
  { store := [(cacheKey sampleRequest,
      { value := sampleResponse, expiresAt := 1765700300400000000 })]
    maxSize := 1000, ttl := 300000000000, order := [cacheKey sampleRequest] }

/-- The request `sampleRequest` with the directive `price_asc`. -/
def sampleSortRequest : SearchRequest :=
  { sampleRequest with SortBy := some { addr := 824633802752, val := "price_asc" } }

/-- A request that sets only MaxDurationMinutes = 200. -/
def maxDurationRequest : SearchRequest :=
  { sampleRequest with MaxDurationMinutes := some { addr := 824633802760, val := 200 } }

/-- An offer fetched without a duration (TotalMinutes = 0) whose instants are 500
minutes apart. -/
def unfilledOffer : Flight :=
  sampleFlight "GA714_Garuda" "GA714" 1765760400 1765790400 0 0 1200000

/-- A call on a live context in which one source returned `unfilledOffer`. -/
def unfilledEnv : CallEnv :=
  { nowGet := 1765700000000000000, nowSet := 1765700000400000000, elapsedMs := 400
    ctxErrBefore := none, fetched := ([unfilledOffer], 1, none), ctxErrAfter := none }

/-- The response `Search` computes for `maxDurationRequest` in `unfilledEnv`. -/
def unfilledResponse : SearchResponse :=
  { SearchCriteria := maxDurationRequest
    Metadata :=
      { TotalResults := 1, ProvidersQueried := 1, ProvidersSucceeded := 1,
        ProvidersFailed := 0, SearchTimeMs := 400, CacheHit := false }
    Flights := [withDuration unfilledOffer { TotalMinutes := 500, Formatted := "8h 20m" }] }

/-- The cache after that call. -/
def unfilledCacheAfter : aggregatorCache :=
  { store := [(cacheKey maxDurationRequest,
      { value := unfilledResponse, expiresAt := 1765700300400000000 })]
    maxSize := 1000, ttl := 300000000000, order := [cacheKey maxDurationRequest] }

/-! ## Sample inputs for the cache and the cache key -/

/-- A call whose context has already expired, with sources that would have answered. -/
def expiredEnv : CallEnv :=
  { sampleEnv with ctxErrBefore := some GoError.deadlineExceeded }

/-- A second call, 100 seconds after the store of `sampleEnv`, on an expired context
and with sources that return nothing. -/
def secondEnv : CallEnv :=
  { nowGet := 1765700100400000000, nowSet := 1765700100800000000, elapsedMs := 1
    ctxErrBefore := some GoError.deadlineExceeded, fetched := ([], 0, none)
    ctxErrAfter := some GoError.deadlineExceeded }

/-- The response of that second call: the cached one, flagged as a hit. -/
def secondResponse : SearchResponse :=
  { sampleResponse with Metadata :=
      { sampleResponse.Metadata with SearchTimeMs := 1, CacheHit := true } }

/-- Two stores in a cache of capacity 2, with a hit in between. -/
def fillOps : List CacheOp :=
  [CacheOp.set 0 "a" sampleResponse, CacheOp.get 5 "a", CacheOp.set 10 "b" zeroResponse]

/-- The key of `sampleRequest` stored twice, 100 ms apart, in the cache `aggCache`:
what two overlapping calls of `Search` with the same request do when both look the
key up before either stores. -/
def restoreOps : List CacheOp :=
  [CacheOp.set 1765700000400000000 (cacheKey sampleRequest) sampleResponse,
   CacheOp.set 1765700000500000000 (cacheKey sampleRequest) sampleResponse]

/-- The cache `aggCache` after `restoreOps`: one entry, its key twice in the order. -/
def restoredCache : aggregatorCache :=
  { store := [(cacheKey sampleRequest,
      { value := sampleResponse, expiresAt := 1765700300500000000 })]
    maxSize := 1000, ttl := 300000000000
    order := [cacheKey sampleRequest, cacheKey sampleRequest] }

/-- Five stores in a cache of capacity 2, the key `a` stored twice. -/
def overfillOps : List CacheOp :=
  [CacheOp.set 0 "a" zeroResponse, CacheOp.set 1 "a" zeroResponse,
   CacheOp.set 2 "b" zeroResponse, CacheOp.set 3 "c" zeroResponse,
   CacheOp.set 4 "d" zeroResponse]

/-- The request `sampleRequest` with MinPrice = 500000 held in one variable. -/
def minPriceRequestA : SearchRequest :=
  { sampleRequest with MinPrice := some { addr := 824633802768, val := 500000 } }

/-- The same request with MinPrice = 500000 held in another variable. -/
def minPriceRequestB : SearchRequest :=
  { sampleRequest with MinPrice := some { addr := 824633802776, val := 500000 } }

/-- The request of `minPriceRequestA` after its variable was set to 900000. -/
def minPriceRequestC : SearchRequest :=
  { sampleRequest with MinPrice := some { addr := 824633802768, val := 900000 } }

/-- A request whose Origin contains the separator of the key. -/
def barRequestA : SearchRequest :=
  { sampleRequest with Origin := "CGK|DPS", Destination := "SUB" }

/-- A request whose Destination contains the separator of the key. -/
def barRequestB : SearchRequest :=
  { sampleRequest with Origin := "CGK", Destination := "DPS|SUB" }

/-- A request for one airline whose name has a space. -/
def airlineRequestA : SearchRequest :=
  { sampleRequest with Airlines := ["Garuda Indonesia"] }

/-- A request for two airlines. -/
def airlineRequestB : SearchRequest :=
  { sampleRequest with Airlines := ["Garuda", "Indonesia"] }

/-- A request whose Airlines list holds one empty name. -/
def airlineRequestC : SearchRequest :=
  { sampleRequest with Airlines := [""] }

/-- A request without MinPrice whose airline name spells out pointer renderings. -/
def shiftedRequestA : SearchRequest :=
  { sampleRequest with
      Airlines := ["x|0xc000010000|<nil>|<nil>|<nil>|<nil>|<nil>|<nil>|<nil>|[y"] }

/-- A request with MinPrice present whose cabin class spells out pointer renderings. -/
def shiftedRequestB : SearchRequest :=
  { sampleRequest with
      CabinClass := "economy|<nil>|<nil>|<nil>|<nil>|<nil>|<nil>|<nil>|<nil>|[x"
      MinPrice := some { addr := 824633786368, val := 500000 }
      Airlines := ["y"] }

/-! ## The source gateway (`fetchFromProviders`) -/

/-- What one call `prov.FetchFlights(ctx, req)` returns: the pair `(flights, err)`. -/
structure Attempt where
  flights : List Flight
  err : Option GoError
deriving DecidableEq

/-- A registered source (`providers.Provider`) as one call of `fetchFromProviders` sees
it: `FetchFlights i` is what its invocation number `i` returns, the first invocation
being number 0. The context and the request are the same at every invocation; what
the source observes of the context (a deadline that has expired) shows in the
outcome, as in `simulateDelay`, which returns `ctx.Err()`. -/
structure Provider where
  FetchFlights : Nat → Attempt

/-- The variables `flights` and `err` of one goroutine of `fetchFromProviders`, with
the number of calls of `FetchFlights` it has made and the milliseconds it has spent
in `time.Sleep`. -/
structure Goroutine where
  flights : List Flight
  err : Option GoError
  calls : Nat
  sleptMs : Int
deriving DecidableEq

/-- The loop `for i := 0; i <= retries; i++` of a goroutine, entered with `left`
iterations to go (`retries + 1 - i` of them): call the source, leave the loop when
`err == nil`, otherwise sleep `100 * (i + 1)` milliseconds and go on. Nothing in the
loop reads the context. -/
def retryLoop (prov : Provider) : Nat → Nat → Goroutine → Goroutine
  | 0, _, st => st
  | left + 1, i, st =>
    let a := prov.FetchFlights i
    if a.err = none then
      { flights := a.flights, err := none, calls := st.calls + 1, sleptMs := st.sleptMs }
    else
      retryLoop prov left (i + 1)
        { flights := a.flights, err := a.err, calls := st.calls + 1
          sleptMs := st.sleptMs + 100 * ((i : Int) + 1) }

/-- One goroutine up to the end of its retry loop: `retries := 2`, so `i` takes the
values 0, 1 and 2. -/
def goroutine (prov : Provider) : Goroutine :=
  retryLoop prov 3 0 { flights := [], err := none, calls := 0, sleptMs := 0 }

/-- What the goroutine of source number `g` does after its retry loop when
`err == nil`, one step at a time: it sends its flights on `resultsChan`, then executes
`successCount++`, which is `successCount = successCount + 1`: a load of the shared
variable followed by a store. No lock and no atomic operation joins the two. -/
inductive GoStep where
  | send (g : Nat)
  | load (g : Nat)
  | store (g : Nat)
deriving DecidableEq

/-- The memory the goroutines share, and the value each one has loaded. -/
structure GatewayState where
  resultsChan : List (List Flight)
  successCount : Int
  loaded : Nat → Int

/-- The flights held by goroutine number `g` at the end of its retry loop. -/
def flightsOf (outcomes : List Goroutine) (g : Nat) : List Flight :=
  match outcomes.get? g with
  | some o => o.flights
  | none => []

/-- One step of one goroutine. The channel has room for one value per source, so a
send never blocks; the number of goroutines is below 2^63, so the increment does
not wrap. -/
def GatewayState.step (outcomes : List Goroutine) (st : GatewayState) :
    GoStep → GatewayState
  | GoStep.send g => { st with resultsChan := st.resultsChan ++ [flightsOf outcomes g] }
  | GoStep.load g =>
    { st with loaded := fun h => if h = g then st.successCount else st.loaded h }
  | GoStep.store g => { st with successCount := st.loaded g + 1 }

/-- The steps of goroutine number `g` after a successful retry loop, in program
order. -/
def programOf (g : Nat) : List GoStep := [GoStep.send g, GoStep.load g, GoStep.store g]

/-- The goroutines whose retry loop ended with `err == nil`, by source number. -/
def succeeded (outcomes : List Goroutine) : List Nat :=
  (List.range outcomes.length).filter
    (fun g => match outcomes.get? g with
      | some o => o.err.isNone
      | none => false)

/-- A schedule of the Go scheduler: an interleaving of the programs of the goroutines
that succeeded, each goroutine taking its own steps in program order. It holds every
step of every such goroutine: the caller receives from `done` once per goroutine
before it closes and reads the channel and reads `successCount`. -/
def validSchedule (outcomes : List Goroutine) (schedule : List GoStep) : Prop :=
  schedule.Perm ((succeeded outcomes).flatMap programOf) ∧
  ∀ g ∈ succeeded outcomes, (programOf g).Sublist schedule

/-- The schedule in which the goroutines that succeeded finish one after the other,
in the order of registration. -/
def sequentialSchedule (outcomes : List Goroutine) : List GoStep :=
  (succeeded outcomes).flatMap programOf

/-- The source gateway: one goroutine per source runs its retry loop; those that
succeeded send their flights and increment `successCount` as `schedule` interleaves
them (a goroutine that failed writes `failedCount` only, which nothing reads); the
caller waits for every goroutine, closes the channel, appends what it holds in the
order of the sends, and returns `allFlights, successCount, nil`. -/
def fetchFromProviders (schedule : List GoStep) (providers : List Provider) :
    List Flight × Int × Option GoError :=
  let outcomes := providers.map goroutine
  let st := schedule.foldl (GatewayState.step outcomes)
    { resultsChan := [], successCount := 0, loaded := fun _ => 0 }
  (st.resultsChan.flatten, st.successCount, none)

/-- A source that answers its first invocation with the given flights. -/
def answering (flights : List Flight) : Provider :=
  { FetchFlights := fun _ => { flights := flights, err := none } }

/-- A source that fails twice with the simulated 503 of AirAsia, then answers. -/
def recovering (flights : List Flight) : Provider :=
  { FetchFlights := fun i =>
      if i < 2 then
        { flights := [], err := some (GoError.other "AirAsia API Service Unavailable (503)") }
      else { flights := flights, err := none } }

/-- A source that is down: every invocation fails. -/
def unavailable : Provider :=
  { FetchFlights := fun _ =>
      { flights := [], err := some (GoError.other "AirAsia API Service Unavailable (503)") } }

/-- A source that respects cancellation, under a context whose deadline expires while
the first invocation waits: `simulateDelay` returns `ctx.Err()` at every invocation. -/
def cancelled : Provider :=
  { FetchFlights := fun _ => { flights := [], err := some GoError.deadlineExceeded } }

/-- Two goroutines that execute `successCount++` at the same time: both load the
counter before either stores it. -/
def racingSchedule : List GoStep :=
  [GoStep.send 0, GoStep.send 1, GoStep.load 0, GoStep.load 1, GoStep.store 0, GoStep.store 1]

/-- What a step puts on `resultsChan`. -/
def sentOn (outcomes : List Goroutine) : GoStep → List (List Flight)
  | GoStep.send g => [flightsOf outcomes g]
  | _ => []

/-- Whether a step is the store of `successCount++`. -/
def isStore : GoStep → Bool
  | GoStep.store _ => true
  | _ => false

/-! ## `sort.Slice` of the Go library (pattern-defeating quicksort, `sort/zsortfunc.go`)

The functions of `sort/zsortfunc.go` as of Go 1.19 and later, under their names.

A slice under sorting is the element stored at each index; `less(i, j)` of
`rankFlights` and `sortFlights` compares the elements now stored at `i` and `j`. Loops
are recursive functions whose first numeric argument counts the iterations left. -/

/-- A Go slice while it is sorted: the element stored at each index. -/
structure Slice (α : Type) where
  elem : Nat → α

/-- The call `data.Swap(i, j)`. -/
def swap {α : Type} (data : Slice α) (i j : Nat) : Slice α :=
  { elem := fun k => if k = i then data.elem j else if k = j then data.elem i else data.elem k }

/-- The inner loop of `insertionSort_func`, entered with the given `j`:
`for ; j > a && less(data[j], data[j-1]); j-- { swap(j, j-1) }`. -/
def insertionInner {α : Type} (less : α → α → Bool) (a : Nat) : Nat → Slice α → Slice α
  | 0, data => data
  | j + 1, data =>
    if j + 1 > a ∧ less (data.elem (j + 1)) (data.elem j) = true then
      insertionInner less a j (swap data (j + 1) j)
    else data

/-- The outer loop of `insertionSort_func`, with `n` values of `i` to go. -/
def insertionOuter {α : Type} (less : α → α → Bool) (a : Nat) :
    Nat → Nat → Slice α → Slice α
  | 0, _, data => data
  | n + 1, i, data => insertionOuter less a n (i + 1) (insertionInner less a i data)

/-- The function `insertionSort_func(data, a, b)`: `i` runs from `a + 1` to `b - 1`. -/
def insertionSort_func {α : Type} (less : α → α → Bool) (data : Slice α) (a b : Nat) :
    Slice α :=
  insertionOuter less a (b - (a + 1)) (a + 1) data

/-- The function `siftDown_func(data, lo, hi, first)`, `root` starting at `lo`. -/
def siftDown_func {α : Type} (less : α → α → Bool) (hi first : Nat) :
    Nat → Nat → Slice α → Slice α
  | 0, _, data => data
  | fuel + 1, root, data =>
    if 2 * root + 1 ≥ hi then data
    else
      let child :=
        if 2 * root + 2 < hi ∧
            less (data.elem (first + (2 * root + 1))) (data.elem (first + (2 * root + 2))) = true then
          2 * root + 2
        else 2 * root + 1
      if less (data.elem (first + root)) (data.elem (first + child)) = true then
        siftDown_func less hi first fuel child (swap data (first + root) (first + child))
      else data

/-- The first loop of `heapSort_func`: `siftDown` from `i` down to 0. -/
def heapBuild {α : Type} (less : α → α → Bool) (hi first : Nat) :
    Nat → Slice α → Slice α
  | 0, data => siftDown_func less hi first hi 0 data
  | i + 1, data => heapBuild less hi first i (siftDown_func less hi first hi (i + 1) data)

/-- The second loop of `heapSort_func`: pop the greatest element, from `i` down to 0. -/
def heapPop {α : Type} (less : α → α → Bool) (first : Nat) : Nat → Slice α → Slice α
  | 0, data => swap data first first
  | i + 1, data =>
    heapPop less first i
      (siftDown_func less (i + 1) first (i + 1) 0 (swap data first (first + (i + 1))))

/-- The function `heapSort_func(data, a, b)`. -/
def heapSort_func {α : Type} (less : α → α → Bool) (data : Slice α) (a b : Nat) : Slice α :=
  if b - a = 0 then data
  else heapPop less a (b - a - 1) (heapBuild less (b - a) a ((b - a - 1) / 2) data)

/-- The loop `for i <= j && less(data[i], data[a]) { i++ }`; the result is `i`. -/
def partitionUp {α : Type} (less : α → α → Bool) (data : Slice α) (a j : Nat) :
    Nat → Nat → Nat
  | 0, i => i
  | fuel + 1, i =>
    if i ≤ j ∧ less (data.elem i) (data.elem a) = true then partitionUp less data a j fuel (i + 1)
    else i

/-- The loop `for i <= j && !less(data[j], data[a]) { j-- }`; the result is `j`. -/
def partitionDown {α : Type} (less : α → α → Bool) (data : Slice α) (a i : Nat) : Nat → Nat
  | 0 => 0
  | j + 1 =>
    if i ≤ j + 1 ∧ less (data.elem (j + 1)) (data.elem a) = false then partitionDown less data a i j
    else j + 1

/-- The `for` loop of `partition_func` after the first exchange; the result is the
slice and `j`. -/
def partitionLoop {α : Type} (less : α → α → Bool) (a : Nat) :
    Nat → Slice α → Nat → Nat → Slice α × Nat
  | 0, data, _, j => (data, j)
  | fuel + 1, data, i, j =>
    let i1 := partitionUp less data a j (j + 1 - i) i
    let j1 := partitionDown less data a i1 j
    if i1 > j1 then (data, j1)
    else partitionLoop less a fuel (swap data i1 j1) (i1 + 1) (j1 - 1)

/-- The function `partition_func(data, a, b, pivot)`: the slice, `newpivot` and
`alreadyPartitioned`. -/
def partition_func {α : Type} (less : α → α → Bool) (data : Slice α) (a b pivot : Nat) :
    Slice α × Nat × Bool :=
  let data1 := swap data a pivot
  let i := partitionUp less data1 a (b - 1) (b - 1 - a) (a + 1)
  let j := partitionDown less data1 a i (b - 1)
  if i > j then (swap data1 j a, j, true)
  else
    let r := partitionLoop less a (b - a) (swap data1 i j) (i + 1) (j - 1)
    (swap r.1 r.2 a, r.2, false)

/-- The loop `for i <= j && !less(data[a], data[i]) { i++ }`. -/
def partitionEqualUp {α : Type} (less : α → α → Bool) (data : Slice α) (a j : Nat) :
    Nat → Nat → Nat
  | 0, i => i
  | fuel + 1, i =>
    if i ≤ j ∧ less (data.elem a) (data.elem i) = false then partitionEqualUp less data a j fuel (i + 1)
    else i

/-- The loop `for i <= j && less(data[a], data[j]) { j-- }`. -/
def partitionEqualDown {α : Type} (less : α → α → Bool) (data : Slice α) (a i : Nat) :
    Nat → Nat
  | 0 => 0
  | j + 1 =>
    if i ≤ j + 1 ∧ less (data.elem a) (data.elem (j + 1)) = true then
      partitionEqualDown less data a i j
    else j + 1

/-- The `for` loop of `partitionEqual_func`; the result is the slice and `i`. -/
def partitionEqualLoop {α : Type} (less : α → α → Bool) (a : Nat) :
    Nat → Slice α → Nat → Nat → Slice α × Nat
  | 0, data, i, _ => (data, i)
  | fuel + 1, data, i, j =>
    let i1 := partitionEqualUp less data a j (j + 1 - i) i
    let j1 := partitionEqualDown less data a i1 j
    if i1 > j1 then (data, i1)
    else partitionEqualLoop less a fuel (swap data i1 j1) (i1 + 1) (j1 - 1)

/-- The function `partitionEqual_func(data, a, b, pivot)`: the slice and `newpivot`. -/
def partitionEqual_func {α : Type} (less : α → α → Bool) (data : Slice α) (a b pivot : Nat) :
    Slice α × Nat :=
  partitionEqualLoop less a (b - a + 1) (swap data a pivot) (a + 1) (b - 1)

/-- The loop `for i < b && !less(data[i], data[i-1]) { i++ }` of
`partialInsertionSort_func`. -/
def partialScan {α : Type} (less : α → α → Bool) (data : Slice α) (b : Nat) :
    Nat → Nat → Nat
  | 0, i => i
  | fuel + 1, i =>
    if i < b ∧ less (data.elem i) (data.elem (i - 1)) = false then partialScan less data b fuel (i + 1)
    else i

/-- The loop `for j := i - 1; j >= 1; j-- { if !less(data[j], data[j-1]) { break };
swap(j, j-1) }`, entered with the given `j`. -/
def shiftLeft {α : Type} (less : α → α → Bool) : Nat → Slice α → Slice α
  | 0, data => data
  | j + 1, data =>
    if less (data.elem (j + 1)) (data.elem j) = false then data
    else shiftLeft less j (swap data (j + 1) j)

/-- The loop `for j := i + 1; j < b; j++ { if !less(data[j], data[j-1]) { break };
swap(j, j-1) }`, entered with the given `j`. -/
def shiftRight {α : Type} (less : α → α → Bool) (b : Nat) :
    Nat → Nat → Slice α → Slice α
  | 0, _, data => data
  | fuel + 1, j, data =>
    if j < b then
      if less (data.elem j) (data.elem (j - 1)) = false then data
      else shiftRight less b fuel (j + 1) (swap data j (j - 1))
    else data

/-- The loop `for j := 0; j < maxSteps; j++` of `partialInsertionSort_func`, with
`steps` iterations to go. -/
def partialInsertionLoop {α : Type} (less : α → α → Bool) (a b : Nat) :
    Nat → Nat → Slice α → Slice α × Bool
  | 0, _, data => (data, false)
  | steps + 1, i, data =>
    let i1 := partialScan less data b (b - i) i
    if i1 = b then (data, true)
    else if b - a < 50 then (data, false)
    else
      let data1 := swap data i1 (i1 - 1)
      let data2 := if i1 - a ≥ 2 then shiftLeft less (i1 - 1) data1 else data1
      let data3 := if b - i1 ≥ 2 then shiftRight less b (b - (i1 + 1)) (i1 + 1) data2 else data2
      partialInsertionLoop less a b steps i1 data3

/-- The function `partialInsertionSort_func(data, a, b)`: `maxSteps = 5`,
`shortestShifting = 50`. -/
def partialInsertionSort_func {α : Type} (less : α → α → Bool) (data : Slice α) (a b : Nat) :
    Slice α × Bool :=
  partialInsertionLoop less a b 5 (a + 1) data

/-- The number of bits of `n` (`bits.Len`). -/
def bitsLen (n : Nat) : Nat := if n = 0 then 0 else Nat.log2 n + 1

/-- The method `Next` of `xorshift`, on 64 bits. -/
def xorshiftNext (r : Nat) : Nat :=
  let r1 := r ^^^ ((r <<< 13) % 2 ^ 64)
  let r2 := r1 ^^^ (r1 >>> 7)
  r2 ^^^ ((r2 <<< 17) % 2 ^ 64)

/-- The index `other` drawn from the generator state `r` in `breakPatterns_func`. -/
def breakOther (r length : Nat) : Nat :=
  let other := r &&& (2 ^ bitsLen length - 1)
  if other ≥ length then other - length else other

/-- The function `breakPatterns_func(data, a, b)`: three exchanges around the middle
with indices drawn from `xorshift(length)`. -/
def breakPatterns_func {α : Type} (data : Slice α) (a b : Nat) : Slice α :=
  if b - a ≥ 8 then
    let idx := a + (b - a) / 4 * 2 - 1
    let r1 := xorshiftNext (b - a)
    let r2 := xorshiftNext r1
    let r3 := xorshiftNext r2
    let data1 := swap data (idx - 1) (a + breakOther r1 (b - a))
    let data2 := swap data1 idx (a + breakOther r2 (b - a))
    swap data2 (idx + 1) (a + breakOther r3 (b - a))
  else data

/-- The function `order2_func(data, a, b, swaps)`: the two indices in order, and the
count of swaps. -/
def order2_func {α : Type} (less : α → α → Bool) (data : Slice α) (a b swaps : Nat) :
    Nat × Nat × Nat :=
  if less (data.elem b) (data.elem a) = true then (b, a, swaps + 1) else (a, b, swaps)

/-- The function `median_func(data, a, b, c, swaps)`: the index of the median, and the
count of swaps. -/
def median_func {α : Type} (less : α → α → Bool) (data : Slice α) (a b c swaps : Nat) :
    Nat × Nat :=
  let r1 := order2_func less data a b swaps
  let r2 := order2_func less data r1.2.1 c r1.2.2
  let r3 := order2_func less data r1.1 r2.1 r2.2.2
  (r3.2.1, r3.2.2)

/-- The function `medianAdjacent_func(data, a, swaps)`. -/
def medianAdjacent_func {α : Type} (less : α → α → Bool) (data : Slice α) (a swaps : Nat) :
    Nat × Nat :=
  median_func less data (a - 1) a (a + 1) swaps

/-- The hint `sortedHint` of `choosePivot_func`. -/
inductive sortedHint where
  | unknownHint
  | increasingHint
  | decreasingHint
deriving DecidableEq

/-- The function `choosePivot_func(data, a, b)`: `shortestNinther = 50`,
`maxSwaps = 12`. -/
def choosePivot_func {α : Type} (less : α → α → Bool) (data : Slice α) (a b : Nat) :
    Nat × sortedHint :=
  let l := b - a
  let i := a + l / 4 * 1
  let j := a + l / 4 * 2
  let k := a + l / 4 * 3
  let r :=
    if l ≥ 8 then
      if l ≥ 50 then
        let ri := medianAdjacent_func less data i 0
        let rj := medianAdjacent_func less data j ri.2
        let rk := medianAdjacent_func less data k rj.2
        median_func less data ri.1 rj.1 rk.1 rk.2
      else median_func less data i j k 0
    else (j, 0)
  if r.2 = 0 then (r.1, sortedHint.increasingHint)
  else if r.2 = 12 then (r.1, sortedHint.decreasingHint)
  else (r.1, sortedHint.unknownHint)

/-- The loop of `reverseRange_func`: `for i < j { swap(i, j); i++; j-- }`. -/
def reverseLoop {α : Type} : Nat → Nat → Nat → Slice α → Slice α
  | 0, _, _, data => data
  | fuel + 1, i, j, data =>
    if i < j then reverseLoop fuel (i + 1) (j - 1) (swap data i j) else data

/-- The function `reverseRange_func(data, a, b)`. -/
def reverseRange_func {α : Type} (data : Slice α) (a b : Nat) : Slice α :=
  reverseLoop (b - a) a (b - 1) data

/-- The function `pdqsort_func(data, a, b, limit)`: its `for` loop and its recursive
call, entered with the flags `wasBalanced` and `wasPartitioned`; `maxInsertion = 12`.
Every turn of the loop and every recursive call works on a shorter range, so `b - a`
turns are enough. -/
def pdqsortLoop {α : Type} (less : α → α → Bool) :
    Nat → Slice α → Nat → Nat → Nat → Bool → Bool → Slice α
  | 0, data, _, _, _, _, _ => data
  | fuel + 1, data, a, b, limit, wasBalanced, wasPartitioned =>
    if b - a ≤ 12 then insertionSort_func less data a b
    else if limit = 0 then heapSort_func less data a b
    else
      let data1 := if wasBalanced then data else breakPatterns_func data a b
      let limit1 := if wasBalanced then limit else limit - 1
      let c := choosePivot_func less data1 a b
      let data2 :=
        if c.2 = sortedHint.decreasingHint then reverseRange_func data1 a b else data1
      let pivot := if c.2 = sortedHint.decreasingHint then b - 1 - (c.1 - a) else c.1
      let hint :=
        if c.2 = sortedHint.decreasingHint then sortedHint.increasingHint else c.2
      let p :=
        if wasBalanced ∧ wasPartitioned ∧ hint = sortedHint.increasingHint then
          partialInsertionSort_func less data2 a b
        else (data2, false)
      if p.2 = true then p.1
      else if a > 0 ∧ less (p.1.elem (a - 1)) (p.1.elem pivot) = false then
        let e := partitionEqual_func less p.1 a b pivot
        pdqsortLoop less fuel e.1 e.2 b limit1 wasBalanced wasPartitioned
      else
        let q := partition_func less p.1 a b pivot
        let mid := q.2.1
        if mid - a < b - mid then
          pdqsortLoop less fuel (pdqsortLoop less fuel q.1 a mid limit1 true true)
            (mid + 1) b limit1 (decide (mid - a ≥ (b - a) / 8)) q.2.2
        else
          pdqsortLoop less fuel (pdqsortLoop less fuel q.1 (mid + 1) b limit1 true true)
            a mid limit1 (decide (b - mid ≥ (b - a) / 8)) q.2.2

/-- The function `pdqsort_func(data, a, b, limit)`. -/
def pdqsort_func {α : Type} (less : α → α → Bool) (data : Slice α) (a b limit : Nat) :
    Slice α :=
  pdqsortLoop less (b - a) data a b limit true true

/-- The function `sort.Slice(x, less)` on the slice `l`: `limit = bits.Len(length)`. -/
def sortSlice {α : Type} (less : α → α → Bool) (l : List α) : List α :=
  match l with
  | [] => []
  | x :: _ =>
    (List.range l.length).map
      (pdqsort_func less { elem := fun k => l.getD k x } 0 l.length (bitsLen l.length)).elem

/-- The method `rankFlights` with the `sort.Slice` of the Go library spelled out. -/
def rankFlightsGo (flights : List Flight) : List Flight × Option GoError :=
  (sortSlice (fun a b => decide (bestValue a < bestValue b)) flights, none)

/-! ## Notions used by the proofs about `sort.Slice` -/

/-- A strict weak ordering on any type: what `sort.Slice` asks of `less`. -/
def StrictWeak {α : Type} (less : α → α → Bool) : Prop :=
  (∀ a, less a a = false) ∧
  (∀ a b c, less a b = true → less b c = true → less a c = true) ∧
  (∀ a b c, less a b = false → less b c = false → less a c = false)

/-- The slice `d2` holds the elements of `d1` with those at the indices from `a` to
`b - 1` rearranged among themselves. -/
def Reorders {α : Type} (d1 d2 : Slice α) (a b : Nat) : Prop :=
  ∃ σ : Equiv.Perm Nat, (∀ k, k < a ∨ b ≤ k → σ k = k) ∧ ∀ k, d2.elem k = d1.elem (σ k)

/-- No element at an index from `a` to `b - 1` is `less` than an earlier one of them. -/
def SortedOn {α : Type} (less : α → α → Bool) (d : Slice α) (a b : Nat) : Prop :=
  ∀ i j, a ≤ i → i < j → j < b → less (d.elem j) (d.elem i) = false

/-- The element `x` stands at an earlier index than `y`, both below `n`. -/
def StandsBefore {α : Type} (d : Slice α) (n : Nat) (x y : α) : Prop :=
  ∃ i j, i < j ∧ j < n ∧ d.elem i = x ∧ d.elem j = y

/-- The heap of `heapSort_func` on the nodes from `lo` on: no node is `less` than a
child of its own below `hi`. -/
def HeapOn {α : Type} (less : α → α → Bool) (d : Slice α) (first lo hi : Nat) : Prop :=
  ∀ r c, lo ≤ r → (c = 2 * r + 1 ∨ c = 2 * r + 2) → c < hi →
    less (d.elem (first + r)) (d.elem (first + c)) = false

/-- Every element at an index from `a` to `b - 1` is at least the element just before
`a`, when there is one: what `pdqsort_func` knows of a range it is called on. -/
def BoundedBelow {α : Type} (less : α → α → Bool) (d : Slice α) (a b : Nat) : Prop :=
  0 < a → ∀ k, a ≤ k → k < b → less (d.elem k) (d.elem (a - 1)) = false

/-! ## Sample inputs for the tie-break, the one-sided windows and the order of ties -/

/-- The request `req` with its DepartureTimeStart removed. -/
def withoutDepartureTimeStart (req : SearchRequest) : SearchRequest :=
  { req with DepartureTimeStart := none }

/-- The request `req` with its DepartureTimeEnd removed. -/
def withoutDepartureTimeEnd (req : SearchRequest) : SearchRequest :=
  { req with DepartureTimeEnd := none }

/-- The request `req` with its ArrivalTimeStart removed. -/
def withoutArrivalTimeStart (req : SearchRequest) : SearchRequest :=
  { req with ArrivalTimeStart := none }

/-- The request `req` with its ArrivalTimeEnd removed. -/
def withoutArrivalTimeEnd (req : SearchRequest) : SearchRequest :=
  { req with ArrivalTimeEnd := none }

/-- A request that asks for departures from 23:00 on and gives no end of the window. -/
def lateDepartureRequest : SearchRequest :=
  { sampleRequest with DepartureTimeStart := some { addr := 824633802784, val := "23:00" } }

/-- A request that asks for arrivals up to 00:30 and gives no start of the window. -/
def earlyArrivalRequest : SearchRequest :=
  { sampleRequest with ArrivalTimeEnd := some { addr := 824633802800, val := "00:30" } }

/-- The flight GA400 as offered by a third source, at the price of `offerB`. -/
def offerD : Flight := sampleFlight "GA400_Lion" "GA400" 1765760400 1765767000 110 0 1100000

/-- A flight that leaves at 2025-12-15 01:00 UTC for 1250000 with no stop and 110
minutes, whatever its number. -/
def tiedOffer (number : String) : Flight :=
  sampleFlight (number ++ "_Garuda") number 1765760400 1765767000 110 0 1250000

/-- The flight GA413 at the same hour, for 1000000: its composite score is lower. -/
def cheaperOffer : Flight :=
  sampleFlight "GA413_Garuda" "GA413" 1765760400 1765767000 110 0 1000000

/-- Eleven flights of one composite score, then the cheaper one: twelve offers. -/
def twelveOffers : List Flight :=
  ["GA401", "GA402", "GA403", "GA404", "GA405", "GA406", "GA407", "GA408", "GA409",
    "GA410", "GA411"].map tiedOffer ++ [cheaperOffer]

/-- Twelve flights of one composite score, then the cheaper one: thirteen offers. -/
def thirteenOffers : List Flight :=
  ["GA401", "GA402", "GA403", "GA404", "GA405", "GA406", "GA407", "GA408", "GA409",
    "GA410", "GA411", "GA412"].map tiedOffer ++ [cheaperOffer]

/-- The slice `thirteenOffers` as `sort.Slice` holds it. -/
def thirteenSlice : Slice Flight :=
  { elem := fun k => thirteenOffers.getD k cheaperOffer }

/-- The invariant of the loop of `comparePrices` that fixes the tie-break: every entry
of the map splits the offers seen so far into those before it, which are dearer when
they have its key, and those after it, which are not cheaper when they have its key. -/
def FirstSeenInv (m : GoMap Flight) (seen : List Flight) : Prop :=
  ∀ e ∈ m, ∃ pre post, seen = pre ++ e.2 :: post ∧
    (∀ g ∈ pre, flightKey g = e.1 → e.2.Price.Amount < g.Price.Amount) ∧
    (∀ g ∈ post, flightKey g = e.1 → e.2.Price.Amount ≤ g.Price.Amount)

/-! ## Sample inputs for the time windows -/

/-- A request with both windows: departure from 00:30 to 01:30, arrival from 02:00 to
03:00. -/
def windowRequest : SearchRequest :=
  { sampleRequest with
      DepartureTimeStart := some { addr := 824633802816, val := "00:30" }
      DepartureTimeEnd := some { addr := 824633802832, val := "01:30" }
      ArrivalTimeStart := some { addr := 824633802848, val := "02:00" }
      ArrivalTimeEnd := some { addr := 824633802864, val := "03:00" } }

/-- A flight that leaves at 01:00 UTC like GA400 and arrives at 03:40 UTC. -/
def lateArrival : Flight :=
  sampleFlight "GA402_Garuda" "GA402" 1765760400 1765770000 160 0 900000

/-- A request whose departure window is the single minute 15:30. -/
def edgeRequest : SearchRequest :=
  { sampleRequest with
      DepartureTimeStart := some { addr := 824633802880, val := "15:30" }
      DepartureTimeEnd := some { addr := 824633802896, val := "15:30" } }

/-- An offer whose departure instant is the least `int64`. -/
def earliestOffer : Flight :=
  sampleFlight "GA001_Garuda" "GA001" (-9223372036854775808) 1765767000 110 0 1250000

/-- An offer whose departure instant is the greatest `int64`. -/
def latestOffer : Flight :=
  sampleFlight "GA999_Garuda" "GA999" 9223372036854775807 1765767000 110 0 1250000

/-! ## Sample inputs for the stale order and the racing counter -/

/-- Four stores in a cache of capacity 2, the key `a` stored twice: the cache then
holds the two keys `b` and `c`. -/
def staleOps : List CacheOp :=
  [CacheOp.set 0 "a" zeroResponse, CacheOp.set 1 "a" zeroResponse,
   CacheOp.set 2 "b" sampleResponse, CacheOp.set 3 "c" sampleResponse]

/-- The cache after `staleOps`: full, with the evicted key `a` still in the order. -/
def staleCache : aggregatorCache :=
  { store := [("b", { value := sampleResponse, expiresAt := 300000000002 }),
      ("c", { value := sampleResponse, expiresAt := 300000000003 })]
    maxSize := 2, ttl := 300000000000, order := ["a", "b", "c"] }

/-- The cache `staleCache` after `Set("d", zeroResponse)` at time 4. -/
def staleCacheAfter : aggregatorCache :=
  { store := [("b", { value := sampleResponse, expiresAt := 300000000002 }),
      ("c", { value := sampleResponse, expiresAt := 300000000003 }),
      ("d", { value := zeroResponse, expiresAt := 300000000004 })]
    maxSize := 2, ttl := 300000000000, order := ["b", "c", "d"] }

/-- A service (`AggregatorService`): its registered sources. -/
structure AggregatorService where
  providers : List Provider

/-- The method `Search` with its gateway: what `s.fetchFromProviders(ctx, req)` returns
at line 49 is the gateway run on the registered sources under `schedule`; the other
readings of the call are those of `env`, whose field `fetched` is not used. -/
def AggregatorService.Search (s : AggregatorService) (rt : Runtime) (schedule : List GoStep)
    (cache : aggregatorCache) (env : CallEnv) (req : SearchRequest) :
    Option (SearchResponse × Option GoError × aggregatorCache) :=
  FlightAgg.Search rt s.providers.length cache
    { env with fetched := fetchFromProviders schedule s.providers } req

/-- A service with four sources that all answer their first invocation. -/
def fourSources : AggregatorService :=
  { providers := [answering [offerA], answering [offerB], answering [offerC], answering []] }

/-- Four goroutines that execute `successCount++` at the same time: all load the
counter before any stores it. -/
def racingSchedule4 : List GoStep :=
  [GoStep.send 0, GoStep.send 1, GoStep.send 2, GoStep.send 3,
   GoStep.load 0, GoStep.load 1, GoStep.load 2, GoStep.load 3,
   GoStep.store 0, GoStep.store 1, GoStep.store 2, GoStep.store 3]

/-- The response of `Search` for `sampleRequest` when the four sources succeed and the
gateway returns the count 1. -/
def racedResponse : SearchResponse :=
  { sampleResponse with Metadata :=
      { sampleResponse.Metadata with ProvidersSucceeded := 1, ProvidersFailed := 3 } }

/-- The cache after that call. -/
def racedCacheAfter : aggregatorCache :=
  { store := [(cacheKey sampleRequest,
      { value := racedResponse, expiresAt := 1765700300400000000 })]
    maxSize := 1000, ttl := 300000000000, order := [cacheKey sampleRequest] }

/-! ## Theorems -/

theorem filterFlightsLoop_eq (rt : Runtime) (req : SearchRequest) (flights acc : List Flight) :
    filterFlightsLoop rt req acc flights = acc ++ flights.filter (filterKeeps rt req) := by
  induction flights generalizing acc with
  | nil => simp [filterFlightsLoop]
  | cons f rest ih =>
    by_cases h : filterKeeps rt req f = true
    · simp [filterFlightsLoop, h, ih]
    · simp [filterFlightsLoop, h, ih]

theorem airlineFound_iff (f : Flight) (airlines : List String) :
    airlineFound f airlines = true ↔ f.Airline.Name ∈ airlines ∨ f.Airline.Code ∈ airlines := by
  induction airlines with
  | nil => simp [airlineFound]
  | cons a rest ih =>
    unfold airlineFound
    by_cases h : f.Airline.Name = a ∨ f.Airline.Code = a
    · simp only [h, if_true, List.mem_cons, true_iff]
      rcases h with h | h
      · exact Or.inl (Or.inl h)
      · exact Or.inr (Or.inl h)
    · simp only [h, if_false, ih, List.mem_cons]
      push_neg at h
      constructor
      · rintro (h1 | h1)
        · exact Or.inl (Or.inr h1)
        · exact Or.inr (Or.inr h1)
      · rintro ((h1 | h1) | (h1 | h1))
        · exact absurd h1 h.1
        · exact Or.inl h1
        · exact absurd h1 h.2
        · exact Or.inr h1

theorem nonNilAnd_lt_iff (o : Option (Ptr Int)) (x : Int) :
    ¬ nonNilAnd o (fun v => decide (x < v)) = true ↔ whenPresent o (fun v => v ≤ x) := by
  cases o <;> simp [nonNilAnd, whenPresent]

theorem nonNilAnd_gt_iff (o : Option (Ptr Int)) (x : Int) :
    ¬ nonNilAnd o (fun v => decide (x > v)) = true ↔ whenPresent o (fun v => x ≤ v) := by
  cases o <;> simp [nonNilAnd, whenPresent]

theorem window_iff (start stop : Option (Ptr String)) (t : String) :
    ¬ (match start, stop with
      | some s, some e => decide (t < s.val ∨ t > e.val)
      | _, _ => false) = true ↔ withinWindow start stop t := by
  cases start <;> cases stop <;> simp [withinWindow]

theorem airlines_iff (f : Flight) (airlines : List String) :
    ¬ (airlines.length > 0 ∧ airlineFound f airlines = false) ↔
      (airlines ≠ [] → f.Airline.Name ∈ airlines ∨ f.Airline.Code ∈ airlines) := by
  rw [← airlineFound_iff]
  cases airlines with
  | nil => simp
  | cons a rest => simp

theorem ite_false_chain (c : Prop) [Decidable c] (b : Bool) :
    (if c then false else b) = true ↔ ¬ c ∧ b = true := by
  by_cases h : c <;> simp [h]

theorem filterKeeps_iff (rt : Runtime) (req : SearchRequest) (f : Flight) :
    filterKeeps rt req f = true ↔ satisfiesRequest rt req f := by
  unfold filterKeeps satisfiesRequest
  simp only [ite_false_chain, nonNilAnd_lt_iff, nonNilAnd_gt_iff, window_iff, airlines_iff]
  simp only [not_or, not_not, and_true]
  tauto

theorem formatHHMM_of_range (rt : Runtime) (ts : Int)
    (hlo : -9223372028715321600 ≤ ts + rt.zoneOffset ts)
    (hhi : ts + rt.zoneOffset ts < 2 ^ 63) :
    formatHHMM rt ts =
      pad2 ((ts + rt.zoneOffset ts) % 86400 / 3600).toNat ++ ":" ++
        pad2 ((ts + rt.zoneOffset ts) % 86400 % 3600 / 60).toNat := by
  unfold formatHHMM
  have h1 : (ts + rt.zoneOffset ts + 9223372028715321600) % 2 ^ 64 % 86400 =
      (ts + rt.zoneOffset ts) % 86400 := by
    have h64 : (2 : Int) ^ 64 = 18446744073709551616 := by norm_num
    have h63 : (2 : Int) ^ 63 = 9223372036854775808 := by norm_num
    rw [h63] at hhi
    rw [h64]
    omega
  simp only [h1]

/-- The renderings the samples rely on: 01:00, 02:00, 02:50 and 03:40 UTC on
2025-12-15, and 15:30 for the least and for the greatest `int64` instant (the least
one through the wrap of the `uint64` count of seconds). -/
theorem formatHHMM_samples :
    formatHHMM stdRuntime 1765760400 = "01:00" ∧
    formatHHMM stdRuntime 1765764000 = "02:00" ∧
    formatHHMM stdRuntime 1765767000 = "02:50" ∧
    formatHHMM stdRuntime 1765770000 = "03:40" ∧
    formatHHMM stdRuntime (-9223372036854775808) = "15:30" ∧
    formatHHMM stdRuntime 9223372036854775807 = "15:30" := by
  decide

theorem window_holds (start stop : Ptr String) (t : String)
    (h1 : start.val.toList ≤ t.toList) (h2 : t.toList ≤ stop.val.toList) :
    withinWindow (some start) (some stop) t := by
  unfold withinWindow
  simp only [String.le_iff_toList_le]
  exact ⟨h1, h2⟩

theorem window_fails (start stop : Ptr String) (t : String)
    (h : t.toList < start.val.toList ∨ stop.val.toList < t.toList) :
    ¬ withinWindow (some start) (some stop) t := by
  unfold withinWindow
  simp only [String.le_iff_toList_le, not_and_or, not_le]
  exact h

/-- The reference predicate on the sample offers under `windowRequest`: GA400 (01:00
to 02:50) lies in both windows, QZ520 leaves at 02:00, GA402 arrives at 03:40. -/
theorem satisfiesRequest_window_samples :
    satisfiesRequest stdRuntime windowRequest offerA ∧
    satisfiesRequest stdRuntime windowRequest offerB ∧
    ¬ satisfiesRequest stdRuntime windowRequest offerC ∧
    ¬ satisfiesRequest stdRuntime windowRequest lateArrival := by
  have hs := formatHHMM_samples
  have hA1 : formatHHMM stdRuntime offerA.Departure.Timestamp = "01:00" := hs.1
  have hA2 : formatHHMM stdRuntime offerA.Arrival.Timestamp = "02:50" := hs.2.2.1
  have hB1 : formatHHMM stdRuntime offerB.Departure.Timestamp = "01:00" := hs.1
  have hB2 : formatHHMM stdRuntime offerB.Arrival.Timestamp = "02:50" := hs.2.2.1
  have hC1 : formatHHMM stdRuntime offerC.Departure.Timestamp = "02:00" := hs.2.1
  have hL2 : formatHHMM stdRuntime lateArrival.Arrival.Timestamp = "03:40" := hs.2.2.2.1
  refine ⟨?_, ?_, ?_, ?_⟩
  · unfold satisfiesRequest
    rw [hA1, hA2]
    exact ⟨by decide, by decide, by decide, by decide, by decide, by decide, by decide,
      by decide, by decide, window_holds _ _ _ (by decide) (by decide),
      window_holds _ _ _ (by decide) (by decide)⟩
  · unfold satisfiesRequest
    rw [hB1, hB2]
    exact ⟨by decide, by decide, by decide, by decide, by decide, by decide, by decide,
      by decide, by decide, window_holds _ _ _ (by decide) (by decide),
      window_holds _ _ _ (by decide) (by decide)⟩
  · unfold satisfiesRequest
    rw [hC1]
    intro h
    exact window_fails _ _ _ (Or.inr (by decide)) h.2.2.2.2.2.2.2.2.2.1
  · unfold satisfiesRequest
    rw [hL2]
    intro h
    exact window_fails _ _ _ (Or.inr (by decide)) h.2.2.2.2.2.2.2.2.2.2

/-- The reference predicate at the ends of `int64`: both instants render as 15:30 and
lie in the window from 15:30 to 15:30. -/
theorem satisfiesRequest_edge_samples :
    satisfiesRequest stdRuntime edgeRequest earliestOffer ∧
    satisfiesRequest stdRuntime edgeRequest latestOffer := by
  have hs := formatHHMM_samples
  have hE : formatHHMM stdRuntime earliestOffer.Departure.Timestamp = "15:30" := hs.2.2.2.2.1
  have hL : formatHHMM stdRuntime latestOffer.Departure.Timestamp = "15:30" := hs.2.2.2.2.2
  refine ⟨?_, ?_⟩
  · unfold satisfiesRequest
    rw [hE]
    exact ⟨by decide, by decide, by decide, by decide, by decide, by decide, by decide,
      by decide, by decide, window_holds _ _ _ (by decide) (by decide), by decide⟩
  · unfold satisfiesRequest
    rw [hL]
    exact ⟨by decide, by decide, by decide, by decide, by decide, by decide, by decide,
      by decide, by decide, window_holds _ _ _ (by decide) (by decide), by decide⟩

/-- C1: `filterFlights` equals its reference definition. For every offer list and
request the output is the sub-list of the input, in input order, of the offers whose
route is (Origin, Destination) and that satisfy every present constraint (inclusive
bounds, airline name or code in a non-empty allow-list, time of day within a window
whose two bounds are present); the returned error is nil. The time of day is what
`time.Unix(ts, 0).Format("15:04")` renders: for every instant whose local seconds
are in the range the `time` package counts without wrapping, the two-digit hour and
minute of the local wall clock. -/
theorem filterFlights_eq_reference (rt : Runtime) (flights : List Flight) (req : SearchRequest) :
    filterFlights rt flights req =
      (flights.filter (fun f => decide (satisfiesRequest rt req f)), none) ∧
    ∀ ts : Int, -9223372028715321600 ≤ ts + rt.zoneOffset ts →
      ts + rt.zoneOffset ts < 2 ^ 63 →
      formatHHMM rt ts =
        pad2 ((ts + rt.zoneOffset ts) % 86400 / 3600).toNat ++ ":" ++
          pad2 ((ts + rt.zoneOffset ts) % 86400 % 3600 / 60).toNat := by
  refine ⟨?_, fun ts => formatHHMM_of_range rt ts⟩
  unfold filterFlights
  rw [filterFlightsLoop_eq, List.nil_append]
  congr 1
  apply List.filter_congr
  intro f _
  by_cases h : satisfiesRequest rt req f
  · simp [h, (filterKeeps_iff rt req f).2 h]
  · have h2 : ¬ filterKeeps rt req f = true := fun hk => h ((filterKeeps_iff rt req f).1 hk)
    simp [h, h2]

/-- Witness of C1 with both windows present: of four offers the two GA400 offers
(01:00 to 02:50) survive, QZ520 (departure 02:00) and GA402 (arrival 03:40) do not;
the offers at the two ends of `int64` both render as 15:30 and survive a window of
that single minute; and the instant 1765760400 renders as 01:00. -/
theorem filterFlights_eq_reference_witness :
    filterFlights stdRuntime [offerA, offerB, offerC, lateArrival] windowRequest =
      ([offerA, offerB], none) ∧
    filterFlights stdRuntime [earliestOffer, latestOffer] edgeRequest =
      ([earliestOffer, latestOffer], none) ∧
    -9223372028715321600 ≤ (1765760400 : Int) + stdRuntime.zoneOffset 1765760400 ∧
    (1765760400 : Int) + stdRuntime.zoneOffset 1765760400 < 2 ^ 63 ∧
    formatHHMM stdRuntime 1765760400 = "01:00" :=
  ⟨(filterFlights_eq_reference stdRuntime [offerA, offerB, offerC, lateArrival]
      windowRequest).1.trans (by
        simp [List.filter, satisfiesRequest_window_samples.1,
          satisfiesRequest_window_samples.2.1, satisfiesRequest_window_samples.2.2.1,
          satisfiesRequest_window_samples.2.2.2]),
    (filterFlights_eq_reference stdRuntime [earliestOffer, latestOffer] edgeRequest).1.trans (by
        simp [List.filter, satisfiesRequest_edge_samples.1, satisfiesRequest_edge_samples.2]),
    by decide, by decide,
    ((filterFlights_eq_reference stdRuntime [] sampleRequest).2 1765760400
      (by decide) (by decide)).trans (by decide)⟩

/-! ### Go maps -/

theorem mapGet_eq_none_iff {α : Type} (m : GoMap α) (key : String) :
    mapGet m key = none ↔ key ∉ m.map Prod.fst := by
  induction m with
  | nil => simp [mapGet]
  | cons e rest ih =>
    obtain ⟨k, v⟩ := e
    by_cases h : k = key
    · simp [mapGet, h]
    · simp [mapGet, h, ih, Ne.symm h]

theorem mem_of_mapGet {α : Type} (m : GoMap α) (key : String) (v : α)
    (h : mapGet m key = some v) : (key, v) ∈ m := by
  induction m with
  | nil => simp [mapGet] at h
  | cons e rest ih =>
    obtain ⟨k, w⟩ := e
    by_cases hk : k = key
    · simp [mapGet, hk] at h
      simp [hk, h]
    · simp [mapGet, hk] at h
      exact List.mem_cons_of_mem _ (ih h)

theorem mapGet_of_mem {α : Type} (m : GoMap α) (key : String) (v : α)
    (hnd : (m.map Prod.fst).Nodup) (h : (key, v) ∈ m) : mapGet m key = some v := by
  induction m with
  | nil => simp at h
  | cons e rest ih =>
    obtain ⟨k, w⟩ := e
    simp only [List.map_cons, List.nodup_cons] at hnd
    rcases List.mem_cons.1 h with h1 | h1
    · cases h1
      simp [mapGet]
    · have hne : k ≠ key := by
        rintro rfl
        exact hnd.1 (List.mem_map.2 ⟨(k, v), h1, rfl⟩)
      simp [mapGet, hne, ih hnd.2 h1]

theorem mapGet_mapSet_same {α : Type} (m : GoMap α) (key : String) (v : α) :
    mapGet (mapSet m key v) key = some v := by
  induction m with
  | nil => simp [mapSet, mapGet]
  | cons e rest ih =>
    obtain ⟨k, w⟩ := e
    by_cases h : k = key
    · simp [mapSet, mapGet, h]
    · simp [mapSet, mapGet, h, ih]

theorem mapGet_mapSet_other {α : Type} (m : GoMap α) (key other : String) (v : α)
    (hne : other ≠ key) : mapGet (mapSet m key v) other = mapGet m other := by
  induction m with
  | nil => simp [mapSet, mapGet, Ne.symm hne]
  | cons e rest ih =>
    obtain ⟨k, w⟩ := e
    by_cases h : k = key
    · subst h
      simp [mapSet, mapGet, Ne.symm hne]
    · by_cases h2 : k = other
      · subst h2
        simp [mapSet, mapGet, h]
      · simp [mapSet, mapGet, h, h2, ih]

theorem mem_mapSet {α : Type} (m : GoMap α) (key : String) (v : α) (e : String × α)
    (h : e ∈ mapSet m key v) : e = (key, v) ∨ e ∈ m := by
  induction m with
  | nil => simpa [mapSet] using h
  | cons e0 rest ih =>
    obtain ⟨k, w⟩ := e0
    by_cases hk : k = key
    · simp only [mapSet, hk, if_true, List.mem_cons] at h
      rcases h with h | h
      · exact Or.inl h
      · exact Or.inr (List.mem_cons_of_mem _ h)
    · simp only [mapSet, hk, if_false, List.mem_cons] at h
      rcases h with h | h
      · exact Or.inr (by simp [h])
      · rcases ih h with h1 | h1
        · exact Or.inl h1
        · exact Or.inr (List.mem_cons_of_mem _ h1)

theorem mem_keys_mapSet {α : Type} (m : GoMap α) (key : String) (v : α) (k : String) :
    k ∈ (mapSet m key v).map Prod.fst ↔ k = key ∨ k ∈ m.map Prod.fst := by
  induction m with
  | nil => simp [mapSet]
  | cons e0 rest ih =>
    obtain ⟨k0, w⟩ := e0
    by_cases hk : k0 = key
    · subst hk
      simp [mapSet]
    · simp only [mapSet, hk, if_false, List.map_cons, List.mem_cons, ih]
      tauto

theorem nodup_keys_mapSet {α : Type} (m : GoMap α) (key : String) (v : α)
    (hnd : (m.map Prod.fst).Nodup) : ((mapSet m key v).map Prod.fst).Nodup := by
  induction m with
  | nil => simp [mapSet]
  | cons e0 rest ih =>
    obtain ⟨k0, w⟩ := e0
    simp only [List.map_cons, List.nodup_cons] at hnd
    by_cases hk : k0 = key
    · simp only [mapSet, hk, if_true, List.map_cons, List.nodup_cons]
      exact ⟨hk ▸ hnd.1, hnd.2⟩
    · have hnew : k0 ∉ (mapSet rest key v).map Prod.fst := by
        rw [mem_keys_mapSet]
        exact fun h => h.elim hk hnd.1
      simp only [mapSet, hk, if_false, List.map_cons, List.nodup_cons]
      exact ⟨hnew, ih hnd.2⟩

/-! ### Deduplicate -/

theorem DedupInv_set (m : GoMap Flight) (seen : List Flight) (f : Flight)
    (inv : DedupInv m seen)
    (hlt : ∀ v, mapGet m (flightKey f) = some v → f.Price.Amount < v.Price.Amount) :
    DedupInv (mapSet m (flightKey f) f) (seen ++ [f]) := by
  obtain ⟨hnd, hent, hmin⟩ := inv
  refine ⟨nodup_keys_mapSet m _ f hnd, ?_, ?_⟩
  · intro e he
    rcases mem_mapSet m _ f e he with h | h
    · subst h
      exact ⟨rfl, by simp⟩
    · exact ⟨(hent e h).1, List.mem_append_left _ (hent e h).2⟩
  · intro g hg
    by_cases hk : flightKey g = flightKey f
    · refine ⟨f, by rw [hk, mapGet_mapSet_same], ?_⟩
      rcases List.mem_append.1 hg with h | h
      · obtain ⟨v, hv, hle⟩ := hmin g h
        rw [hk] at hv
        exact le_trans (le_of_lt (hlt v hv)) hle
      · simp only [List.mem_singleton] at h
        rw [h]
    · rcases List.mem_append.1 hg with h | h
      · obtain ⟨v, hv, hle⟩ := hmin g h
        exact ⟨v, by rw [mapGet_mapSet_other m _ _ f hk, hv], hle⟩
      · simp only [List.mem_singleton] at h
        exact absurd (by rw [h]) hk

theorem DedupInv_keep (m : GoMap Flight) (seen : List Flight) (f existing : Flight)
    (inv : DedupInv m seen) (hget : mapGet m (flightKey f) = some existing)
    (hge : ¬ f.Price.Amount < existing.Price.Amount) : DedupInv m (seen ++ [f]) := by
  obtain ⟨hnd, hent, hmin⟩ := inv
  refine ⟨hnd, fun e he => ⟨(hent e he).1, List.mem_append_left _ (hent e he).2⟩, ?_⟩
  intro g hg
  rcases List.mem_append.1 hg with h | h
  · exact hmin g h
  · simp only [List.mem_singleton] at h
    subst h
    exact ⟨existing, hget, not_lt.1 hge⟩

theorem DedupInv_loop (rest : List Flight) :
    ∀ (m : GoMap Flight) (seen : List Flight), DedupInv m seen →
      DedupInv (comparePricesLoop m rest) (seen ++ rest) := by
  induction rest with
  | nil => intro m seen inv; simpa [comparePricesLoop] using inv
  | cons f rest ih =>
    intro m seen inv
    have hassoc : seen ++ f :: rest = (seen ++ [f]) ++ rest := by simp
    rw [hassoc]
    unfold comparePricesLoop
    cases hget : mapGet m (flightKey f) with
    | none =>
      simp only [hget]
      exact ih _ _ (DedupInv_set m seen f inv (by simp [hget]))
    | some existing =>
      simp only [hget]
      by_cases hlt : f.Price.Amount < existing.Price.Amount
      · simp only [hlt, if_true]
        refine ih _ _ (DedupInv_set m seen f inv ?_)
        intro v hv
        rw [hget] at hv
        cases hv
        exact hlt
      · simp only [hlt, if_false]
        exact ih _ _ (DedupInv_keep m seen f existing inv hget hlt)

theorem DedupInv_final (flights : List Flight) :
    DedupInv (comparePricesLoop [] flights) flights := by
  have h := DedupInv_loop flights [] [] ⟨by simp, by simp, by simp⟩
  simpa using h

/-! ### Decimal rendering and the map key -/

theorem digitChar_val : ∀ d : Nat, d < 10 → (Nat.digitChar d).toNat - 48 = d := by
  decide

theorem digitChar_ne_bar : ∀ d : Nat, d < 10 → Nat.digitChar d ≠ '|' ∧ Nat.digitChar d ≠ '-' := by
  decide

theorem toDigitsCore_append (fuel : Nat) : ∀ (n : Nat) (acc : List Char),
    Nat.toDigitsCore 10 fuel n acc = Nat.toDigitsCore 10 fuel n [] ++ acc := by
  induction fuel with
  | zero => intro n acc; simp [Nat.toDigitsCore]
  | succ fuel ih =>
    intro n acc
    simp only [Nat.toDigitsCore]
    by_cases h : n / 10 = 0
    · simp [h]
    · simp only [h, if_false]
      rw [ih (n / 10) (_ :: acc), ih (n / 10) [_]]
      simp

theorem decodeDigits_snoc (cs : List Char) (c : Char) :
    decodeDigits (cs ++ [c]) = 10 * decodeDigits cs + (c.toNat - 48) := by
  simp [decodeDigits, List.foldl_append]

theorem decode_toDigitsCore (fuel : Nat) : ∀ n : Nat, n < fuel →
    decodeDigits (Nat.toDigitsCore 10 fuel n []) = n := by
  induction fuel with
  | zero => intro n h; omega
  | succ fuel ih =>
    intro n hn
    simp only [Nat.toDigitsCore]
    by_cases h : n / 10 = 0
    · simp only [h, if_true]
      have := decodeDigits_snoc [] (Nat.digitChar (n % 10))
      simp only [List.nil_append] at this
      rw [this, digitChar_val _ (Nat.mod_lt _ (by norm_num))]
      simp [decodeDigits]
      omega
    · simp only [h, if_false]
      rw [toDigitsCore_append, decodeDigits_snoc, ih (n / 10) (by omega),
        digitChar_val _ (Nat.mod_lt _ (by norm_num))]
      omega

theorem decode_repr (n : Nat) : decodeDigits (Nat.repr n).data = n := by
  simp only [Nat.repr, Nat.toDigits, List.asString]
  exact decode_toDigitsCore (n + 1) n (by omega)

theorem repr_injective (a b : Nat) (h : Nat.repr a = Nat.repr b) : a = b := by
  rw [← decode_repr a, ← decode_repr b, h]

theorem toDigitsCore_chars (fuel : Nat) : ∀ (n : Nat) (c : Char),
    c ∈ Nat.toDigitsCore 10 fuel n [] → ∃ d, d < 10 ∧ c = Nat.digitChar d := by
  induction fuel with
  | zero => intro n c h; simp [Nat.toDigitsCore] at h
  | succ fuel ih =>
    intro n c hc
    simp only [Nat.toDigitsCore] at hc
    by_cases h : n / 10 = 0
    · simp only [h, if_true, List.mem_singleton] at hc
      exact ⟨n % 10, Nat.mod_lt _ (by norm_num), hc⟩
    · simp only [h, if_false] at hc
      rw [toDigitsCore_append] at hc
      rcases List.mem_append.1 hc with h1 | h1
      · exact ih _ _ h1
      · simp only [List.mem_singleton] at h1
        exact ⟨n % 10, Nat.mod_lt _ (by norm_num), h1⟩

theorem repr_chars (n : Nat) (c : Char) (h : c ∈ (Nat.repr n).data) :
    c ≠ '|' ∧ c ≠ '-' := by
  simp only [Nat.repr, Nat.toDigits, List.asString] at h
  obtain ⟨d, hd, rfl⟩ := toDigitsCore_chars _ _ _ h
  exact digitChar_ne_bar d hd

theorem repr_ne_nil (n : Nat) : (Nat.repr n).data ≠ [] := by
  simp only [Nat.repr, Nat.toDigits, List.asString]
  simp only [Nat.toDigitsCore]
  by_cases h : n / 10 = 0
  · simp [h]
  · simp only [h, if_false]
    rw [toDigitsCore_append]
    simp

theorem formatInt_data (i : Int) :
    (formatInt i).data =
      if i < 0 then '-' :: (Nat.repr i.natAbs).data else (Nat.repr i.natAbs).data := by
  unfold formatInt
  split <;> simp [String.data_append]

theorem formatInt_no_bar (i : Int) : '|' ∉ (formatInt i).data := by
  rw [formatInt_data]
  intro h
  split at h
  · rcases List.mem_cons.1 h with h1 | h1
    · exact absurd h1 (by decide)
    · exact (repr_chars _ _ h1).1 rfl
  · exact (repr_chars _ _ h).1 rfl

theorem formatInt_injective (x y : Int) (h : formatInt x = formatInt y) : x = y := by
  have hd : (formatInt x).data = (formatInt y).data := by rw [h]
  rw [formatInt_data, formatInt_data] at hd
  by_cases hx : x < 0 <;> by_cases hy : y < 0
  · simp only [hx, hy, if_true, List.cons.injEq, true_and] at hd
    have := repr_injective _ _ (String.ext hd)
    omega
  · simp only [hx, hy, if_true, if_false] at hd
    have hmem : '-' ∈ (Nat.repr y.natAbs).data := by rw [← hd]; simp
    exact absurd rfl (repr_chars _ _ hmem).2
  · simp only [hx, hy, if_true, if_false] at hd
    have hmem : '-' ∈ (Nat.repr x.natAbs).data := by rw [hd]; simp
    exact absurd rfl (repr_chars _ _ hmem).2
  · simp only [hx, hy, if_false] at hd
    have := repr_injective _ _ (String.ext hd)
    omega

theorem append_sep_inj {α : Type} (sep : α) : ∀ (x₁ x₂ z₁ z₂ : List α),
    sep ∉ z₁ → sep ∉ z₂ → x₁ ++ sep :: z₁ = x₂ ++ sep :: z₂ → x₁ = x₂ ∧ z₁ = z₂ := by
  intro x₁
  induction x₁ with
  | nil =>
    intro x₂ z₁ z₂ h1 h2 h
    cases x₂ with
    | nil => simpa using h
    | cons b x₂ =>
      simp only [List.nil_append, List.cons_append, List.cons.injEq] at h
      exact absurd (by rw [h.2]; simp) h1
  | cons a x₁ ih =>
    intro x₂ z₁ z₂ h1 h2 h
    cases x₂ with
    | nil =>
      simp only [List.nil_append, List.cons_append, List.cons.injEq] at h
      exact absurd (by rw [← h.2]; simp) h2
    | cons b x₂ =>
      simp only [List.cons_append, List.cons.injEq] at h
      obtain ⟨h3, h4⟩ := ih x₂ z₁ z₂ h1 h2 h.2
      exact ⟨by rw [h.1, h3], h4⟩

theorem key_injective (a b : String) (x y : Int)
    (h : a ++ "|" ++ formatInt x = b ++ "|" ++ formatInt y) : a = b ∧ x = y := by
  have hd : (a ++ "|" ++ formatInt x).data = (b ++ "|" ++ formatInt y).data := by rw [h]
  simp only [String.data_append] at hd
  rw [List.append_assoc, List.append_assoc] at hd
  obtain ⟨h1, h2⟩ := append_sep_inj '|' _ _ _ _ (formatInt_no_bar x) (formatInt_no_bar y) hd
  exact ⟨String.ext h1, formatInt_injective x y (String.ext h2)⟩

theorem flightKey_eq_iff (f g : Flight) : flightKey f = flightKey g ↔ groupOf f = groupOf g := by
  unfold flightKey groupOf
  constructor
  · intro h
    obtain ⟨h1, h2⟩ := key_injective _ _ _ _ h
    rw [h1, h2]
  · intro h
    simp only [Prod.mk.injEq] at h
    rw [h.1, h.2]

theorem mem_comparePrices (rt : Runtime) (flights : List Flight) (s : Flight) :
    s ∈ (comparePrices rt flights).1 ↔ (flightKey s, s) ∈ comparePricesLoop [] flights := by
  have hinv := DedupInv_final flights
  unfold comparePrices
  simp only [List.mem_map]
  constructor
  · rintro ⟨e, he, rfl⟩
    have he2 := (rt.mapRange_perm _).mem_iff.1 he
    have := (hinv.2.1 e he2).1
    rw [← this]
    exact he2
  · intro h
    exact ⟨(flightKey s, s), (rt.mapRange_perm _).mem_iff.2 h, rfl⟩

theorem comparePrices_subset (rt : Runtime) (flights : List Flight) (s : Flight)
    (hs : s ∈ (comparePrices rt flights).1) : s ∈ flights :=
  ((DedupInv_final flights).2.1 _ ((mem_comparePrices rt flights s).1 hs)).2

theorem comparePrices_nodup_keys (rt : Runtime) (flights : List Flight) :
    ((comparePrices rt flights).1.map flightKey).Nodup := by
  have hinv := DedupInv_final flights
  have hperm := rt.mapRange_perm (comparePricesLoop [] flights)
  have h1 : ((rt.mapRange (comparePricesLoop [] flights)).map Prod.fst).Nodup :=
    (hperm.map Prod.fst).nodup_iff.2 hinv.1
  have h2 : (comparePrices rt flights).1.map flightKey =
      (rt.mapRange (comparePricesLoop [] flights)).map Prod.fst := by
    unfold comparePrices
    rw [List.map_map]
    apply List.map_congr_left
    intro e he
    exact ((hinv.2.1 e (hperm.mem_iff.1 he)).1).symm
  rw [h2]
  exact h1

theorem comparePrices_covers (rt : Runtime) (flights : List Flight) (f : Flight)
    (hf : f ∈ flights) :
    ∃ s ∈ (comparePrices rt flights).1,
      flightKey s = flightKey f ∧ s.Price.Amount ≤ f.Price.Amount := by
  have hinv := DedupInv_final flights
  obtain ⟨v, hv, hle⟩ := hinv.2.2 f hf
  have hmem := mem_of_mapGet _ _ _ hv
  have hkey := (hinv.2.1 _ hmem).1
  simp only at hkey
  refine ⟨v, (mem_comparePrices rt flights v).2 ?_, hkey.symm, hle⟩
  rw [← hkey]
  exact hmem

theorem comparePrices_nodup_groups (rt : Runtime) (flights : List Flight) :
    ((comparePrices rt flights).1.map groupOf).Nodup := by
  have h := comparePrices_nodup_keys rt flights
  have hfun : flightKey = (fun p : String × Int => p.1 ++ "|" ++ formatInt p.2) ∘ groupOf := by
    funext f
    rfl
  rw [hfun, ← List.map_map] at h
  exact h.of_map _

/-- C4: the output of `comparePrices` never contains two offers with the same
(FlightNumber, Departure.Timestamp) pair, whatever the flight-number strings are
(a vertical bar inside a flight number included): the pairs of the output offers
are pairwise distinct. -/
theorem comparePrices_no_duplicate_pair (rt : Runtime) (flights : List Flight) :
    ((comparePrices rt flights).1.map groupOf).Nodup :=
  comparePrices_nodup_groups rt flights

/-- C5: every offer `s` in the output of `comparePrices` has a price amount not above
that of any input offer with the same (FlightNumber, Departure.Timestamp) pair. -/
theorem comparePrices_min_price (rt : Runtime) (flights : List Flight) (s f : Flight)
    (hs : s ∈ (comparePrices rt flights).1) (hf : f ∈ flights)
    (hgroup : groupOf f = groupOf s) : s.Price.Amount ≤ f.Price.Amount := by
  have hinv := DedupInv_final flights
  obtain ⟨v, hv, hle⟩ := hinv.2.2 f hf
  have hs2 := (mem_comparePrices rt flights s).1 hs
  rw [(flightKey_eq_iff f s).2 hgroup, mapGet_of_mem _ _ _ hinv.1 hs2] at hv
  cases hv
  exact hle

/-- C6: `comparePrices` loses no group and invents no offer: every output offer is an
element of the input, every input offer has an output offer with the same
(FlightNumber, Departure.Timestamp) pair, and the output has as many offers as the
input has distinct pairs. -/
theorem comparePrices_groups (rt : Runtime) (flights : List Flight) :
    (∀ s ∈ (comparePrices rt flights).1, s ∈ flights) ∧
    (∀ f ∈ flights, ∃ s ∈ (comparePrices rt flights).1, groupOf s = groupOf f) ∧
    (comparePrices rt flights).1.length = ((flights.map groupOf).dedup).length := by
  refine ⟨comparePrices_subset rt flights, ?_, ?_⟩
  · intro f hf
    obtain ⟨s, hs, hk, _⟩ := comparePrices_covers rt flights f hf
    exact ⟨s, hs, (flightKey_eq_iff s f).1 hk⟩
  · have hnd := comparePrices_nodup_groups rt flights
    have hperm : ((comparePrices rt flights).1.map groupOf).Perm (flights.map groupOf).dedup := by
      rw [List.perm_ext_iff_of_nodup hnd (List.nodup_dedup _)]
      intro p
      simp only [List.mem_map, List.mem_dedup]
      constructor
      · rintro ⟨s, hs, rfl⟩
        exact ⟨s, comparePrices_subset rt flights s hs, rfl⟩
      · rintro ⟨f, hf, rfl⟩
        obtain ⟨s, hs, hk, _⟩ := comparePrices_covers rt flights f hf
        exact ⟨s, hs, (flightKey_eq_iff s f).1 hk⟩
    have := hperm.length_eq
    simpa using this

/-- Witness of C5: of the two GA400 offers the cheaper one survives. -/
theorem comparePrices_min_price_witness :
    offerB ∈ (comparePrices stdRuntime [offerA, offerB, offerC]).1 ∧
    offerA ∈ [offerA, offerB, offerC] ∧ groupOf offerA = groupOf offerB ∧
    offerB.Price.Amount ≤ offerA.Price.Amount :=
  ⟨by decide, by decide, by decide,
    comparePrices_min_price stdRuntime [offerA, offerB, offerC] offerB offerA
      (by decide) (by decide) (by decide)⟩

/-- Witness of C6: three offers in two groups give two offers. -/
theorem comparePrices_groups_witness :
    offerB ∈ (comparePrices stdRuntime [offerA, offerB, offerC]).1 ∧
    offerB ∈ [offerA, offerB, offerC] ∧
    offerA ∈ [offerA, offerB, offerC] ∧
    (∃ s ∈ (comparePrices stdRuntime [offerA, offerB, offerC]).1, groupOf s = groupOf offerA) ∧
    (comparePrices stdRuntime [offerA, offerB, offerC]).1.length =
      (([offerA, offerB, offerC].map groupOf).dedup).length :=
  ⟨by decide,
    (comparePrices_groups stdRuntime [offerA, offerB, offerC]).1 offerB (by decide),
    by decide,
    (comparePrices_groups stdRuntime [offerA, offerB, offerC]).2.1 offerA (by decide),
    (comparePrices_groups stdRuntime [offerA, offerB, offerC]).2.2⟩

/-! ### Duration-fill -/

theorem calcDurationsStep_length (l : List Flight) (i : Nat) :
    (calcDurationsStep l i).length = l.length := by
  unfold calcDurationsStep
  split <;> simp

theorem calcDurationsStep_of_get (l : List Flight) (i : Nat) (f : Flight)
    (h : l[i]? = some f) : calcDurationsStep l i = l.set i (calcDurationsBody f) := by
  unfold calcDurationsStep
  simp only [h]

theorem calcDurations_fold_get (l : List Flight) (n : Nat) (hn : n ≤ l.length) :
    ((List.range n).foldl calcDurationsStep l).length = l.length ∧
    ∀ j, ((List.range n).foldl calcDurationsStep l)[j]? =
      if j < n then l[j]?.map calcDurationsBody else l[j]? := by
  induction n with
  | zero => simp
  | succ n ih =>
    obtain ⟨hlen, hget⟩ := ih (by omega)
    rw [List.range_succ, List.foldl_append]
    simp only [List.foldl_cons, List.foldl_nil]
    refine ⟨by rw [calcDurationsStep_length, hlen], ?_⟩
    intro j
    have hn2 : n < l.length := by omega
    have hcur : ((List.range n).foldl calcDurationsStep l)[n]? = some l[n] := by
      rw [hget n]
      simp [hn2]
    rw [calcDurationsStep_of_get _ _ _ hcur, List.getElem?_set]
    by_cases hj : n = j
    · subst hj
      simp [hlen, hn2]
    · simp only [hj, if_false, hget j]
      by_cases hj2 : j < n
      · have : j < n + 1 := by omega
        simp [hj2, this]
      · have : ¬ j < n + 1 := by omega
        simp [hj2, this]

theorem calcDurations_eq_map (l : List Flight) :
    calcDurations l = (l.map calcDurationsBody, none) := by
  unfold calcDurations
  congr 1
  apply List.ext_getElem?
  intro j
  rw [(calcDurations_fold_get l l.length (le_refl _)).2 j, List.getElem?_map]
  by_cases hj : j < l.length
  · simp [hj]
  · simp only [hj, if_false]
    rw [List.getElem?_eq_none (by omega)]
    rfl

theorem wrapInt64_of_inInt64 (x : Int) (h : inInt64 x) : wrapInt64 x = x := by
  unfold inInt64 at h
  unfold wrapInt64
  omega

theorem calcDurationsBody_eq_fillDuration (f : Flight)
    (hdep : inInt64 f.Departure.Timestamp) (harr : inInt64 f.Arrival.Timestamp) :
    calcDurationsBody f = fillDuration f := by
  unfold calcDurationsBody fillDuration
  by_cases h : f.Duration.TotalMinutes = 0 ∧ f.Departure.Timestamp > 0 ∧ f.Arrival.Timestamp > 0
  · have h2 : f.Duration.TotalMinutes = 0 ∧ 0 < f.Departure.Timestamp ∧
        0 < f.Arrival.Timestamp := h
    have hsub : goSub f.Arrival.Timestamp f.Departure.Timestamp =
        f.Arrival.Timestamp - f.Departure.Timestamp := by
      unfold goSub
      apply wrapInt64_of_inInt64
      unfold inInt64 at *
      omega
    simp only [h, h2, and_self, if_true, hsub, goDiv, goMod, formatDuration]
  · have h2 : ¬ (f.Duration.TotalMinutes = 0 ∧ 0 < f.Departure.Timestamp ∧
        0 < f.Arrival.Timestamp) := h
    simp only [h, h2, if_false]

/-- C7: `calcDurations` equals its reference definition. On offers whose timestamps
are `int64` values, the result is the input with `fillDuration` applied to each
offer in place (same length, same order): an offer with TotalMinutes = 0 and both
timestamps positive gets TotalMinutes = (Arrival - Departure) / 60 and the rendering
of that value as hours and minutes, every other offer is unchanged, and no field
other than Duration is ever changed. The error is nil. -/
theorem calcDurations_eq_reference (flights : List Flight)
    (hrange : ∀ f ∈ flights, inInt64 f.Departure.Timestamp ∧ inInt64 f.Arrival.Timestamp) :
    calcDurations flights = (flights.map fillDuration, none) ∧
    (calcDurations flights).1.length = flights.length ∧
    (∀ f : Flight, withDuration (fillDuration f) f.Duration = f) := by
  have hmap : calcDurations flights = (flights.map fillDuration, none) := by
    rw [calcDurations_eq_map]
    congr 1
    apply List.map_congr_left
    intro f hf
    exact calcDurationsBody_eq_fillDuration f (hrange f hf).1 (hrange f hf).2
  refine ⟨hmap, by rw [hmap]; simp, ?_⟩
  intro f
  unfold fillDuration withDuration
  split <;> rfl

/-- Witness of C7 on three sample offers, one of them without a duration. -/
theorem calcDurations_eq_reference_witness :
    (∀ f ∈ [offerA, offerB, offerC],
      inInt64 f.Departure.Timestamp ∧ inInt64 f.Arrival.Timestamp) ∧
    calcDurations [offerA, offerB, offerC] =
      ([offerA, offerB, offerC].map fillDuration, none) :=
  ⟨by decide, (calcDurations_eq_reference [offerA, offerB, offerC] (by decide)).1⟩

/-! ### Rank and sort -/

theorem swo_lt (key : Flight → Int) :
    StrictWeakOrder (fun a b => decide (key a < key b)) := by
  refine ⟨fun a => by simp, fun a b c h1 h2 => ?_, fun a b c h1 h2 => ?_⟩
  · simp only [decide_eq_true_eq] at *
    omega
  · simp only [decide_eq_false_iff_not] at *
    omega

theorem swo_gt (key : Flight → Int) :
    StrictWeakOrder (fun a b => decide (key a > key b)) := by
  refine ⟨fun a => by simp, fun a b c h1 h2 => ?_, fun a b c h1 h2 => ?_⟩
  · simp only [decide_eq_true_eq] at *
    omega
  · simp only [decide_eq_false_iff_not] at *
    omega

theorem sortSlice_ascending (rt : Runtime) (key : Flight → Int) (l : List Flight) :
    (rt.sortSlice (fun a b => decide (key a < key b)) l).Pairwise
      (fun a b => key a ≤ key b) := by
  refine (rt.sortSlice_sorted _ l (swo_lt key)).imp ?_
  intro a b h
  simp only [decide_eq_false_iff_not] at h
  omega

theorem sortSlice_descending (rt : Runtime) (key : Flight → Int) (l : List Flight) :
    (rt.sortSlice (fun a b => decide (key a > key b)) l).Pairwise
      (fun a b => key a ≥ key b) := by
  refine (rt.sortSlice_sorted _ l (swo_gt key)).imp ?_
  intro a b h
  simp only [decide_eq_false_iff_not] at h
  omega

theorem wrapInt64_add_left (x y : Int) : wrapInt64 (wrapInt64 x + y) = wrapInt64 (x + y) := by
  unfold wrapInt64
  omega

theorem wrapInt64_add_right (x y : Int) : wrapInt64 (x + wrapInt64 y) = wrapInt64 (x + y) := by
  unfold wrapInt64
  omega

theorem bestValue_eq_wrap_score (f : Flight) : bestValue f = wrapInt64 (score f) := by
  unfold bestValue score goAdd goMul goDiv
  rw [wrapInt64_add_right f.Price.Amount, wrapInt64_add_left (f.Price.Amount + _),
    wrapInt64_add_right (f.Price.Amount + _), wrapInt64_add_left]

theorem sortFlights_snd (rt : Runtime) (flights : List Flight) (req : SearchRequest) :
    (sortFlights rt flights req).2 = none := by
  unfold sortFlights
  split
  · rfl
  · split_ifs <;> rfl

theorem sortFlights_perm (rt : Runtime) (flights : List Flight) (req : SearchRequest) :
    (sortFlights rt flights req).1.Perm flights := by
  unfold sortFlights
  split
  · exact List.Perm.refl _
  · split_ifs <;> first | exact List.Perm.refl _ | exact rt.sortSlice_perm _ _

/-! ### Search -/

theorem mergePipeline_eq (rt : Runtime) (results : List Flight) (req : SearchRequest) :
    mergePipeline rt results req =
      (sortFlights rt (rt.sortSlice (fun a b => decide (bestValue a < bestValue b))
        ((comparePrices rt (filterFlights rt results req).1).1.map calcDurationsBody)) req).1 := by
  unfold mergePipeline
  rw [calcDurations_eq_map]
  rfl

theorem Search_miss_ok (rt : Runtime) (providers : Int) (cache cache2 : aggregatorCache)
    (env : CallEnv) (req : SearchRequest) (resp : SearchResponse)
    (hmiss : (aggregatorCache.Get cache env.nowGet (cacheKey req)).1.2 = false)
    (hok : Search rt providers cache env req = some (resp, none, cache2)) :
    env.ctxErrBefore = none ∧ env.fetched.2.2 = none ∧ env.ctxErrAfter = none ∧
    resp =
      { SearchCriteria := req
        Metadata :=
          { TotalResults := (mergePipeline rt env.fetched.1 req).length
            ProvidersQueried := providers
            ProvidersSucceeded := env.fetched.2.1
            ProvidersFailed := providers - env.fetched.2.1
            SearchTimeMs := env.elapsedMs, CacheHit := false }
        Flights := mergePipeline rt env.fetched.1 req } ∧
    aggregatorCache.Set (aggregatorCache.Get cache env.nowGet (cacheKey req)).2 env.nowSet
      (cacheKey req) resp = some cache2 := by
  unfold Search at hok
  simp only at hok
  split at hok
  · rename_i r c1 hget
    rw [hget] at hmiss
    cases hmiss
  · rename_i r0 c1 hget
    split at hok
    · simp at hok
    · rename_i hbefore
      split at hok
      · simp at hok
      · rename_i results successCount hfetch
        split at hok
        · simp at hok
        · rename_i hafter
          simp only [filterFlights, comparePrices, calcDurations, rankFlights] at hok
          split at hok
          · rename_i hsort
            have hnil := congrArg Prod.snd hsort
            rw [sortFlights_snd] at hnil
            cases hnil
          · rename_i sorted hsort
            have hpipe : mergePipeline rt env.fetched.1 req = sorted := by
              unfold mergePipeline
              simp only [filterFlights, comparePrices, calcDurations, rankFlights, hfetch]
              rw [hsort]
            split at hok
            · cases hok
            · rename_i c2 hset
              simp only [Option.some.injEq, Prod.mk.injEq, true_and] at hok
              obtain ⟨hresp, hc2⟩ := hok
              subst hc2
              refine ⟨hbefore, by rw [hfetch], hafter, ?_, ?_⟩
              · rw [← hresp, hpipe, hfetch]
              · rw [hget, ← hresp]
                exact hset

theorem mem_filterFlights (rt : Runtime) (results : List Flight) (req : SearchRequest)
    (g : Flight) :
    g ∈ (filterFlights rt results req).1 ↔ g ∈ results ∧ satisfiesRequest rt req g := by
  unfold filterFlights
  rw [filterFlightsLoop_eq, List.nil_append, List.mem_filter, filterKeeps_iff]

theorem calcDurationsBody_fields (g : Flight) :
    withDuration (calcDurationsBody g) g.Duration = g := by
  unfold calcDurationsBody withDuration
  split <;> rfl

theorem mem_mergePipeline (rt : Runtime) (results : List Flight) (req : SearchRequest)
    (f : Flight) (hf : f ∈ mergePipeline rt results req) :
    ∃ g ∈ (comparePrices rt (filterFlights rt results req).1).1, f = calcDurationsBody g := by
  rw [mergePipeline_eq] at hf
  have h1 := (sortFlights_perm rt _ req).mem_iff.1 hf
  have h2 := (rt.sortSlice_perm _ _).mem_iff.1 h1
  obtain ⟨g, hg, rfl⟩ := List.mem_map.1 h2
  exact ⟨g, hg, rfl⟩

/-- C3: every flight in the response of a successful `Search` on a cache miss has
Departure.Airport = Origin and Arrival.Airport = Destination, and corresponds to an
offer that survived the filter: same ID, flight number, departure and arrival events
(timestamps included) and price, indeed the same in every field but Duration. -/
theorem search_flights_survived_filter (rt : Runtime) (providers : Int)
    (cache cache2 : aggregatorCache) (env : CallEnv) (req : SearchRequest)
    (resp : SearchResponse)
    (hmiss : (aggregatorCache.Get cache env.nowGet (cacheKey req)).1.2 = false)
    (hok : Search rt providers cache env req = some (resp, none, cache2)) :
    ∀ f ∈ resp.Flights,
      f.Departure.Airport = req.Origin ∧ f.Arrival.Airport = req.Destination ∧
      ∃ g ∈ (filterFlights rt env.fetched.1 req).1,
        f.ID = g.ID ∧ f.FlightNumber = g.FlightNumber ∧
        f.Departure.Timestamp = g.Departure.Timestamp ∧
        f.Arrival.Timestamp = g.Arrival.Timestamp ∧ f.Price = g.Price ∧
        withDuration f g.Duration = g := by
  intro f hf
  obtain ⟨_, _, _, hresp, _⟩ := Search_miss_ok rt providers cache cache2 env req resp hmiss hok
  rw [hresp] at hf
  obtain ⟨g, hg, rfl⟩ := mem_mergePipeline rt _ req f hf
  have hg2 := comparePrices_subset rt _ g hg
  have hsat := ((mem_filterFlights rt _ req g).1 hg2).2
  have hfields := calcDurationsBody_fields g
  have hID : (calcDurationsBody g).ID = g.ID :=
    (congrArg Flight.ID hfields : (withDuration (calcDurationsBody g) g.Duration).ID = g.ID)
  have hFN : (calcDurationsBody g).FlightNumber = g.FlightNumber :=
    (congrArg Flight.FlightNumber hfields :
      (withDuration (calcDurationsBody g) g.Duration).FlightNumber = g.FlightNumber)
  have hDep : (calcDurationsBody g).Departure = g.Departure :=
    (congrArg Flight.Departure hfields :
      (withDuration (calcDurationsBody g) g.Duration).Departure = g.Departure)
  have hArr : (calcDurationsBody g).Arrival = g.Arrival :=
    (congrArg Flight.Arrival hfields :
      (withDuration (calcDurationsBody g) g.Duration).Arrival = g.Arrival)
  have hPrice : (calcDurationsBody g).Price = g.Price :=
    (congrArg Flight.Price hfields :
      (withDuration (calcDurationsBody g) g.Duration).Price = g.Price)
  refine ⟨by rw [hDep]; exact hsat.1, by rw [hArr]; exact hsat.2.1, g, hg2, hID, hFN, ?_, ?_,
    hPrice, hfields⟩
  · rw [hDep]
  · rw [hArr]

/-- C8: after `rankFlights` the composite scores `bestValue` (price amount plus
stops times 100000 plus duration minutes times 100 plus departure instant divided
by 3600, in Go's `int` arithmetic) are non-decreasing along the list; they are the
unbounded score whenever that fits in 64 bits; and the flights of a successful
`Search` on a cache miss with no sort directive are in non-decreasing score order. -/
theorem rankFlights_scores_nondecreasing (rt : Runtime) (flights : List Flight) :
    (rankFlights rt flights).1.Pairwise (fun a b => bestValue a ≤ bestValue b) ∧
    (rankFlights rt flights).2 = none ∧
    ((∀ f ∈ flights, inInt64 (score f)) →
      (rankFlights rt flights).1.Pairwise (fun a b => score a ≤ score b)) ∧
    (∀ (providers : Int) (cache cache2 : aggregatorCache) (env : CallEnv)
      (req : SearchRequest) (resp : SearchResponse),
      req.SortBy = none →
      (aggregatorCache.Get cache env.nowGet (cacheKey req)).1.2 = false →
      Search rt providers cache env req = some (resp, none, cache2) →
      resp.Flights.Pairwise (fun a b => bestValue a ≤ bestValue b)) := by
  have hrank : ∀ l : List Flight,
      (rankFlights rt l).1.Pairwise (fun a b => bestValue a ≤ bestValue b) :=
    fun l => sortSlice_ascending rt bestValue l
  refine ⟨hrank flights, rfl, ?_, ?_⟩
  · intro hfit
    refine (hrank flights).imp_of_mem ?_
    intro a b ha hb hab
    have ha2 : a ∈ flights := (rt.sortSlice_perm _ _).mem_iff.1 ha
    have hb2 : b ∈ flights := (rt.sortSlice_perm _ _).mem_iff.1 hb
    rw [bestValue_eq_wrap_score, bestValue_eq_wrap_score,
      wrapInt64_of_inInt64 _ (hfit a ha2), wrapInt64_of_inInt64 _ (hfit b hb2)] at hab
    exact hab
  · intro providers cache cache2 env req resp hsort hmiss hok
    obtain ⟨_, _, _, hresp, _⟩ := Search_miss_ok rt providers cache cache2 env req resp hmiss hok
    rw [hresp]
    simp only
    unfold mergePipeline
    have hs : ∀ l : List Flight, (sortFlights rt l req).1 = l := by
      intro l
      unfold sortFlights
      rw [hsort]
    rw [hs]
    exact hrank _

/-- C9: on a list of at least two offers, each of the eight recognized directives
makes the output of `sortFlights` monotonic in the named field and direction. -/
theorem sortFlights_monotonic (rt : Runtime) (flights : List Flight) (req : SearchRequest)
    (sortBy : Ptr String) (hlen : 2 ≤ flights.length) (hsort : req.SortBy = some sortBy) :
    (sortBy.val = "price_asc" → (sortFlights rt flights req).1.Pairwise
      (fun a b => a.Price.Amount ≤ b.Price.Amount)) ∧
    (sortBy.val = "price_desc" → (sortFlights rt flights req).1.Pairwise
      (fun a b => a.Price.Amount ≥ b.Price.Amount)) ∧
    (sortBy.val = "duration_asc" → (sortFlights rt flights req).1.Pairwise
      (fun a b => a.Duration.TotalMinutes ≤ b.Duration.TotalMinutes)) ∧
    (sortBy.val = "duration_desc" → (sortFlights rt flights req).1.Pairwise
      (fun a b => a.Duration.TotalMinutes ≥ b.Duration.TotalMinutes)) ∧
    (sortBy.val = "departure_asc" → (sortFlights rt flights req).1.Pairwise
      (fun a b => a.Departure.Timestamp ≤ b.Departure.Timestamp)) ∧
    (sortBy.val = "departure_desc" → (sortFlights rt flights req).1.Pairwise
      (fun a b => a.Departure.Timestamp ≥ b.Departure.Timestamp)) ∧
    (sortBy.val = "arrival_asc" → (sortFlights rt flights req).1.Pairwise
      (fun a b => a.Arrival.Timestamp ≤ b.Arrival.Timestamp)) ∧
    (sortBy.val = "arrival_desc" → (sortFlights rt flights req).1.Pairwise
      (fun a b => a.Arrival.Timestamp ≥ b.Arrival.Timestamp)) := by
  have hguard : ¬ flights.length < 2 := by omega
  refine ⟨?_, ?_, ?_, ?_, ?_, ?_, ?_, ?_⟩ <;> intro hv <;> unfold sortFlights <;>
    simp only [hsort, hv, hguard, or_false] <;> simp only [String.reduceEq, if_false, if_true]
  · exact sortSlice_ascending rt (fun f => f.Price.Amount) flights
  · exact sortSlice_descending rt (fun f => f.Price.Amount) flights
  · exact sortSlice_ascending rt (fun f => f.Duration.TotalMinutes) flights
  · exact sortSlice_descending rt (fun f => f.Duration.TotalMinutes) flights
  · exact sortSlice_ascending rt (fun f => f.Departure.Timestamp) flights
  · exact sortSlice_descending rt (fun f => f.Departure.Timestamp) flights
  · exact sortSlice_ascending rt (fun f => f.Arrival.Timestamp) flights
  · exact sortSlice_descending rt (fun f => f.Arrival.Timestamp) flights

/-- C10: `sortFlights` returns its input list unchanged, with a nil error, whenever
the directive is absent, is the empty string, is none of the eight recognized
values, or the list has fewer than two offers. -/
theorem sortFlights_unchanged (rt : Runtime) (flights : List Flight) (req : SearchRequest)
    (h : req.SortBy = none ∨
      (∃ sortBy, req.SortBy = some sortBy ∧
        (sortBy.val = "" ∨ sortBy.val ∉ recognizedDirectives)) ∨
      flights.length < 2) :
    sortFlights rt flights req = (flights, none) := by
  unfold sortFlights
  rcases h with h | ⟨sortBy, hs, h⟩ | h
  · rw [h]
  · rw [hs]
    rcases h with h | h
    · simp only [h, true_or, if_true]
    · simp only [recognizedDirectives, List.mem_cons, List.mem_singleton, not_or,
        List.not_mem_nil, not_false_eq_true, and_true] at h
      obtain ⟨h1, h2, h3, h4, h5, h6, h7, h8⟩ := h
      simp only [h1, h2, h3, h4, h5, h6, h7, h8, if_false, ite_self]
  · cases hs : req.SortBy with
    | none => rfl
    | some sortBy => simp only [h, or_true, if_true]

/-- Witness of C9: two sample offers under `price_asc`. -/
theorem sortFlights_monotonic_witness :
    2 ≤ [offerA, offerC].length ∧
    sampleSortRequest.SortBy = some { addr := 824633802752, val := "price_asc" } ∧
    (sortFlights stdRuntime [offerA, offerC] sampleSortRequest).1.Pairwise
      (fun a b => a.Price.Amount ≤ b.Price.Amount) :=
  ⟨by decide, rfl,
    (sortFlights_monotonic stdRuntime [offerA, offerC] sampleSortRequest
      { addr := 824633802752, val := "price_asc" } (by decide) rfl).1 rfl⟩

/-- Witness of C10: a request without a directive. -/
theorem sortFlights_unchanged_witness :
    (sampleRequest.SortBy = none ∨
      (∃ sortBy, sampleRequest.SortBy = some sortBy ∧
        (sortBy.val = "" ∨ sortBy.val ∉ recognizedDirectives)) ∨
      [offerA, offerC].length < 2) ∧
    sortFlights stdRuntime [offerA, offerC] sampleRequest = ([offerA, offerC], none) :=
  ⟨Or.inl rfl, sortFlights_unchanged stdRuntime [offerA, offerC] sampleRequest (Or.inl rfl)⟩

/-! ### Evaluation of `Search` -/

set_option maxRecDepth 100000 in
theorem sample_search : Search stdRuntime 4 aggCache sampleEnv sampleRequest =
    some (sampleResponse, none, sampleCacheAfter) := by
  decide

theorem sample_search_miss :
    (aggregatorCache.Get aggCache sampleEnv.nowGet (cacheKey sampleRequest)).1.2 = false := rfl

set_option maxRecDepth 100000 in
/-- Witness of C3 on the sample call: the cheaper GA400 offer is in the response. -/
theorem search_flights_survived_filter_witness :
    (aggregatorCache.Get aggCache sampleEnv.nowGet (cacheKey sampleRequest)).1.2 = false ∧
    Search stdRuntime 4 aggCache sampleEnv sampleRequest =
      some (sampleResponse, none, sampleCacheAfter) ∧
    offerB ∈ sampleResponse.Flights ∧
    offerB.Departure.Airport = sampleRequest.Origin ∧
    offerB.Arrival.Airport = sampleRequest.Destination ∧
    ∃ g ∈ (filterFlights stdRuntime sampleEnv.fetched.1 sampleRequest).1,
      offerB.ID = g.ID ∧ offerB.FlightNumber = g.FlightNumber ∧
      offerB.Departure.Timestamp = g.Departure.Timestamp ∧
      offerB.Arrival.Timestamp = g.Arrival.Timestamp ∧ offerB.Price = g.Price ∧
      withDuration offerB g.Duration = g :=
  ⟨sample_search_miss, sample_search, by decide,
    search_flights_survived_filter stdRuntime 4 aggCache sampleCacheAfter sampleEnv
      sampleRequest sampleResponse sample_search_miss sample_search offerB (by decide)⟩

set_option maxRecDepth 100000 in
/-- Witness of C8 on the sample offers and the sample call. -/
theorem rankFlights_scores_nondecreasing_witness :
    (∀ f ∈ [offerA, offerB, offerC], inInt64 (score f)) ∧
    (rankFlights stdRuntime [offerA, offerB, offerC]).1.Pairwise
      (fun a b => score a ≤ score b) ∧
    sampleRequest.SortBy = none ∧
    (aggregatorCache.Get aggCache sampleEnv.nowGet (cacheKey sampleRequest)).1.2 = false ∧
    Search stdRuntime 4 aggCache sampleEnv sampleRequest =
      some (sampleResponse, none, sampleCacheAfter) ∧
    sampleResponse.Flights.Pairwise (fun a b => bestValue a ≤ bestValue b) :=
  ⟨by decide,
    (rankFlights_scores_nondecreasing stdRuntime [offerA, offerB, offerC]).2.2.1 (by decide),
    rfl, sample_search_miss, sample_search,
    (rankFlights_scores_nondecreasing stdRuntime [offerA, offerB, offerC]).2.2.2 4 aggCache
      sampleCacheAfter sampleEnv sampleRequest sampleResponse rfl sample_search_miss
      sample_search⟩

theorem calcDurationsBody_of_ne_zero (g : Flight) (h : g.Duration.TotalMinutes ≠ 0) :
    calcDurationsBody g = g := by
  unfold calcDurationsBody
  simp only [h, false_and, if_false]

/-- What a successful `Search` on a cache miss does guarantee of its flights: the price,
stops and airline constraints of the request always hold, and the duration bounds
hold when MinDurationMinutes is present and positive (no offer with a zero duration
then survives the filter, so the duration-fill changes nothing). -/
theorem search_respects_bounds (rt : Runtime) (providers : Int)
    (cache cache2 : aggregatorCache) (env : CallEnv) (req : SearchRequest)
    (resp : SearchResponse)
    (hmiss : (aggregatorCache.Get cache env.nowGet (cacheKey req)).1.2 = false)
    (hok : Search rt providers cache env req = some (resp, none, cache2)) :
    ∀ f ∈ resp.Flights,
      whenPresent req.MinPrice (fun v => v ≤ f.Price.Amount) ∧
      whenPresent req.MaxPrice (fun v => f.Price.Amount ≤ v) ∧
      whenPresent req.MinStops (fun v => v ≤ f.Stops) ∧
      whenPresent req.MaxStops (fun v => f.Stops ≤ v) ∧
      (req.Airlines ≠ [] → f.Airline.Name ∈ req.Airlines ∨ f.Airline.Code ∈ req.Airlines) ∧
      ((∃ m, req.MinDurationMinutes = some m ∧ 0 < m.val) →
        whenPresent req.MinDurationMinutes (fun v => v ≤ f.Duration.TotalMinutes) ∧
        whenPresent req.MaxDurationMinutes (fun v => f.Duration.TotalMinutes ≤ v)) := by
  intro f hf
  obtain ⟨_, _, _, hresp, _⟩ := Search_miss_ok rt providers cache cache2 env req resp hmiss hok
  rw [hresp] at hf
  obtain ⟨g, hg, rfl⟩ := mem_mergePipeline rt _ req f hf
  have hg2 := comparePrices_subset rt _ g hg
  obtain ⟨_, _, h1, h2, h3, h4, h5, h6, h7, _, _⟩ := ((mem_filterFlights rt _ req g).1 hg2).2
  have hfields := calcDurationsBody_fields g
  have hPrice : (calcDurationsBody g).Price = g.Price :=
    (congrArg Flight.Price hfields :
      (withDuration (calcDurationsBody g) g.Duration).Price = g.Price)
  have hStops : (calcDurationsBody g).Stops = g.Stops :=
    (congrArg Flight.Stops hfields :
      (withDuration (calcDurationsBody g) g.Duration).Stops = g.Stops)
  have hAir : (calcDurationsBody g).Airline = g.Airline :=
    (congrArg Flight.Airline hfields :
      (withDuration (calcDurationsBody g) g.Duration).Airline = g.Airline)
  rw [hPrice, hStops, hAir]
  refine ⟨h1, h2, h3, h4, h7, ?_⟩
  rintro ⟨m, hm, hpos⟩
  have hne : g.Duration.TotalMinutes ≠ 0 := by
    rw [hm] at h5
    simp only [whenPresent] at h5
    omega
  rw [calcDurationsBody_of_ne_zero g hne]
  exact ⟨h5, h6⟩

theorem mapRange_singleton (rt : Runtime) (e : String × Flight) : rt.mapRange [e] = [e] :=
  List.perm_singleton.1 (rt.mapRange_perm [e])

theorem sortSlice_singleton (rt : Runtime) (less : Flight → Flight → Bool) (x : Flight) :
    rt.sortSlice less [x] = [x] :=
  List.perm_singleton.1 (rt.sortSlice_perm less [x])

set_option maxRecDepth 100000 in
/-- C2 fails on the code: for the request that sets only MaxDurationMinutes = 200 and
a source returning one offer with TotalMinutes = 0 whose instants are 500 minutes
apart, the offer passes the filter (0 is within the bound), the duration-fill then
sets TotalMinutes = 500, and the successful `Search` returns it, for every runtime:
not every flight of the response is within the requested maximum duration. -/
theorem search_exceeds_max_duration (rt : Runtime) :
    Search rt 1 aggCache unfilledEnv maxDurationRequest =
      some (unfilledResponse, none, unfilledCacheAfter) ∧
    (filterFlights rt unfilledEnv.fetched.1 maxDurationRequest).1 = [unfilledOffer] ∧
    maxDurationRequest.MaxDurationMinutes = some { addr := 824633802760, val := 200 } ∧
    unfilledResponse.Flights.map (fun f => f.Duration.TotalMinutes) = [500] ∧
    ¬ (∀ f ∈ unfilledResponse.Flights,
        whenPresent maxDurationRequest.MaxDurationMinutes
          (fun v => f.Duration.TotalMinutes ≤ v)) := by
  have hf : filterFlights rt [unfilledOffer] maxDurationRequest = ([unfilledOffer], none) := rfl
  have hc : comparePrices rt [unfilledOffer] = ([unfilledOffer], none) := by
    unfold comparePrices
    have hloop : comparePricesLoop [] [unfilledOffer] =
        [(flightKey unfilledOffer, unfilledOffer)] := rfl
    rw [hloop, mapRange_singleton]
    rfl
  have hd : calcDurations [unfilledOffer] =
      ([withDuration unfilledOffer { TotalMinutes := 500, Formatted := "8h 20m" }], none) := by
    decide
  have hr : ∀ x : Flight, rankFlights rt [x] = ([x], none) := by
    intro x
    unfold rankFlights
    rw [sortSlice_singleton]
  have hs : ∀ l : List Flight, sortFlights rt l maxDurationRequest = (l, none) := fun l => rfl
  have hget : aggregatorCache.Get aggCache unfilledEnv.nowGet (cacheKey maxDurationRequest) =
      ((zeroResponse, false), aggCache) := rfl
  refine ⟨?_, by rw [show unfilledEnv.fetched.1 = [unfilledOffer] from rfl, hf], rfl,
    by decide, by decide⟩
  unfold Search
  simp only [hget, show unfilledEnv.ctxErrBefore = none from rfl,
    show unfilledEnv.fetched = ([unfilledOffer], 1, none) from rfl,
    show unfilledEnv.ctxErrAfter = none from rfl, hf, hc, hd, hr, hs]
  decide

/-! ### Go maps: deletion -/

theorem mem_keys_mapDelete {α : Type} (m : GoMap α) (key k : String) :
    k ∈ (mapDelete m key).map Prod.fst ↔ k ≠ key ∧ k ∈ m.map Prod.fst := by
  unfold mapDelete
  simp only [List.mem_map, List.mem_filter, decide_eq_true_eq]
  constructor
  · rintro ⟨e, ⟨he, hne⟩, rfl⟩
    exact ⟨hne, e, he, rfl⟩
  · rintro ⟨hne, e, he, rfl⟩
    exact ⟨e, ⟨he, hne⟩, rfl⟩

theorem nodup_keys_mapDelete {α : Type} (m : GoMap α) (key : String)
    (hnd : (m.map Prod.fst).Nodup) : ((mapDelete m key).map Prod.fst).Nodup := by
  unfold mapDelete
  exact (List.Nodup.sublist ((List.filter_sublist m).map Prod.fst) hnd)

theorem mapGet_mapDelete_same {α : Type} (m : GoMap α) (key : String) :
    mapGet (mapDelete m key) key = none := by
  rw [mapGet_eq_none_iff, mem_keys_mapDelete]
  exact fun h => h.1 rfl

theorem mapDelete_cons_same {α : Type} (rest : GoMap α) (k : String) (w : α) :
    mapDelete ((k, w) :: rest) k = mapDelete rest k := by
  unfold mapDelete
  simp [List.filter_cons]

theorem mapDelete_cons_other {α : Type} (rest : GoMap α) (k key : String) (w : α)
    (h : k ≠ key) : mapDelete ((k, w) :: rest) key = (k, w) :: mapDelete rest key := by
  unfold mapDelete
  simp [List.filter_cons, h]

theorem mapDelete_of_not_mem {α : Type} (m : GoMap α) (key : String)
    (h : key ∉ m.map Prod.fst) : mapDelete m key = m := by
  induction m with
  | nil => rfl
  | cons e rest ih =>
    obtain ⟨k, w⟩ := e
    simp only [List.map_cons, List.mem_cons, not_or] at h
    rw [mapDelete_cons_other rest k key w (Ne.symm h.1), ih h.2]

theorem mapGet_mapDelete_other {α : Type} (m : GoMap α) (key other : String)
    (hne : other ≠ key) : mapGet (mapDelete m key) other = mapGet m other := by
  induction m with
  | nil => rfl
  | cons e rest ih =>
    obtain ⟨k, w⟩ := e
    by_cases hk : k = key
    · subst hk
      rw [mapDelete_cons_same, ih]
      simp [mapGet, Ne.symm hne]
    · rw [mapDelete_cons_other rest k key w hk]
      by_cases h2 : k = other
      · simp [mapGet, h2]
      · simp [mapGet, h2, ih]

theorem length_mapDelete_of_mem {α : Type} (m : GoMap α) (key : String)
    (hnd : (m.map Prod.fst).Nodup) (hmem : key ∈ m.map Prod.fst) :
    (mapDelete m key).length + 1 = m.length := by
  induction m with
  | nil => simp at hmem
  | cons e rest ih =>
    obtain ⟨k, w⟩ := e
    simp only [List.map_cons, List.nodup_cons] at hnd
    by_cases hk : k = key
    · subst hk
      rw [mapDelete_cons_same, mapDelete_of_not_mem rest k hnd.1]
      rfl
    · have hmem2 : key ∈ rest.map Prod.fst := by
        simp only [List.map_cons, List.mem_cons] at hmem
        rcases hmem with h | h
        · exact absurd h.symm hk
        · exact h
      rw [mapDelete_cons_other rest k key w hk]
      have := ih hnd.2 hmem2
      simp only [List.length_cons]
      omega

theorem length_mapDelete_le {α : Type} (m : GoMap α) (key : String) :
    (mapDelete m key).length ≤ m.length := by
  unfold mapDelete
  exact List.length_filter_le _ _

theorem mapSet_of_not_mem {α : Type} (m : GoMap α) (key : String) (v : α)
    (h : key ∉ m.map Prod.fst) : mapSet m key v = m ++ [(key, v)] := by
  induction m with
  | nil => rfl
  | cons e rest ih =>
    obtain ⟨k, w⟩ := e
    simp only [List.map_cons, List.mem_cons, not_or] at h
    simp [mapSet, Ne.symm h.1, ih h.2]

theorem length_mapSet_of_mem {α : Type} (m : GoMap α) (key : String) (v : α)
    (h : key ∈ m.map Prod.fst) : (mapSet m key v).length = m.length := by
  induction m with
  | nil => simp at h
  | cons e rest ih =>
    obtain ⟨k, w⟩ := e
    by_cases hk : k = key
    · simp [mapSet, hk]
    · simp only [List.map_cons, List.mem_cons] at h
      rcases h with h | h
      · exact absurd h.symm hk
      · simp [mapSet, hk, ih h]

/-! ### Cache -/

theorem Get_hit_unchanged (c : aggregatorCache) (now : Int) (key : String)
    (h : (aggregatorCache.Get c now key).1.2 = true) : (aggregatorCache.Get c now key).2 = c := by
  unfold aggregatorCache.Get at h ⊢
  cases hget : mapGet c.store key with
  | none => simp [hget] at h
  | some entry =>
    simp only [hget] at h ⊢
    by_cases hexp : now > entry.expiresAt
    · simp [hexp] at h
    · simp [hexp]

theorem Get_params (c : aggregatorCache) (now : Int) (key : String) :
    (aggregatorCache.Get c now key).2.maxSize = c.maxSize ∧
    (aggregatorCache.Get c now key).2.ttl = c.ttl := by
  unfold aggregatorCache.Get
  cases mapGet c.store key with
  | none => exact ⟨rfl, rfl⟩
  | some entry =>
    simp only
    split <;> exact ⟨rfl, rfl⟩

theorem Set_params (c c1 : aggregatorCache) (now : Int) (key : String) (value : SearchResponse)
    (h : aggregatorCache.Set c now key value = some c1) :
    c1.maxSize = c.maxSize ∧ c1.ttl = c.ttl := by
  unfold aggregatorCache.Set at h
  simp only at h
  split at h
  · split at h
    · cases h
    · cases h
      exact ⟨rfl, rfl⟩
  · cases h
    exact ⟨rfl, rfl⟩

theorem Set_store_get (c c1 : aggregatorCache) (now : Int) (key : String)
    (value : SearchResponse) (h : aggregatorCache.Set c now key value = some c1) :
    mapGet c1.store key = some { value := value, expiresAt := now + c.ttl } := by
  unfold aggregatorCache.Set at h
  simp only at h
  split at h
  · split at h
    · cases h
    · cases h
      exact mapGet_mapSet_same _ _ _
  · cases h
    exact mapGet_mapSet_same _ _ _

theorem Get_after_Set (c c1 : aggregatorCache) (now later : Int) (key : String)
    (value : SearchResponse) (h : aggregatorCache.Set c now key value = some c1)
    (hlater : later ≤ now + c.ttl) :
    aggregatorCache.Get c1 later key = ((value, true), c1) := by
  unfold aggregatorCache.Get
  rw [Set_store_get c c1 now key value h]
  have hnot : ¬ later > now + c.ttl := by omega
  simp only [hnot, if_false]

theorem CacheInv_Get (c : aggregatorCache) (now : Int) (key : String) (inv : CacheInv c) :
    CacheInv (aggregatorCache.Get c now key).2 := by
  unfold aggregatorCache.Get
  cases mapGet c.store key with
  | none => exact inv
  | some entry =>
    simp only
    split
    · refine ⟨nodup_keys_mapDelete _ _ inv.1, ?_⟩
      intro k hk
      have hk2 := (mem_keys_mapDelete c.store key k).1 hk
      exact (List.mem_erase_of_ne hk2.1).2 (inv.2 k hk2.2)
    · exact inv

theorem CacheInv_Set (c c1 : aggregatorCache) (now : Int) (key : String)
    (value : SearchResponse) (inv : CacheInv c)
    (h : aggregatorCache.Set c now key value = some c1) : CacheInv c1 := by
  unfold aggregatorCache.Set at h
  simp only at h
  split at h
  · split at h
    · cases h
    · rename_i oldest rest horder
      cases h
      refine ⟨nodup_keys_mapSet _ _ _ (nodup_keys_mapDelete _ _ inv.1), ?_⟩
      intro k hk
      simp only [mem_keys_mapSet, mem_keys_mapDelete] at hk
      simp only [List.mem_append, List.mem_singleton]
      rcases hk with hk | ⟨hne, hk⟩
      · exact Or.inr hk
      · have := inv.2 k hk
        rw [horder] at this
        rcases List.mem_cons.1 this with h1 | h1
        · exact absurd h1 hne
        · exact Or.inl h1
  · cases h
    refine ⟨nodup_keys_mapSet _ _ _ inv.1, ?_⟩
    intro k hk
    simp only [mem_keys_mapSet] at hk
    simp only [List.mem_append, List.mem_singleton]
    rcases hk with hk | hk
    · exact Or.inr hk
    · exact Or.inl (inv.2 k hk)

theorem Set_succeeds (c : aggregatorCache) (now : Int) (key : String) (value : SearchResponse)
    (inv : CacheInv c) (hsize : 1 ≤ c.maxSize) :
    ∃ c1, aggregatorCache.Set c now key value = some c1 := by
  unfold aggregatorCache.Set
  simp only
  split
  · rename_i hfull
    cases horder : c.order with
    | nil =>
      exfalso
      cases hstore : c.store with
      | nil =>
        rw [hstore] at hfull
        simp only [List.length_nil, Nat.cast_zero] at hfull
        omega
      | cons e rest =>
        have := inv.2 e.1 (by rw [hstore]; simp)
        rw [horder] at this
        cases this
    | cons oldest rest => exact ⟨_, rfl⟩
  · exact ⟨_, rfl⟩

theorem CacheInv_new (maxSize ttl : Int) : CacheInv (newAggregatorCache maxSize ttl) :=
  ⟨by simp [newAggregatorCache], by simp [newAggregatorCache]⟩

theorem run_preserves (ops : List CacheOp) :
    ∀ c : aggregatorCache, CacheInv c → 1 ≤ c.maxSize →
      ∃ c1, aggregatorCache.run c ops = some c1 ∧ CacheInv c1 ∧
        c1.maxSize = c.maxSize ∧ c1.ttl = c.ttl := by
  induction ops with
  | nil => intro c inv _; exact ⟨c, rfl, inv, rfl, rfl⟩
  | cons op ops ih =>
    intro c inv hsize
    cases op with
    | set now key value =>
      obtain ⟨c1, hset⟩ := Set_succeeds c now key value inv hsize
      have hp := Set_params c c1 now key value hset
      obtain ⟨c2, hrun, inv2, hm, ht⟩ :=
        ih c1 (CacheInv_Set c c1 now key value inv hset) (by rw [hp.1]; exact hsize)
      refine ⟨c2, ?_, inv2, by rw [hm, hp.1], by rw [ht, hp.2]⟩
      simp only [aggregatorCache.run, aggregatorCache.step, hset, hrun]
    | get now key =>
      have hp := Get_params c now key
      obtain ⟨c2, hrun, inv2, hm, ht⟩ :=
        ih _ (CacheInv_Get c now key inv) (by rw [hp.1]; exact hsize)
      refine ⟨c2, ?_, inv2, by rw [hm, hp.1], by rw [ht, hp.2]⟩
      simp only [aggregatorCache.run, aggregatorCache.step, hrun]

theorem run_of_some (c c1 : aggregatorCache) (ops : List CacheOp) (inv : CacheInv c)
    (hsize : 1 ≤ c.maxSize) (hrun : aggregatorCache.run c ops = some c1) :
    CacheInv c1 ∧ c1.maxSize = c.maxSize ∧ c1.ttl = c.ttl := by
  obtain ⟨c2, hrun2, h⟩ := run_preserves ops c inv hsize
  rw [hrun] at hrun2
  cases hrun2
  exact h

/-- C11: cache round trip. In every cache state reached from a cache constructed with
maxSize at least 1 by any sequence of Set and Get operations, `Set(K, V)` at time `t`
does not panic, and a `Get(K)` right after it at any time not after `t + ttl` returns
`(V, true)`, the stored value itself, and leaves the cache as it is. -/
theorem cache_round_trip (maxSize ttl : Int) (ops : List CacheOp) (c : aggregatorCache)
    (hsize : 1 ≤ maxSize)
    (hreach : aggregatorCache.run (newAggregatorCache maxSize ttl) ops = some c)
    (K : String) (V : SearchResponse) (t later : Int) (hlater : later ≤ t + ttl) :
    ∃ c1, aggregatorCache.Set c t K V = some c1 ∧
      aggregatorCache.Get c1 later K = ((V, true), c1) := by
  obtain ⟨inv, hm, ht⟩ := run_of_some _ c ops (CacheInv_new maxSize ttl) hsize hreach
  have hm2 : c.maxSize = maxSize := hm
  have ht2 : c.ttl = ttl := ht
  obtain ⟨c1, hset⟩ := Set_succeeds c t K V inv (by rw [hm2]; exact hsize)
  exact ⟨c1, hset, Get_after_Set c c1 t later K V hset (by rw [ht2]; exact hlater)⟩

/-! ### FIFO eviction -/

theorem keys_entryOf (ttl : Int) (sets : List StoreReq) :
    (sets.map (entryOf ttl)).map Prod.fst = sets.map StoreReq.key := by
  rw [List.map_map]
  rfl

theorem FifoInv_keys_nodup (c : aggregatorCache) (sets : List StoreReq) (inv : FifoInv c sets) :
    (c.store.map Prod.fst).Nodup := by
  have h := inv.1.map Prod.fst
  rw [keys_entryOf] at h
  exact inv.2.2.sublist h

theorem FifoInv_keys_subset (c : aggregatorCache) (sets : List StoreReq)
    (inv : FifoInv c sets) (k : String) (hk : k ∈ c.store.map Prod.fst) :
    k ∈ sets.map StoreReq.key := by
  have h := inv.1.map Prod.fst
  rw [keys_entryOf] at h
  exact h.subset hk

theorem keys_mapDelete_eq_erase {α : Type} (m : GoMap α) (key : String)
    (hnd : (m.map Prod.fst).Nodup) :
    (mapDelete m key).map Prod.fst = (m.map Prod.fst).erase key := by
  induction m with
  | nil => rfl
  | cons e rest ih =>
    obtain ⟨k, w⟩ := e
    simp only [List.map_cons, List.nodup_cons] at hnd
    by_cases hk : k = key
    · subst hk
      rw [mapDelete_cons_same, mapDelete_of_not_mem rest k hnd.1]
      simp
    · rw [mapDelete_cons_other rest k key w hk]
      simp only [List.map_cons]
      rw [List.erase_cons_tail (by simpa using hk), ih hnd.2]

theorem FifoInv_Get (c : aggregatorCache) (sets : List StoreReq) (now : Int) (key : String)
    (inv : FifoInv c sets) : FifoInv (aggregatorCache.Get c now key).2 sets := by
  have httl := (Get_params c now key).2
  unfold FifoInv
  rw [httl]
  unfold aggregatorCache.Get
  cases hget : mapGet c.store key with
  | none => exact inv
  | some entry =>
    simp only
    split
    · refine ⟨?_, ?_, inv.2.2⟩
      · exact (List.filter_sublist c.store).trans inv.1
      · simp only [aggregatorCache.removeOrder]
        rw [inv.2.1, keys_mapDelete_eq_erase _ _ (FifoInv_keys_nodup c sets inv)]
    · exact inv

theorem FifoInv_Set (c c1 : aggregatorCache) (sets : List StoreReq) (s : StoreReq)
    (inv : FifoInv c sets) (hnew : s.key ∉ sets.map StoreReq.key)
    (hset : aggregatorCache.Set c s.now s.key s.value = some c1) :
    FifoInv c1 (sets ++ [s]) ∧
    (((c.store.length : Int) ≥ c.maxSize) → c1.store = c.store.tail ++ [entryOf c.ttl s]) := by
  have httl := (Set_params c c1 s.now s.key s.value hset).2
  have hfresh : s.key ∉ c.store.map Prod.fst :=
    fun h => hnew (FifoInv_keys_subset c sets inv s.key h)
  have hnd2 : ((sets ++ [s]).map StoreReq.key).Nodup := by
    rw [List.map_append, List.nodup_append]
    refine ⟨inv.2.2, by simp, ?_⟩
    intro k hk1 hk2
    simp only [List.map_cons, List.map_nil, List.mem_singleton] at hk2
    rw [hk2] at hk1
    exact hnew hk1
  unfold FifoInv
  rw [httl]
  unfold aggregatorCache.Set at hset
  simp only at hset
  split at hset
  · rename_i hfull
    split at hset
    · cases hset
    · rename_i oldest rest horder
      cases hset
      simp only
      cases hstore : c.store with
      | nil =>
        have := inv.2.1
        rw [horder, hstore] at this
        cases this
      | cons e0 srest =>
        have hord := inv.2.1
        rw [horder, hstore] at hord
        simp only [List.map_cons, List.cons.injEq] at hord
        have hnd := FifoInv_keys_nodup c sets inv
        rw [hstore] at hnd hfresh
        simp only [List.map_cons, List.nodup_cons, List.mem_cons, not_or] at hnd hfresh
        have hdel : mapDelete (e0 :: srest) oldest = srest := by
          have : e0 = (oldest, e0.2) := by rw [hord.1]
          rw [this, mapDelete_cons_same, mapDelete_of_not_mem]
          rw [hord.1]
          exact hnd.1
        rw [hdel, mapSet_of_not_mem _ _ _ hfresh.2]
        have hsub : srest.Sublist (sets.map (entryOf c.ttl)) := by
          have := inv.1
          rw [hstore] at this
          exact (List.sublist_cons_self e0 srest).trans this
        refine ⟨⟨?_, ?_, hnd2⟩, fun _ => ?_⟩
        · rw [List.map_append]
          exact List.Sublist.append hsub (List.Sublist.refl _)
        · rw [hord.2]
          simp
        · simp [entryOf]
  · rename_i hroom
    cases hset
    simp only
    rw [mapSet_of_not_mem _ _ _ hfresh]
    refine ⟨⟨?_, ?_, hnd2⟩, fun h => absurd h hroom⟩
    · rw [List.map_append]
      exact List.Sublist.append inv.1 (List.Sublist.refl _)
    · rw [inv.2.1]
      simp

theorem run_FifoInv (ops : List CacheOp) :
    ∀ (c c1 : aggregatorCache) (sets : List StoreReq), FifoInv c sets →
      ((sets ++ setsOf ops).map StoreReq.key).Nodup →
      aggregatorCache.run c ops = some c1 → FifoInv c1 (sets ++ setsOf ops) := by
  induction ops with
  | nil =>
    intro c c1 sets inv _ hrun
    simp only [aggregatorCache.run, Option.some.injEq] at hrun
    subst hrun
    simpa [setsOf] using inv
  | cons op ops ih =>
    intro c c1 sets inv hnd hrun
    cases op with
    | get now key =>
      simp only [aggregatorCache.run, aggregatorCache.step] at hrun
      simp only [setsOf] at hnd ⊢
      exact ih _ c1 sets (FifoInv_Get c sets now key inv) hnd hrun
    | set now key value =>
      simp only [setsOf] at hnd ⊢
      have hassoc : sets ++ { now := now, key := key, value := value } :: setsOf ops =
          (sets ++ [{ now := now, key := key, value := value }]) ++ setsOf ops := by simp
      rw [hassoc] at hnd ⊢
      have hnew : key ∉ sets.map StoreReq.key := by
        intro hmem
        rw [List.map_append, List.map_append] at hnd
        have := (List.nodup_append.1 (List.nodup_append.1 hnd).1).2.2
        exact this hmem (by simp)
      simp only [aggregatorCache.run, aggregatorCache.step] at hrun
      cases hset : aggregatorCache.Set c now key value with
      | none => simp [hset] at hrun
      | some c2 =>
        simp only [hset] at hrun
        have inv2 := (FifoInv_Set c c2 sets { now := now, key := key, value := value }
          inv hnew hset).1
        exact ih c2 c1 _ inv2 hnd hrun


theorem Get_of_absent (c : aggregatorCache) (t : Int) (key : String)
    (h : mapGet c.store key = none) :
    aggregatorCache.Get c t key = ((zeroResponse, false), c) := by
  unfold aggregatorCache.Get
  rw [h]

theorem Get_of_live (c : aggregatorCache) (t : Int) (key : String) (entry : cacheEntry)
    (h : mapGet c.store key = some entry) (ht : t ≤ entry.expiresAt) :
    aggregatorCache.Get c t key = ((entry.value, true), c) := by
  unfold aggregatorCache.Get
  rw [h]
  have hnot : ¬ t > entry.expiresAt := by omega
  simp only [hnot, if_false]

/-- FIFO eviction where it holds. Take any history of Set and Get operations on a fresh
cache in which no key is stored twice, and suppose the cache then holds exactly
`maxSize` entries. Its entries are in the order in which they were stored (a sub-list of the
stores of the history), so the first is the earliest inserted still present. `Set`
of a further distinct key removes that entry and no other: the store then holds the
remaining entries followed by the new one, `Get` reports the evicted key absent, and
finds each remaining key and the new key with their values up to their expiry. A
`Get` that hits leaves the cache unchanged, so hits before the `Set` do not matter. -/
theorem cache_fifo_eviction (maxSize ttl : Int) (ops : List CacheOp)
    (c : aggregatorCache) (added : StoreReq)
    (hsize : 1 ≤ maxSize)
    (hdistinct : ((setsOf ops).map StoreReq.key).Nodup)
    (hrun : aggregatorCache.run (newAggregatorCache maxSize ttl) ops = some c)
    (hfull : (c.store.length : Int) = maxSize)
    (hnew : added.key ∉ (setsOf ops).map StoreReq.key) :
    ∃ first rest c1,
      c.store = first :: rest ∧
      c.store.Sublist ((setsOf ops).map (entryOf ttl)) ∧
      c.order = c.store.map Prod.fst ∧
      aggregatorCache.Set c added.now added.key added.value = some c1 ∧
      c1.store = rest ++ [entryOf ttl added] ∧
      c1.order = c1.store.map Prod.fst ∧
      (∀ t, aggregatorCache.Get c1 t first.1 = ((zeroResponse, false), c1)) ∧
      (∀ e ∈ rest, ∀ t, t ≤ e.2.expiresAt →
        aggregatorCache.Get c1 t e.1 = ((e.2.value, true), c1)) ∧
      (∀ t, t ≤ added.now + ttl →
        aggregatorCache.Get c1 t added.key = ((added.value, true), c1)) ∧
      (∀ (c0 : aggregatorCache) (now : Int) (key : String),
        (aggregatorCache.Get c0 now key).1.2 = true →
          (aggregatorCache.Get c0 now key).2 = c0) := by
  obtain ⟨cinv, hm, ht⟩ := run_of_some _ c ops (CacheInv_new maxSize ttl) hsize hrun
  have hm2 : c.maxSize = maxSize := hm
  have ht2 : c.ttl = ttl := ht
  have inv0 : FifoInv (newAggregatorCache maxSize ttl) [] :=
    ⟨by simp [newAggregatorCache], by simp [newAggregatorCache], by simp⟩
  have inv := run_FifoInv ops _ c [] inv0 (by simpa using hdistinct) hrun
  rw [List.nil_append] at inv
  obtain ⟨c1, hset⟩ := Set_succeeds c added.now added.key added.value cinv
    (by rw [hm2]; exact hsize)
  obtain ⟨inv1, htail⟩ := FifoInv_Set c c1 (setsOf ops) added inv hnew hset
  have hstore1 := htail (by rw [hm2, hfull])
  cases hstore : c.store with
  | nil =>
    rw [hstore] at hfull
    simp only [List.length_nil, Nat.cast_zero] at hfull
    omega
  | cons first rest =>
    rw [hstore, List.tail_cons, ht2] at hstore1
    have hnd := FifoInv_keys_nodup c (setsOf ops) inv
    rw [hstore] at hnd
    simp only [List.map_cons, List.nodup_cons] at hnd
    have hnd1 := FifoInv_keys_nodup c1 _ inv1
    have hfirst_new : first.1 ≠ added.key := by
      intro h
      apply hnew
      rw [← h]
      exact FifoInv_keys_subset c (setsOf ops) inv first.1 (by rw [hstore]; simp)
    have hsub := inv.1
    rw [ht2] at hsub
    refine ⟨first, rest, c1, rfl, by rw [← hstore]; exact hsub,
      by rw [← hstore]; exact inv.2.1, hset, hstore1,
      inv1.2.1, ?_, ?_, ?_, Get_hit_unchanged⟩
    · intro t
      apply Get_of_absent
      rw [mapGet_eq_none_iff, hstore1]
      simp only [List.map_append, List.map_cons, List.map_nil, List.mem_append,
        List.mem_singleton, not_or]
      exact ⟨hnd.1, hfirst_new⟩
    · intro e he t hte
      apply Get_of_live c1 t e.1 e.2 _ hte
      apply mapGet_of_mem _ _ _ hnd1
      rw [hstore1]
      exact List.mem_append_left _ he
    · intro t hte
      exact Get_after_Set c c1 added.now t added.key added.value hset
        (by rw [ht2]; exact hte)

theorem Get_store_length_le (c : aggregatorCache) (now : Int) (key : String) :
    (aggregatorCache.Get c now key).2.store.length ≤ c.store.length := by
  unfold aggregatorCache.Get
  cases mapGet c.store key with
  | none => exact le_refl _
  | some entry =>
    simp only
    split
    · exact length_mapDelete_le _ _
    · exact le_refl _

theorem Set_store_length_fresh (c c1 : aggregatorCache) (now : Int) (key : String)
    (value : SearchResponse) (hfresh : key ∉ c.store.map Prod.fst)
    (hhead : ∀ oldest rest, c.order = oldest :: rest → oldest ∈ c.store.map Prod.fst)
    (hnd : (c.store.map Prod.fst).Nodup)
    (hbound : (c.store.length : Int) ≤ c.maxSize)
    (hset : aggregatorCache.Set c now key value = some c1) :
    (c1.store.length : Int) ≤ c1.maxSize := by
  have hm := (Set_params c c1 now key value hset).1
  rw [hm]
  unfold aggregatorCache.Set at hset
  simp only at hset
  split at hset
  · split at hset
    · cases hset
    · rename_i oldest rest horder
      cases hset
      simp only
      have hmem := hhead oldest rest horder
      have hlen := length_mapDelete_of_mem c.store oldest hnd hmem
      have hfresh2 : key ∉ (mapDelete c.store oldest).map Prod.fst := by
        rw [mem_keys_mapDelete]
        exact fun h => hfresh h.2
      rw [mapSet_of_not_mem _ _ _ hfresh2]
      simp only [List.length_append, List.length_singleton, Nat.cast_add, Nat.cast_one]
      omega
  · rename_i hroom
    cases hset
    simp only
    rw [mapSet_of_not_mem _ _ _ hfresh]
    simp only [List.length_append, List.length_singleton, Nat.cast_add, Nat.cast_one]
    omega

theorem capacity_bound_step (ops : List CacheOp) :
    ∀ (c c1 : aggregatorCache) (sets : List StoreReq), FifoInv c sets →
      (c.store.length : Int) ≤ c.maxSize →
      ((sets ++ setsOf ops).map StoreReq.key).Nodup →
      aggregatorCache.run c ops = some c1 → (c1.store.length : Int) ≤ c1.maxSize := by
  induction ops with
  | nil =>
    intro c c1 sets _ hb _ hrun
    simp only [aggregatorCache.run, Option.some.injEq] at hrun
    subst hrun
    exact hb
  | cons op ops ih =>
    intro c c1 sets inv hb hnd hrun
    cases op with
    | get now key =>
      simp only [aggregatorCache.run, aggregatorCache.step] at hrun
      simp only [setsOf] at hnd
      refine ih _ c1 sets (FifoInv_Get c sets now key inv) ?_ hnd hrun
      have h1 := Get_store_length_le c now key
      have h2 := (Get_params c now key).1
      rw [h2]
      omega
    | set now key value =>
      simp only [setsOf] at hnd
      have hassoc : sets ++ { now := now, key := key, value := value } :: setsOf ops =
          (sets ++ [{ now := now, key := key, value := value }]) ++ setsOf ops := by simp
      rw [hassoc] at hnd
      have hnew : key ∉ sets.map StoreReq.key := by
        intro hmem
        rw [List.map_append, List.map_append] at hnd
        have := (List.nodup_append.1 (List.nodup_append.1 hnd).1).2.2
        exact this hmem (by simp)
      simp only [aggregatorCache.run, aggregatorCache.step] at hrun
      cases hset : aggregatorCache.Set c now key value with
      | none => simp [hset] at hrun
      | some c2 =>
        simp only [hset] at hrun
        have inv2 := (FifoInv_Set c c2 sets { now := now, key := key, value := value }
          inv hnew hset).1
        refine ih c2 c1 _ inv2 ?_ hnd hrun
        apply Set_store_length_fresh c c2 now key value _ _
          (FifoInv_keys_nodup c sets inv) hb hset
        · exact fun h => hnew (FifoInv_keys_subset c sets inv key h)
        · intro oldest rest horder
          rw [← inv.2.1, horder]
          simp

/-- What the code does guarantee of the capacity: after a history on a fresh cache
that stores no key twice, the store holds at most `maxSize` entries. -/
theorem capacity_bound_distinct (maxSize ttl : Int) (ops : List CacheOp)
    (c : aggregatorCache) (hsize : 0 ≤ maxSize)
    (hdistinct : ((setsOf ops).map StoreReq.key).Nodup)
    (hrun : aggregatorCache.run (newAggregatorCache maxSize ttl) ops = some c) :
    (c.store.length : Int) ≤ c.maxSize :=
  capacity_bound_step ops (newAggregatorCache maxSize ttl) c []
    ⟨by simp [newAggregatorCache], by simp [newAggregatorCache], by simp⟩
    (by simpa [newAggregatorCache] using hsize) (by simpa using hdistinct) hrun

/-! ### Search and the cache -/

theorem Search_of_hit (rt : Runtime) (providers : Int) (cache cache1 : aggregatorCache)
    (env : CallEnv) (req : SearchRequest) (stored : SearchResponse)
    (hget : aggregatorCache.Get cache env.nowGet (cacheKey req) = ((stored, true), cache1)) :
    Search rt providers cache env req =
      some ({ stored with Metadata :=
                { stored.Metadata with SearchTimeMs := env.elapsedMs, CacheHit := true } },
            none, cache1) := by
  unfold Search
  simp only [hget]

theorem Search_of_expired_context (rt : Runtime) (providers : Int) (cache : aggregatorCache)
    (env : CallEnv) (req : SearchRequest) (err : GoError)
    (hmiss : (aggregatorCache.Get cache env.nowGet (cacheKey req)).1.2 = false)
    (hctx : env.ctxErrBefore = some err) :
    Search rt providers cache env req =
      some (failedResponse req providers 0 env, some err,
        (aggregatorCache.Get cache env.nowGet (cacheKey req)).2) := by
  unfold Search
  simp only
  split
  · rename_i r c1 hget
    rw [hget] at hmiss
    cases hmiss
  · rename_i r c1 hget
    simp only [hctx, hget]

theorem Search_error_cases (rt : Runtime) (providers : Int) (cache cache2 : aggregatorCache)
    (env : CallEnv) (req : SearchRequest) (resp : SearchResponse) (err : GoError)
    (h : Search rt providers cache env req = some (resp, some err, cache2)) :
    ∃ succeeded, resp = failedResponse req providers succeeded env ∧
      cache2 = (aggregatorCache.Get cache env.nowGet (cacheKey req)).2 := by
  unfold Search at h
  simp only at h
  split at h
  · simp at h
  · rename_i r c1 hget
    have hc1 : c1 = (aggregatorCache.Get cache env.nowGet (cacheKey req)).2 := by rw [hget]
    split at h
    · simp only [Option.some.injEq, Prod.mk.injEq] at h
      exact ⟨0, h.1.symm, by rw [← h.2.2, hc1]⟩
    · split at h
      · rename_i results successCount hfetch
        simp only [Option.some.injEq, Prod.mk.injEq] at h
        exact ⟨_, h.1.symm, by rw [← h.2.2, hc1]⟩
      · split at h
        · simp only [Option.some.injEq, Prod.mk.injEq] at h
          exact ⟨_, h.1.symm, by rw [← h.2.2, hc1]⟩
        · simp only [filterFlights, comparePrices, calcDurations, rankFlights] at h
          split at h
          · simp only [Option.some.injEq, Prod.mk.injEq] at h
            exact ⟨_, h.1.symm, by rw [← h.2.2, hc1]⟩
          · split at h
            · cases h
            · simp at h

/-- C17: when a first `Search` succeeds on a cache miss, a second `Search` with the
same request on the resulting cache, looking the key up no later than the time to
live after the store, returns no error, CacheHit = true and the TotalResults and
Flights of the first response, whatever runtime, sources, fetched offers and context
state the second call has; it leaves the cache as it is. -/
theorem search_second_call_hits (rt rt2 : Runtime) (providers providers2 : Int)
    (cache cache2 : aggregatorCache) (env env2 : CallEnv) (req : SearchRequest)
    (resp : SearchResponse)
    (hmiss : (aggregatorCache.Get cache env.nowGet (cacheKey req)).1.2 = false)
    (hok : Search rt providers cache env req = some (resp, none, cache2))
    (hfresh : env2.nowGet ≤ env.nowSet + cache.ttl) :
    ∃ resp2, Search rt2 providers2 cache2 env2 req = some (resp2, none, cache2) ∧
      resp2.Metadata.CacheHit = true ∧
      resp2.Metadata.TotalResults = resp.Metadata.TotalResults ∧
      resp2.Flights = resp.Flights := by
  obtain ⟨_, _, _, _, hset⟩ := Search_miss_ok rt providers cache cache2 env req resp hmiss hok
  have httl := (Get_params cache env.nowGet (cacheKey req)).2
  have hget := Get_after_Set _ cache2 env.nowSet env2.nowGet (cacheKey req) resp hset
    (by rw [httl]; exact hfresh)
  exact ⟨_, Search_of_hit rt2 providers2 cache2 cache2 env2 req resp hget, rfl, rfl, rfl⟩

/-- C18: with no unexpired cache entry for the request and a context that already
reports an error, `Search` returns that error and a response with ProvidersSucceeded
= 0, ProvidersFailed = ProvidersQueried = the number of registered sources,
TotalResults = 0, no flights and CacheHit = false; control never reaches the call of
the gateway, and the result is the same whatever the sources would have returned. -/
theorem search_expired_deadline (rt : Runtime) (providers : Int) (cache : aggregatorCache)
    (env : CallEnv) (req : SearchRequest) (err : GoError)
    (hmiss : (aggregatorCache.Get cache env.nowGet (cacheKey req)).1.2 = false)
    (hctx : env.ctxErrBefore = some err) :
    ∃ resp cache1, Search rt providers cache env req = some (resp, some err, cache1) ∧
      resp.Metadata.ProvidersSucceeded = 0 ∧
      resp.Metadata.ProvidersFailed = providers ∧
      resp.Metadata.ProvidersQueried = providers ∧
      resp.Metadata.TotalResults = 0 ∧ resp.Flights = [] ∧
      resp.Metadata.CacheHit = false ∧
      gatewayCalled cache env req = false ∧
      ∀ (fetched : List Flight × Int × Option GoError) (after : Option GoError),
        Search rt providers cache { env with fetched := fetched, ctxErrAfter := after } req =
          some (resp, some err, cache1) := by
  refine ⟨_, _, Search_of_expired_context rt providers cache env req err hmiss hctx,
    rfl, ?_, rfl, rfl, rfl, rfl, ?_, ?_⟩
  · simp [failedResponse]
  · unfold gatewayCalled
    split
    · rfl
    · simp only [hctx]
  · intro fetched after
    exact Search_of_expired_context rt providers cache
      { env with fetched := fetched, ctxErrAfter := after } req err hmiss hctx

/-- C19: whenever `Search` returns a non-nil error, the cache is exactly what the
initial lookup left (no entry is written for the request), and the response has no
flights and TotalResults = 0. -/
theorem search_failure_leaves_cache (rt : Runtime) (providers : Int)
    (cache cache2 : aggregatorCache) (env : CallEnv) (req : SearchRequest)
    (resp : SearchResponse) (err : GoError)
    (h : Search rt providers cache env req = some (resp, some err, cache2)) :
    cache2 = (aggregatorCache.Get cache env.nowGet (cacheKey req)).2 ∧
    cache2.store = (aggregatorCache.Get cache env.nowGet (cacheKey req)).2.store ∧
    cache2.order = (aggregatorCache.Get cache env.nowGet (cacheKey req)).2.order ∧
    resp.Flights = [] ∧ resp.Metadata.TotalResults = 0 := by
  obtain ⟨succeeded, hresp, hcache⟩ :=
    Search_error_cases rt providers cache cache2 env req resp err h
  refine ⟨hcache, by rw [hcache], by rw [hcache], by rw [hresp]; rfl, by rw [hresp]; rfl⟩

/-- The metadata in terms of what the gateway returned: a `Search` that returns without
error on a cache miss has ProvidersQueried = the number of registered sources,
ProvidersSucceeded = the success count returned by the gateway, ProvidersSucceeded +
ProvidersFailed = ProvidersQueried, TotalResults = the length of Flights, CacheHit =
false and SearchCriteria = the request; with 4 sources and a success count of 4 the
three counts are 4, 4 and 0. -/
theorem search_metadata (rt : Runtime) (providers : Int) (cache cache2 : aggregatorCache)
    (env : CallEnv) (req : SearchRequest) (resp : SearchResponse)
    (hmiss : (aggregatorCache.Get cache env.nowGet (cacheKey req)).1.2 = false)
    (hok : Search rt providers cache env req = some (resp, none, cache2)) :
    resp.Metadata.ProvidersQueried = providers ∧
    resp.Metadata.ProvidersSucceeded = env.fetched.2.1 ∧
    resp.Metadata.ProvidersSucceeded + resp.Metadata.ProvidersFailed =
      resp.Metadata.ProvidersQueried ∧
    resp.Metadata.TotalResults = resp.Flights.length ∧
    resp.Metadata.CacheHit = false ∧
    resp.SearchCriteria = req ∧
    (providers = 4 → env.fetched.2.1 = 4 →
      resp.Metadata.ProvidersQueried = 4 ∧ resp.Metadata.ProvidersSucceeded = 4 ∧
      resp.Metadata.ProvidersFailed = 0) := by
  obtain ⟨_, _, _, hresp, _⟩ := Search_miss_ok rt providers cache cache2 env req resp hmiss hok
  rw [hresp]
  refine ⟨rfl, rfl, by simp, rfl, rfl, rfl, ?_⟩
  intro h1 h2
  simp [h1, h2]

/-! ### The cache key -/

theorem prepend_sep_inj {α : Type} (sep : α) : ∀ (x₁ x₂ z₁ z₂ : List α),
    sep ∉ x₁ → sep ∉ x₂ → x₁ ++ sep :: z₁ = x₂ ++ sep :: z₂ → x₁ = x₂ ∧ z₁ = z₂ := by
  intro x₁
  induction x₁ with
  | nil =>
    intro x₂ z₁ z₂ _ h2 h
    cases x₂ with
    | nil => simpa using h
    | cons b x₂ =>
      simp only [List.nil_append, List.cons_append, List.cons.injEq] at h
      exact absurd (by rw [h.1]; simp) h2
  | cons a x₁ ih =>
    intro x₂ z₁ z₂ h1 h2 h
    cases x₂ with
    | nil =>
      simp only [List.nil_append, List.cons_append, List.cons.injEq] at h
      exact absurd (by rw [← h.1]; simp) h1
    | cons b x₂ =>
      simp only [List.cons_append, List.cons.injEq] at h
      simp only [List.mem_cons, not_or] at h1 h2
      obtain ⟨h3, h4⟩ := ih x₂ z₁ z₂ h1.2 h2.2 h.2
      exact ⟨by rw [h.1, h3], h4⟩

theorem toDigitsCore_append_base (b fuel : Nat) : ∀ (n : Nat) (acc : List Char),
    Nat.toDigitsCore b fuel n acc = Nat.toDigitsCore b fuel n [] ++ acc := by
  induction fuel with
  | zero => intro n acc; simp [Nat.toDigitsCore]
  | succ fuel ih =>
    intro n acc
    simp only [Nat.toDigitsCore]
    by_cases h : n / b = 0
    · simp [h]
    · simp only [h, if_false]
      rw [ih (n / b) (_ :: acc), ih (n / b) [_]]
      simp

theorem toDigitsCore_chars_base (b fuel : Nat) (hb : 0 < b) : ∀ (n : Nat) (c : Char),
    c ∈ Nat.toDigitsCore b fuel n [] → ∃ d, d < b ∧ c = Nat.digitChar d := by
  induction fuel with
  | zero => intro n c h; simp [Nat.toDigitsCore] at h
  | succ fuel ih =>
    intro n c hc
    simp only [Nat.toDigitsCore] at hc
    by_cases h : n / b = 0
    · simp only [h, if_true, List.mem_singleton] at hc
      exact ⟨n % b, Nat.mod_lt _ hb, hc⟩
    · simp only [h, if_false] at hc
      rw [toDigitsCore_append_base] at hc
      rcases List.mem_append.1 hc with h1 | h1
      · exact ih _ _ h1
      · simp only [List.mem_singleton] at h1
        exact ⟨n % b, Nat.mod_lt _ hb, h1⟩

theorem hexDigit_ne_bar : ∀ d : Nat, d < 16 → Nat.digitChar d ≠ '|' := by
  decide

theorem formatPtr_data {α : Type} (p : Option (Ptr α)) :
    (formatPtr p).data =
      match p with
      | none => ['<', 'n', 'i', 'l', '>']
      | some q => '0' :: 'x' :: Nat.toDigits 16 q.addr := by
  cases p with
  | none => rfl
  | some q => simp [formatPtr, String.data_append]

theorem formatPtr_no_bar {α : Type} (p : Option (Ptr α)) : '|' ∉ (formatPtr p).data := by
  rw [formatPtr_data]
  cases p with
  | none => simp
  | some q =>
    simp only [List.mem_cons, not_or]
    refine ⟨by decide, by decide, ?_⟩
    intro h
    obtain ⟨d, hd, hc⟩ := toDigitsCore_chars_base 16 _ (by norm_num) _ _ h
    exact hexDigit_ne_bar d hd hc.symm

theorem formatPtr_presence {α β : Type} (p : Option (Ptr α)) (q : Option (Ptr β))
    (h : (formatPtr p).data = (formatPtr q).data) : p.isSome = q.isSome := by
  rw [formatPtr_data, formatPtr_data] at h
  cases p <;> cases q <;> simp at h <;> rfl


theorem intercalate_go_data (sep acc : String) (l : List String) :
    (String.intercalate.go acc sep l).data =
      acc.data ++ (l.map (fun a => sep.data ++ a.data)).flatten := by
  induction l generalizing acc with
  | nil => simp [String.intercalate.go]
  | cons a rest ih =>
    simp only [String.intercalate.go, ih, String.data_append, List.map_cons,
      List.flatten_cons, List.append_assoc]

theorem spacefree_append_inj : ∀ (a b X Y : List Char),
    ' ' ∉ a → ' ' ∉ b → (X = [] ∨ X.head? = some ' ') → (Y = [] ∨ Y.head? = some ' ') →
    a ++ X = b ++ Y → a = b ∧ X = Y := by
  intro a
  induction a with
  | nil =>
    intro b X Y _ hb hX _ h
    cases b with
    | nil => exact ⟨rfl, by simpa using h⟩
    | cons c b =>
      exfalso
      simp only [List.nil_append, List.cons_append] at h
      rcases hX with hX | hX
      · rw [hX] at h
        cases h
      · rw [h] at hX
        simp only [List.head?_cons, Option.some.injEq] at hX
        exact hb (by rw [hX]; simp)
  | cons c a ih =>
    intro b X Y ha hb hX hY h
    cases b with
    | nil =>
      exfalso
      simp only [List.nil_append, List.cons_append] at h
      rcases hY with hY | hY
      · rw [hY] at h
        cases h
      · rw [← h] at hY
        simp only [List.head?_cons, Option.some.injEq] at hY
        exact ha (by rw [hY]; simp)
    | cons d b =>
      simp only [List.cons_append, List.cons.injEq] at h
      simp only [List.mem_cons, not_or] at ha hb
      obtain ⟨h1, h2⟩ := ih b X Y ha.2 hb.2 hX hY h.2
      exact ⟨by rw [h.1, h1], h2⟩

theorem spaced_head (l : List String) :
    (l.map (fun a => ' ' :: a.data)).flatten = [] ∨
      ((l.map (fun a => ' ' :: a.data)).flatten).head? = some ' ' := by
  cases l with
  | nil => exact Or.inl rfl
  | cons a rest => exact Or.inr rfl

theorem spaced_inj : ∀ (l₁ l₂ : List String),
    (∀ a ∈ l₁, ' ' ∉ a.data) → (∀ a ∈ l₂, ' ' ∉ a.data) →
    (l₁.map (fun a => ' ' :: a.data)).flatten = (l₂.map (fun a => ' ' :: a.data)).flatten →
    l₁ = l₂ := by
  intro l₁
  induction l₁ with
  | nil =>
    intro l₂ _ _ h
    cases l₂ with
    | nil => rfl
    | cons b bs => simp at h
  | cons a as ih =>
    intro l₂ h1 h2 h
    cases l₂ with
    | nil => simp at h
    | cons b bs =>
      simp only [List.map_cons, List.flatten_cons, List.cons_append, List.cons.injEq,
        true_and] at h
      obtain ⟨hab, hrest⟩ := spacefree_append_inj a.data b.data _ _
        (h1 a (by simp)) (h2 b (by simp)) (spaced_head as) (spaced_head bs) h
      rw [String.ext hab, ih bs (fun x hx => h1 x (List.mem_cons_of_mem _ hx))
        (fun x hx => h2 x (List.mem_cons_of_mem _ hx)) hrest]

theorem formatStrings_data (l : List String) :
    (formatStrings l).data =
      '[' :: ((match l with
        | [] => []
        | a :: rest => a.data ++ (rest.map (fun x => ' ' :: x.data)).flatten) ++ [']']) := by
  cases l with
  | nil => rfl
  | cons a rest =>
    simp only [formatStrings, String.intercalate, String.data_append, intercalate_go_data]
    rfl

theorem formatStrings_inj (l₁ l₂ : List String) (h1 : plainAirlines l₁)
    (h2 : plainAirlines l₂) (h : (formatStrings l₁).data = (formatStrings l₂).data) :
    l₁ = l₂ := by
  rw [formatStrings_data, formatStrings_data] at h
  simp only [List.cons.injEq, true_and, List.append_left_inj] at h
  cases l₁ with
  | nil =>
    cases l₂ with
    | nil => rfl
    | cons b bs =>
      exfalso
      simp only at h
      have := (h2 b (by simp)).1
      cases hb : b.data with
      | nil => exact this hb
      | cons c cs => rw [hb] at h; cases h
  | cons a as =>
    cases l₂ with
    | nil =>
      exfalso
      simp only at h
      have := (h1 a (by simp)).1
      cases ha : a.data with
      | nil => exact this ha
      | cons c cs => rw [ha] at h; cases h
    | cons b bs =>
      simp only at h
      obtain ⟨hab, hrest⟩ := spacefree_append_inj a.data b.data _ _
        (h1 a (by simp)).2 (h2 b (by simp)).2 (spaced_head as) (spaced_head bs) h
      rw [String.ext hab, spaced_inj as bs
        (fun x hx => (h1 x (List.mem_cons_of_mem _ hx)).2)
        (fun x hx => (h2 x (List.mem_cons_of_mem _ hx)).2) hrest]

theorem cacheKey_data (r : SearchRequest) :
    (cacheKey r).data =
      (r.Origin.data ++ '|' ::
      (r.Destination.data ++ '|' ::
      (r.DepartureDate.data ++ '|' ::
      (r.Passengers.data ++ '|' ::
      (r.CabinClass.data ++ '|' ::
      ((formatPtr r.MinPrice).data ++ '|' ::
      ((formatPtr r.MaxPrice).data ++ '|' ::
      ((formatPtr r.MinStops).data ++ '|' ::
      ((formatPtr r.MaxStops).data ++ '|' ::
      ((formatPtr r.DepartureTimeStart).data ++ '|' ::
      ((formatPtr r.DepartureTimeEnd).data ++ '|' ::
      ((formatPtr r.ArrivalTimeStart).data ++ '|' ::
      ((formatPtr r.ArrivalTimeEnd).data ++ '|' ::
      (((((formatStrings r.Airlines).data ++ '|' :: (formatPtr r.MinDurationMinutes).data) ++ '|' :: (formatPtr r.MaxDurationMinutes).data) ++ '|' :: (formatPtr r.SortBy).data) ++ '|' :: (formatPtr r.ReturnDate).data)))))))))))))) := by
  simp [cacheKey, String.intercalate, String.intercalate.go, String.data_append]


theorem cacheKey_segments (r₁ r₂ : SearchRequest) (h1 : barFree r₁) (h2 : barFree r₂)
    (hkey : cacheKey r₁ = cacheKey r₂) :
    (r₁.Origin = r₂.Origin ∧ r₁.Destination = r₂.Destination ∧
      r₁.DepartureDate = r₂.DepartureDate ∧ r₁.Passengers = r₂.Passengers ∧
      r₁.CabinClass = r₂.CabinClass) ∧
    ((formatPtr r₁.MinPrice).data = (formatPtr r₂.MinPrice).data ∧
      (formatPtr r₁.MaxPrice).data = (formatPtr r₂.MaxPrice).data ∧
      (formatPtr r₁.MinStops).data = (formatPtr r₂.MinStops).data ∧
      (formatPtr r₁.MaxStops).data = (formatPtr r₂.MaxStops).data ∧
      (formatPtr r₁.DepartureTimeStart).data = (formatPtr r₂.DepartureTimeStart).data ∧
      (formatPtr r₁.DepartureTimeEnd).data = (formatPtr r₂.DepartureTimeEnd).data ∧
      (formatPtr r₁.ArrivalTimeStart).data = (formatPtr r₂.ArrivalTimeStart).data ∧
      (formatPtr r₁.ArrivalTimeEnd).data = (formatPtr r₂.ArrivalTimeEnd).data) ∧
    (formatStrings r₁.Airlines).data = (formatStrings r₂.Airlines).data ∧
    ((formatPtr r₁.MinDurationMinutes).data = (formatPtr r₂.MinDurationMinutes).data ∧
      (formatPtr r₁.MaxDurationMinutes).data = (formatPtr r₂.MaxDurationMinutes).data ∧
      (formatPtr r₁.SortBy).data = (formatPtr r₂.SortBy).data ∧
      (formatPtr r₁.ReturnDate).data = (formatPtr r₂.ReturnDate).data) := by
  have hd : (cacheKey r₁).data = (cacheKey r₂).data := by rw [hkey]
  rw [cacheKey_data, cacheKey_data] at hd
  obtain ⟨a1, a2, a3, a4, a5⟩ := h1
  obtain ⟨b1, b2, b3, b4, b5⟩ := h2
  obtain ⟨e1, hd⟩ := prepend_sep_inj '|' _ _ _ _ a1 b1 hd
  obtain ⟨e2, hd⟩ := prepend_sep_inj '|' _ _ _ _ a2 b2 hd
  obtain ⟨e3, hd⟩ := prepend_sep_inj '|' _ _ _ _ a3 b3 hd
  obtain ⟨e4, hd⟩ := prepend_sep_inj '|' _ _ _ _ a4 b4 hd
  obtain ⟨e5, hd⟩ := prepend_sep_inj '|' _ _ _ _ a5 b5 hd
  obtain ⟨p1, hd⟩ := prepend_sep_inj '|' _ _ _ _ (formatPtr_no_bar _) (formatPtr_no_bar _) hd
  obtain ⟨p2, hd⟩ := prepend_sep_inj '|' _ _ _ _ (formatPtr_no_bar _) (formatPtr_no_bar _) hd
  obtain ⟨p3, hd⟩ := prepend_sep_inj '|' _ _ _ _ (formatPtr_no_bar _) (formatPtr_no_bar _) hd
  obtain ⟨p4, hd⟩ := prepend_sep_inj '|' _ _ _ _ (formatPtr_no_bar _) (formatPtr_no_bar _) hd
  obtain ⟨p5, hd⟩ := prepend_sep_inj '|' _ _ _ _ (formatPtr_no_bar _) (formatPtr_no_bar _) hd
  obtain ⟨p6, hd⟩ := prepend_sep_inj '|' _ _ _ _ (formatPtr_no_bar _) (formatPtr_no_bar _) hd
  obtain ⟨p7, hd⟩ := prepend_sep_inj '|' _ _ _ _ (formatPtr_no_bar _) (formatPtr_no_bar _) hd
  obtain ⟨p8, hd⟩ := prepend_sep_inj '|' _ _ _ _ (formatPtr_no_bar _) (formatPtr_no_bar _) hd
  obtain ⟨hd, q4⟩ := append_sep_inj '|' _ _ _ _ (formatPtr_no_bar _) (formatPtr_no_bar _) hd
  obtain ⟨hd, q3⟩ := append_sep_inj '|' _ _ _ _ (formatPtr_no_bar _) (formatPtr_no_bar _) hd
  obtain ⟨hd, q2⟩ := append_sep_inj '|' _ _ _ _ (formatPtr_no_bar _) (formatPtr_no_bar _) hd
  obtain ⟨hd, q1⟩ := append_sep_inj '|' _ _ _ _ (formatPtr_no_bar _) (formatPtr_no_bar _) hd
  exact ⟨⟨String.ext e1, String.ext e2, String.ext e3, String.ext e4, String.ext e5⟩,
    ⟨p1, p2, p3, p4, p5, p6, p7, p8⟩, hd, ⟨q1, q2, q3, q4⟩⟩

/-- C16 as amended: two requests whose required strings contain no vertical bar and
that have the same cache key have the same five required strings and agree on the
presence of each of the twelve optional fields, and they have the same Airlines list
when the entries of both lists are non-empty and contain no space. Read the other
way: such requests that differ in a required string, in the presence of an optional
field, or in such an Airlines list have different keys; in particular an absent
optional field does not give the key of a present one. -/
theorem cacheKey_separates (r₁ r₂ : SearchRequest) (h1 : barFree r₁) (h2 : barFree r₂)
    (hkey : cacheKey r₁ = cacheKey r₂) :
    r₁.Origin = r₂.Origin ∧ r₁.Destination = r₂.Destination ∧
    r₁.DepartureDate = r₂.DepartureDate ∧ r₁.Passengers = r₂.Passengers ∧
    r₁.CabinClass = r₂.CabinClass ∧
    r₁.MinPrice.isSome = r₂.MinPrice.isSome ∧ r₁.MaxPrice.isSome = r₂.MaxPrice.isSome ∧
    r₁.MinStops.isSome = r₂.MinStops.isSome ∧ r₁.MaxStops.isSome = r₂.MaxStops.isSome ∧
    r₁.DepartureTimeStart.isSome = r₂.DepartureTimeStart.isSome ∧
    r₁.DepartureTimeEnd.isSome = r₂.DepartureTimeEnd.isSome ∧
    r₁.ArrivalTimeStart.isSome = r₂.ArrivalTimeStart.isSome ∧
    r₁.ArrivalTimeEnd.isSome = r₂.ArrivalTimeEnd.isSome ∧
    r₁.MinDurationMinutes.isSome = r₂.MinDurationMinutes.isSome ∧
    r₁.MaxDurationMinutes.isSome = r₂.MaxDurationMinutes.isSome ∧
    r₁.SortBy.isSome = r₂.SortBy.isSome ∧ r₁.ReturnDate.isSome = r₂.ReturnDate.isSome ∧
    (plainAirlines r₁.Airlines → plainAirlines r₂.Airlines → r₁.Airlines = r₂.Airlines) := by
  obtain ⟨⟨e1, e2, e3, e4, e5⟩, ⟨p1, p2, p3, p4, p5, p6, p7, p8⟩, ha, ⟨q1, q2, q3, q4⟩⟩ :=
    cacheKey_segments r₁ r₂ h1 h2 hkey
  exact ⟨e1, e2, e3, e4, e5, formatPtr_presence _ _ p1, formatPtr_presence _ _ p2,
    formatPtr_presence _ _ p3, formatPtr_presence _ _ p4, formatPtr_presence _ _ p5,
    formatPtr_presence _ _ p6, formatPtr_presence _ _ p7, formatPtr_presence _ _ p8,
    formatPtr_presence _ _ q1, formatPtr_presence _ _ q2, formatPtr_presence _ _ q3,
    formatPtr_presence _ _ q4, fun g1 g2 => formatStrings_inj _ _ g1 g2 ha⟩

/-! ### Evaluations and witnesses for the cache -/

theorem Get_expired (c : aggregatorCache) (now : Int) (key : String) (entry : cacheEntry)
    (hget : mapGet c.store key = some entry) (hexp : now > entry.expiresAt) :
    aggregatorCache.Get c now key =
      ((zeroResponse, false),
        { c with store := mapDelete c.store key, order := c.order.erase key }) := by
  unfold aggregatorCache.Get
  simp only [hget, hexp, if_true]
  rfl

/-- What `Get` on an expired entry does guarantee: it reports the key absent, the key
leaves the store, the store has one entry less, and the first occurrence of the key
leaves the order list, so the key is gone from the order when it occurred there once. -/
theorem Get_expired_effect (c : aggregatorCache) (now : Int) (key : String)
    (entry : cacheEntry) (inv : CacheInv c)
    (hget : mapGet c.store key = some entry) (hexp : now > entry.expiresAt) :
    (aggregatorCache.Get c now key).1 = (zeroResponse, false) ∧
    mapGet (aggregatorCache.Get c now key).2.store key = none ∧
    (aggregatorCache.Get c now key).2.store.length + 1 = c.store.length ∧
    (aggregatorCache.Get c now key).2.order = c.order.erase key ∧
    (c.order.count key = 1 → key ∉ (aggregatorCache.Get c now key).2.order) := by
  rw [Get_expired c now key entry hget hexp]
  refine ⟨rfl, mapGet_mapDelete_same _ _, ?_, rfl, ?_⟩
  · apply length_mapDelete_of_mem _ _ inv.1
    exact List.mem_map.2 ⟨(key, entry), mem_of_mapGet _ _ _ hget, rfl⟩
  · intro hcount
    simp only
    rw [← List.count_eq_zero, List.count_erase_self, hcount]

set_option maxRecDepth 100000 in
/-- Witness of C11: a store and a lookup 300 seconds later in a cache of capacity 2. -/
theorem cache_round_trip_witness :
    (1 : Int) ≤ 2 ∧
    aggregatorCache.run (newAggregatorCache 2 300) fillOps =
      some (filledCache 2 300 (setsOf fillOps)) ∧
    (320 : Int) ≤ 20 + 300 ∧
    ∃ c1, aggregatorCache.Set (filledCache 2 300 (setsOf fillOps)) 20 "c" sampleResponse =
        some c1 ∧
      aggregatorCache.Get c1 320 "c" = ((sampleResponse, true), c1) :=
  ⟨by decide, by decide, by decide,
    cache_round_trip 2 300 fillOps (filledCache 2 300 (setsOf fillOps)) (by decide)
      (by decide) "c" sampleResponse 20 320 (by decide)⟩

set_option maxRecDepth 100000 in
/-- C12 fails on the code: after the key of `sampleRequest` has been stored twice, a
`Get` after the expiry of the entry reports it absent and deletes it from the store,
but the key is still in the order list. -/
theorem get_expired_leaves_key_in_order :
    aggregatorCache.run aggCache restoreOps = some restoredCache ∧
    (1765700300500000001 : Int) > 1765700000500000000 + aggCache.ttl ∧
    (aggregatorCache.Get restoredCache 1765700300500000001 (cacheKey sampleRequest)).1 =
      (zeroResponse, false) ∧
    (aggregatorCache.Get restoredCache 1765700300500000001
      (cacheKey sampleRequest)).2.store = [] ∧
    cacheKey sampleRequest ∈
      (aggregatorCache.Get restoredCache 1765700300500000001
        (cacheKey sampleRequest)).2.order := by
  decide

set_option maxRecDepth 100000 in
/-- C14 fails on the code: in a cache of capacity 2, five stores of which the first
two use the same key leave three entries in the store. -/
theorem store_exceeds_capacity :
    (aggregatorCache.run (newAggregatorCache 2 300000000000) overfillOps).map
        (fun c => (c.maxSize, c.store.map Prod.fst, c.order)) =
      some (2, ["b", "c", "d"], ["b", "c", "d"]) ∧
    (aggregatorCache.run (newAggregatorCache 2 300000000000) (overfillOps.take 4)).map
        (fun c => (c.store.map Prod.fst, c.order)) =
      some (["b", "c"], ["a", "b", "c"]) := by
  decide

set_option maxRecDepth 100000 in
/-- An instance of `cache_fifo_eviction`: a cache of capacity 2 filled with `a` and `b`,
then `c` stored. -/
theorem cache_fifo_eviction_witness :
    (1 : Int) ≤ 2 ∧
    ((setsOf fillOps).map StoreReq.key).Nodup ∧
    aggregatorCache.run (newAggregatorCache 2 300) fillOps =
      some (filledCache 2 300 (setsOf fillOps)) ∧
    ((filledCache 2 300 (setsOf fillOps)).store.length : Int) = 2 ∧
    "c" ∉ (setsOf fillOps).map StoreReq.key ∧
    ∃ first rest c1,
      (filledCache 2 300 (setsOf fillOps)).store = first :: rest ∧
      aggregatorCache.Set (filledCache 2 300 (setsOf fillOps)) 20 "c" sampleResponse =
        some c1 ∧
      c1.store = rest ++ [entryOf 300 { now := 20, key := "c", value := sampleResponse }] ∧
      aggregatorCache.Get c1 30 first.1 = ((zeroResponse, false), c1) ∧
      aggregatorCache.Get c1 30 "c" = ((sampleResponse, true), c1) := by
  refine ⟨by decide, by decide, by decide, by decide, by decide, ?_⟩
  obtain ⟨first, rest, c1, h1, _, _, h4, h5, _, h7, _, h9, _⟩ :=
    cache_fifo_eviction 2 300 fillOps (filledCache 2 300 (setsOf fillOps))
      { now := 20, key := "c", value := sampleResponse }
      (by decide) (by decide) (by decide) (by decide) (by decide)
  exact ⟨first, rest, c1, h1, h4, h5, h7 30, h9 30 (by decide)⟩

/-! ### Evaluations and witnesses for `Search` and the cache key -/

set_option maxRecDepth 100000 in
/-- Witness of C17: the sample call, then a call 100 seconds later on an expired
context. -/
theorem search_second_call_hits_witness :
    (aggregatorCache.Get aggCache sampleEnv.nowGet (cacheKey sampleRequest)).1.2 = false ∧
    Search stdRuntime 4 aggCache sampleEnv sampleRequest =
      some (sampleResponse, none, sampleCacheAfter) ∧
    secondEnv.nowGet ≤ sampleEnv.nowSet + aggCache.ttl ∧
    ∃ resp2, Search stdRuntime 0 sampleCacheAfter secondEnv sampleRequest =
        some (resp2, none, sampleCacheAfter) ∧
      resp2.Metadata.CacheHit = true ∧
      resp2.Metadata.TotalResults = sampleResponse.Metadata.TotalResults ∧
      resp2.Flights = sampleResponse.Flights :=
  ⟨sample_search_miss, sample_search, by decide,
    search_second_call_hits stdRuntime stdRuntime 4 0 aggCache sampleCacheAfter sampleEnv
      secondEnv sampleRequest sampleResponse sample_search_miss sample_search (by decide)⟩

set_option maxRecDepth 100000 in
/-- Witness of C18: the sample request on an expired context. -/
theorem search_expired_deadline_witness :
    (aggregatorCache.Get aggCache expiredEnv.nowGet (cacheKey sampleRequest)).1.2 = false ∧
    expiredEnv.ctxErrBefore = some GoError.deadlineExceeded ∧
    ∃ resp cache1, Search stdRuntime 4 aggCache expiredEnv sampleRequest =
        some (resp, some GoError.deadlineExceeded, cache1) ∧
      resp.Metadata.ProvidersSucceeded = 0 ∧ resp.Metadata.ProvidersFailed = 4 ∧
      resp.Metadata.ProvidersQueried = 4 ∧ resp.Metadata.TotalResults = 0 ∧
      resp.Flights = [] ∧ resp.Metadata.CacheHit = false ∧
      gatewayCalled aggCache expiredEnv sampleRequest = false := by
  refine ⟨rfl, rfl, ?_⟩
  obtain ⟨resp, cache1, h1, h2, h3, h4, h5, h6, h7, h8, _⟩ :=
    search_expired_deadline stdRuntime 4 aggCache expiredEnv sampleRequest
      GoError.deadlineExceeded rfl rfl
  exact ⟨resp, cache1, h1, h2, h3, h4, h5, h6, h7, h8⟩

set_option maxRecDepth 100000 in
theorem expired_search : Search stdRuntime 4 aggCache expiredEnv sampleRequest =
    some (failedResponse sampleRequest 4 0 expiredEnv, some GoError.deadlineExceeded,
      aggCache) := by
  decide

/-- Witness of C19: the sample request on an expired context leaves `aggCache` empty. -/
theorem search_failure_leaves_cache_witness :
    Search stdRuntime 4 aggCache expiredEnv sampleRequest =
      some (failedResponse sampleRequest 4 0 expiredEnv, some GoError.deadlineExceeded,
        aggCache) ∧
    aggCache = (aggregatorCache.Get aggCache expiredEnv.nowGet (cacheKey sampleRequest)).2 ∧
    (failedResponse sampleRequest 4 0 expiredEnv).Flights = [] :=
  ⟨expired_search,
    (search_failure_leaves_cache stdRuntime 4 aggCache aggCache expiredEnv sampleRequest
      _ GoError.deadlineExceeded expired_search).1,
    (search_failure_leaves_cache stdRuntime 4 aggCache aggCache expiredEnv sampleRequest
      _ GoError.deadlineExceeded expired_search).2.2.2.1⟩

/-- An instance of `search_metadata`: the sample call, in which the gateway returned the
count 4. -/
theorem search_metadata_witness :
    (aggregatorCache.Get aggCache sampleEnv.nowGet (cacheKey sampleRequest)).1.2 = false ∧
    Search stdRuntime 4 aggCache sampleEnv sampleRequest =
      some (sampleResponse, none, sampleCacheAfter) ∧
    (4 : Int) = 4 ∧ sampleEnv.fetched.2.1 = 4 ∧
    sampleResponse.Metadata.ProvidersQueried = 4 ∧
    sampleResponse.Metadata.ProvidersSucceeded = 4 ∧
    sampleResponse.Metadata.ProvidersFailed = 0 :=
  ⟨sample_search_miss, sample_search, rfl, rfl,
    (search_metadata stdRuntime 4 aggCache sampleCacheAfter sampleEnv sampleRequest
      sampleResponse sample_search_miss sample_search).2.2.2.2.2.2 rfl rfl⟩

/-- C15 fails on the code: two requests that are field for field identical, with
MinPrice = 500000 held in two variables, get different cache keys, because the key
renders the address of the variable and not the value. -/
theorem cacheKey_depends_on_address :
    sameFields minPriceRequestA minPriceRequestB ∧
    cacheKey minPriceRequestA ≠ cacheKey minPriceRequestB ∧
    cacheKey minPriceRequestA =
      "CGK|DPS|2025-12-15|1|economy|0xc000014010|<nil>|<nil>|<nil>|<nil>|<nil>|<nil>|<nil>|[]|<nil>|<nil>|<nil>|<nil>" ∧
    cacheKey minPriceRequestB =
      "CGK|DPS|2025-12-15|1|economy|0xc000014018|<nil>|<nil>|<nil>|<nil>|<nil>|<nil>|<nil>|[]|<nil>|<nil>|<nil>|<nil>" := by
  refine ⟨?_, by decide, by decide, by decide⟩
  unfold sameFields
  decide

/-- C16 as stated fails on the code: requests that differ in a required string, in
the Airlines list, in the presence of MinPrice, or in the value of MinPrice get the
same cache key. -/
theorem cacheKey_collisions :
    (barRequestA.Origin ≠ barRequestB.Origin ∧ cacheKey barRequestA = cacheKey barRequestB) ∧
    (airlineRequestA.Airlines ≠ airlineRequestB.Airlines ∧
      cacheKey airlineRequestA = cacheKey airlineRequestB) ∧
    (airlineRequestC.Airlines ≠ sampleRequest.Airlines ∧
      cacheKey airlineRequestC = cacheKey sampleRequest) ∧
    (shiftedRequestA.MinPrice = none ∧ shiftedRequestB.MinPrice.isSome = true ∧
      cacheKey shiftedRequestA = cacheKey shiftedRequestB) ∧
    (minPriceRequestA.MinPrice.map Ptr.val ≠ minPriceRequestC.MinPrice.map Ptr.val ∧
      cacheKey minPriceRequestA = cacheKey minPriceRequestC) := by
  decide

/-- Witness of C16 as amended: an equal key for two requests with bar-free strings. -/
theorem cacheKey_separates_witness :
    barFree minPriceRequestA ∧ barFree minPriceRequestC ∧
    cacheKey minPriceRequestA = cacheKey minPriceRequestC ∧
    minPriceRequestA.Origin = minPriceRequestC.Origin ∧
    minPriceRequestA.MinPrice.isSome = minPriceRequestC.MinPrice.isSome ∧
    plainAirlines airlineRequestB.Airlines ∧
    (plainAirlines minPriceRequestA.Airlines → plainAirlines minPriceRequestC.Airlines →
      minPriceRequestA.Airlines = minPriceRequestC.Airlines) :=
  ⟨by decide, by decide, by decide,
    (cacheKey_separates minPriceRequestA minPriceRequestC (by decide) (by decide)
      (by decide)).1,
    (cacheKey_separates minPriceRequestA minPriceRequestC (by decide) (by decide)
      (by decide)).2.2.2.2.2.1,
    by decide,
    (cacheKey_separates minPriceRequestA minPriceRequestC (by decide) (by decide)
      (by decide)).2.2.2.2.2.2.2.2.2.2.2.2.2.2.2.2.2⟩

/-! ### The source gateway -/

theorem goroutine_cases (prov : Provider) :
    ((prov.FetchFlights 0).err = none ∧
      goroutine prov =
        { flights := (prov.FetchFlights 0).flights, err := none, calls := 1, sleptMs := 0 }) ∨
    ((prov.FetchFlights 0).err ≠ none ∧ (prov.FetchFlights 1).err = none ∧
      goroutine prov =
        { flights := (prov.FetchFlights 1).flights, err := none, calls := 2, sleptMs := 100 }) ∨
    ((prov.FetchFlights 0).err ≠ none ∧ (prov.FetchFlights 1).err ≠ none ∧
      (prov.FetchFlights 2).err = none ∧
      goroutine prov =
        { flights := (prov.FetchFlights 2).flights, err := none, calls := 3, sleptMs := 300 }) ∨
    ((prov.FetchFlights 0).err ≠ none ∧ (prov.FetchFlights 1).err ≠ none ∧
      (prov.FetchFlights 2).err ≠ none ∧
      goroutine prov =
        { flights := (prov.FetchFlights 2).flights, err := (prov.FetchFlights 2).err
          calls := 3, sleptMs := 600 }) := by
  unfold goroutine
  by_cases h0 : (prov.FetchFlights 0).err = none
  · left
    exact ⟨h0, by simp [retryLoop, h0]⟩
  · right
    by_cases h1 : (prov.FetchFlights 1).err = none
    · left
      exact ⟨h0, h1, by simp [retryLoop, h0, h1]⟩
    · right
      by_cases h2 : (prov.FetchFlights 2).err = none
      · left
        exact ⟨h0, h1, h2, by simp [retryLoop, h0, h1, h2]⟩
      · right
        exact ⟨h0, h1, h2, by simp [retryLoop, h0, h1, h2]⟩

/-- The retry loop of one goroutine, in full: at least one and at most three calls; it
ends with `err == nil` exactly when one of the invocations 0, 1, 2 succeeds; it then
has made no call after the first success and holds the flights of that call; when all
three fail it has made three calls and slept 600 ms. -/
theorem goroutine_retry (prov : Provider) :
    1 ≤ (goroutine prov).calls ∧ (goroutine prov).calls ≤ 3 ∧
    ((goroutine prov).err = none ↔ ∃ i, i < 3 ∧ (prov.FetchFlights i).err = none) ∧
    (∀ i, i < 3 → (prov.FetchFlights i).err = none →
      (∀ j, j < i → (prov.FetchFlights j).err ≠ none) →
      (goroutine prov).calls = i + 1 ∧
      (goroutine prov).flights = (prov.FetchFlights i).flights) ∧
    ((∀ i, i < 3 → (prov.FetchFlights i).err ≠ none) →
      (goroutine prov).calls = 3 ∧ (goroutine prov).sleptMs = 600 ∧
      (goroutine prov).err = (prov.FetchFlights 2).err) := by
  rcases goroutine_cases prov with ⟨h0, hg⟩ | ⟨h0, h1, hg⟩ | ⟨h0, h1, h2, hg⟩ | ⟨h0, h1, h2, hg⟩
  · rw [hg]
    refine ⟨by simp, by simp, ⟨fun _ => ⟨0, by omega, h0⟩, fun _ => rfl⟩, ?_, ?_⟩
    · intro i hi hok hbefore
      have : i = 0 := by
        by_contra hne
        exact hbefore 0 (by omega) h0
      subst this
      exact ⟨rfl, rfl⟩
    · intro hall
      exact absurd h0 (hall 0 (by omega))
  · rw [hg]
    refine ⟨by simp, by simp, ⟨fun _ => ⟨1, by omega, h1⟩, fun _ => rfl⟩, ?_, ?_⟩
    · intro i hi hok hbefore
      have : i = 1 := by
        by_contra hne
        have hi2 : i = 0 ∨ i = 2 := by omega
        rcases hi2 with rfl | rfl
        · exact h0 hok
        · exact hbefore 1 (by omega) h1
      subst this
      exact ⟨rfl, rfl⟩
    · intro hall
      exact absurd h1 (hall 1 (by omega))
  · rw [hg]
    refine ⟨by simp, by simp, ⟨fun _ => ⟨2, by omega, h2⟩, fun _ => rfl⟩, ?_, ?_⟩
    · intro i hi hok hbefore
      have : i = 2 := by
        by_contra hne
        have hi2 : i = 0 ∨ i = 1 := by omega
        rcases hi2 with rfl | rfl
        · exact h0 hok
        · exact h1 hok
      subst this
      exact ⟨rfl, rfl⟩
    · intro hall
      exact absurd h2 (hall 2 (by omega))
  · rw [hg]
    refine ⟨by simp, by simp, ⟨?_, ?_⟩, ?_, ?_⟩
    · intro h
      exact absurd h h2
    · rintro ⟨i, hi, hok⟩
      have hi2 : i = 0 ∨ i = 1 ∨ i = 2 := by omega
      rcases hi2 with rfl | rfl | rfl
      · exact absurd hok h0
      · exact absurd hok h1
      · exact absurd hok h2
    · intro i hi hok
      have hi2 : i = 0 ∨ i = 1 ∨ i = 2 := by omega
      rcases hi2 with rfl | rfl | rfl
      · exact absurd hok h0
      · exact absurd hok h1
      · exact absurd hok h2
    · intro _
      exact ⟨rfl, rfl, rfl⟩

theorem goroutine_retries_after_failure (prov : Provider)
    (hfail : (prov.FetchFlights 0).err ≠ none) : 2 ≤ (goroutine prov).calls := by
  rcases goroutine_cases prov with ⟨h0, _⟩ | ⟨_, _, hg⟩ | ⟨_, _, _, hg⟩ | ⟨_, _, _, hg⟩
  · exact absurd h0 hfail
  · rw [hg]
  · rw [hg]; simp
  · rw [hg]; simp

theorem fold_resultsChan (outcomes : List Goroutine) (schedule : List GoStep) :
    ∀ st : GatewayState,
      (schedule.foldl (GatewayState.step outcomes) st).resultsChan =
        st.resultsChan ++ schedule.flatMap (sentOn outcomes) := by
  induction schedule with
  | nil => intro st; simp
  | cons s rest ih =>
    intro st
    rw [List.foldl_cons, ih]
    cases s <;> simp [GatewayState.step, sentOn]

theorem flatMap_programOf_sentOn (outcomes : List Goroutine) (gs : List Nat) :
    (gs.flatMap programOf).flatMap (sentOn outcomes) = gs.map (flightsOf outcomes) := by
  induction gs with
  | nil => rfl
  | cons g rest ih =>
    simp only [List.flatMap_cons, List.flatMap_append, List.map_cons, ih]
    simp [programOf, sentOn]

theorem countP_isStore_programs (gs : List Nat) :
    (gs.flatMap programOf).countP isStore = gs.length := by
  induction gs with
  | nil => rfl
  | cons g rest ih =>
    simp only [List.flatMap_cons, List.countP_append, List.length_cons, ih]
    simp [programOf, isStore, List.countP_cons]
    omega

theorem fold_counter_bounds (outcomes : List Goroutine) (schedule : List GoStep) :
    ∀ (st : GatewayState) (k : Nat),
      0 ≤ st.successCount → st.successCount ≤ k → (0 < k → 1 ≤ st.successCount) →
      (∀ g, 0 ≤ st.loaded g ∧ st.loaded g ≤ k) →
      0 ≤ (schedule.foldl (GatewayState.step outcomes) st).successCount ∧
      (schedule.foldl (GatewayState.step outcomes) st).successCount ≤
        ((k + schedule.countP isStore : Nat) : Int) ∧
      (0 < k + schedule.countP isStore →
        1 ≤ (schedule.foldl (GatewayState.step outcomes) st).successCount) := by
  induction schedule with
  | nil =>
    intro st k h0 hk h1 _
    simpa using ⟨h0, hk, h1⟩
  | cons s rest ih =>
    intro st k h0 hk h1 hl
    rw [List.foldl_cons]
    cases s with
    | send g =>
      have := ih (GatewayState.step outcomes st (GoStep.send g)) k h0 hk h1 hl
      simpa [List.countP_cons, isStore] using this
    | load g =>
      have := ih (GatewayState.step outcomes st (GoStep.load g)) k h0 hk h1 (by
        intro h
        simp only [GatewayState.step]
        split
        · exact ⟨h0, hk⟩
        · exact hl h)
      simpa [List.countP_cons, isStore] using this
    | store g =>
      have hg := hl g
      have := ih (GatewayState.step outcomes st (GoStep.store g)) (k + 1)
        (by simp only [GatewayState.step]; omega)
        (by simp only [GatewayState.step]; push_cast; omega)
        (by intro _; simp only [GatewayState.step]; omega)
        (by
          intro h
          have := hl h
          simp only [GatewayState.step]
          push_cast
          omega)
      have hc : k + 1 + List.countP isStore rest =
          k + List.countP isStore (GoStep.store g :: rest) := by
        simp [List.countP_cons, isStore]
        omega
      rw [hc] at this
      exact this

theorem fold_counter_sequential (outcomes : List Goroutine) (gs : List Nat) :
    ∀ st : GatewayState,
      ((gs.flatMap programOf).foldl (GatewayState.step outcomes) st).successCount =
        st.successCount + gs.length := by
  induction gs with
  | nil => intro st; simp
  | cons g rest ih =>
    intro st
    rw [List.flatMap_cons, List.foldl_append, ih]
    simp [programOf, GatewayState.step]
    omega

theorem validSchedule_sequential (outcomes : List Goroutine) :
    validSchedule outcomes (sequentialSchedule outcomes) := by
  refine ⟨List.Perm.refl _, ?_⟩
  intro g hg
  unfold sequentialSchedule
  rw [List.flatMap_def]
  exact List.sublist_flatten_of_mem (List.mem_map.2 ⟨g, hg, rfl⟩)

/-- What `fetchFromProviders` does guarantee, under every schedule of the goroutines:
the error is nil; the flights are, up to the order of the sources, the concatenation
of the flights held by the goroutines that succeeded; the returned count is at most
the number of goroutines that succeeded and at least 1 when there is one. Under the
schedule in which the goroutines finish one after the other the count is that
number. -/
theorem fetchFromProviders_absorbs (providers : List Provider) (schedule : List GoStep)
    (hvalid : validSchedule (providers.map goroutine) schedule) :
    (fetchFromProviders schedule providers).2.2 = none ∧
    (fetchFromProviders schedule providers).1.Perm
      (((succeeded (providers.map goroutine)).map
        (flightsOf (providers.map goroutine))).flatten) ∧
    0 ≤ (fetchFromProviders schedule providers).2.1 ∧
    (fetchFromProviders schedule providers).2.1 ≤
      ((succeeded (providers.map goroutine)).length : Int) ∧
    (0 < (succeeded (providers.map goroutine)).length →
      1 ≤ (fetchFromProviders schedule providers).2.1) ∧
    (fetchFromProviders (sequentialSchedule (providers.map goroutine)) providers).2.1 =
      ((succeeded (providers.map goroutine)).length : Int) := by
  have hcount : schedule.countP isStore = (succeeded (providers.map goroutine)).length := by
    rw [hvalid.1.countP_eq, countP_isStore_programs]
  have hb := fold_counter_bounds (providers.map goroutine) schedule
    { resultsChan := [], successCount := 0, loaded := fun _ => 0 } 0
    (le_refl _) (by simp) (by intro h; omega) (by intro g; simp)
  rw [Nat.zero_add, hcount] at hb
  refine ⟨rfl, ?_, hb.1, hb.2.1, hb.2.2, ?_⟩
  · unfold fetchFromProviders
    simp only [fold_resultsChan, List.nil_append]
    apply List.Perm.flatten
    rw [← flatMap_programOf_sentOn]
    exact hvalid.1.flatMap_right _
  · unfold fetchFromProviders sequentialSchedule
    simp only [fold_counter_sequential]
    simp

set_option maxRecDepth 100000 in
/-- Three sources, one answering at once, one down, one answering at its third
invocation, their goroutines finishing one after the other: the gateway returns the
flights of the first and the third, the count 2 and a nil error; the goroutines have
made 1, 3 and 3 calls. -/
theorem sample_fetch :
    fetchFromProviders
        (sequentialSchedule ([answering [offerA], unavailable, recovering [offerC]].map goroutine))
        [answering [offerA], unavailable, recovering [offerC]] =
      ([offerA, offerC], 2, none) ∧
    ([answering [offerA], unavailable, recovering [offerC]].map goroutine).map Goroutine.calls =
      [1, 3, 3] := by
  decide

set_option maxRecDepth 100000 in
/-- C21, at the failing input: two sources that both answer their first invocation,
whose goroutines execute `successCount++` at the same time (`racingSchedule`: both
load the counter, then both store). The schedule is an interleaving of the two
goroutines in program order, both sources have succeeded, and `fetchFromProviders`
returns the offers of both with the success count 1. -/
theorem fetchFromProviders_loses_update :
    validSchedule ([answering [offerA], answering [offerC]].map goroutine) racingSchedule ∧
    succeeded ([answering [offerA], answering [offerC]].map goroutine) = [0, 1] ∧
    fetchFromProviders racingSchedule [answering [offerA], answering [offerC]] =
      ([offerA, offerC], 1, none) := by
  refine ⟨?_, by decide, by decide⟩
  unfold validSchedule
  decide

/-- C22, at the failing input: a source that observes the expired deadline at every
invocation (`cancelled`). Its first invocation fails with the deadline error, and the
goroutine invokes it three times, sleeping 600 ms in all; the gateway then returns no
offer, the count 0 and a nil error. -/
theorem fetchFromProviders_retries_when_cancelled :
    (cancelled.FetchFlights 0).err = some GoError.deadlineExceeded ∧
    goroutine cancelled =
      { flights := [], err := some GoError.deadlineExceeded, calls := 3, sleptMs := 600 } ∧
    fetchFromProviders (sequentialSchedule ([cancelled].map goroutine)) [cancelled] =
      ([], 0, none) := by
  decide

/-! ### Strict weak orders -/

theorem sw_asymm {α : Type} {less : α → α → Bool} (h : StrictWeak less) {x y : α}
    (hxy : less x y = true) : less y x = false := by
  by_contra hc
  have hyx : less y x = true := by simpa using hc
  have := h.2.1 x y x hxy hyx
  rw [h.1 x] at this
  cases this

theorem sw_le_trans {α : Type} {less : α → α → Bool} (h : StrictWeak less) {x y z : α}
    (hxy : less y x = false) (hyz : less z y = false) : less z x = false :=
  h.2.2 z y x hyz hxy

theorem sw_total {α : Type} {less : α → α → Bool} (h : StrictWeak less) (x y : α) :
    less x y = false ∨ less y x = false := by
  cases hxy : less x y with
  | false => exact Or.inl rfl
  | true => exact Or.inr (sw_asymm h hxy)

theorem sw_lt_of_lt_of_le {α : Type} {less : α → α → Bool} (h : StrictWeak less) {x y z : α}
    (hxy : less x y = true) (hyz : less z y = false) : less x z = true := by
  by_contra hc
  have hxz : less x z = false := by simpa using hc
  have := h.2.2 x z y hxz hyz
  rw [hxy] at this
  cases this

theorem sw_lt_of_le_of_lt {α : Type} {less : α → α → Bool} (h : StrictWeak less) {x y z : α}
    (hxy : less y x = false) (hyz : less y z = true) : less x z = true := by
  by_contra hc
  have hxz : less x z = false := by simpa using hc
  have := h.2.2 y x z hxy hxz
  rw [hyz] at this
  cases this

/-! ### Exchanges -/

theorem swap_elem {α : Type} (d : Slice α) (i j k : Nat) :
    (swap d i j).elem k = d.elem (Equiv.swap i j k) := by
  unfold swap
  simp only [Equiv.swap_apply_def]
  split_ifs <;> rfl

theorem swap_elem_left {α : Type} (d : Slice α) (i j : Nat) :
    (swap d i j).elem i = d.elem j := by
  simp [swap]

theorem swap_elem_right {α : Type} (d : Slice α) (i j : Nat) :
    (swap d i j).elem j = d.elem i := by
  unfold swap
  by_cases h : j = i
  · simp [h]
  · simp [h]

theorem swap_elem_other {α : Type} (d : Slice α) (i j k : Nat) (hi : k ≠ i) (hj : k ≠ j) :
    (swap d i j).elem k = d.elem k := by
  simp [swap, hi, hj]

theorem Reorders.refl {α : Type} (d : Slice α) (a b : Nat) : Reorders d d a b :=
  ⟨1, fun _ _ => rfl, fun _ => rfl⟩

theorem Reorders.trans {α : Type} {d1 d2 d3 : Slice α} {a b : Nat}
    (h12 : Reorders d1 d2 a b) (h23 : Reorders d2 d3 a b) : Reorders d1 d3 a b := by
  obtain ⟨σ1, hfix1, hel1⟩ := h12
  obtain ⟨σ2, hfix2, hel2⟩ := h23
  refine ⟨σ1 * σ2, ?_, ?_⟩
  · intro k hk
    rw [Equiv.Perm.mul_apply, hfix2 k hk, hfix1 k hk]
  · intro k
    rw [Equiv.Perm.mul_apply, hel2, hel1]

theorem Reorders.mono {α : Type} {d1 d2 : Slice α} {a b a2 b2 : Nat}
    (h : Reorders d1 d2 a b) (ha : a2 ≤ a) (hb : b ≤ b2) : Reorders d1 d2 a2 b2 := by
  obtain ⟨σ, hfix, hel⟩ := h
  exact ⟨σ, fun k hk => hfix k (by omega), hel⟩

theorem Reorders.of_swap {α : Type} (d : Slice α) {a b i j : Nat}
    (hi : a ≤ i) (hi2 : i < b) (hj : a ≤ j) (hj2 : j < b) : Reorders d (swap d i j) a b := by
  refine ⟨Equiv.swap i j, ?_, fun k => swap_elem d i j k⟩
  intro k hk
  exact Equiv.swap_apply_of_ne_of_ne (by omega) (by omega)

theorem Reorders.outside {α : Type} {d1 d2 : Slice α} {a b : Nat} (h : Reorders d1 d2 a b)
    (k : Nat) (hk : k < a ∨ b ≤ k) : d2.elem k = d1.elem k := by
  obtain ⟨σ, hfix, hel⟩ := h
  rw [hel, hfix k hk]

theorem perm_maps_in (σ : Equiv.Perm Nat) (a b : Nat) (hfix : ∀ k, k < a ∨ b ≤ k → σ k = k)
    (k : Nat) (hk : a ≤ k ∧ k < b) : a ≤ σ k ∧ σ k < b := by
  by_contra hc
  have hout : σ k < a ∨ b ≤ σ k := by omega
  have h1 := hfix (σ k) hout
  have h2 : σ k = k := σ.injective h1
  omega

theorem Reorders.mem {α : Type} {d1 d2 : Slice α} {a b : Nat} (h : Reorders d1 d2 a b)
    (k : Nat) (hk : a ≤ k) (hk2 : k < b) :
    ∃ k2, a ≤ k2 ∧ k2 < b ∧ d2.elem k = d1.elem k2 := by
  obtain ⟨σ, hfix, hel⟩ := h
  have := perm_maps_in σ a b hfix k ⟨hk, hk2⟩
  exact ⟨σ k, this.1, this.2, hel k⟩

theorem Reorders.mem_inv {α : Type} {d1 d2 : Slice α} {a b : Nat} (h : Reorders d1 d2 a b)
    (k : Nat) (hk : a ≤ k) (hk2 : k < b) :
    ∃ k2, a ≤ k2 ∧ k2 < b ∧ d2.elem k2 = d1.elem k := by
  obtain ⟨σ, hfix, hel⟩ := h
  have hfix2 : ∀ k, k < a ∨ b ≤ k → σ⁻¹ k = k := by
    intro k hk
    have := hfix k hk
    rw [Equiv.Perm.inv_eq_iff_eq]
    exact this.symm
  have := perm_maps_in σ⁻¹ a b hfix2 k ⟨hk, hk2⟩
  refine ⟨σ⁻¹ k, this.1, this.2, ?_⟩
  rw [hel]
  simp

theorem Reorders.forall {α : Type} {d1 d2 : Slice α} {a b : Nat} (h : Reorders d1 d2 a b)
    (P : α → Prop) (hP : ∀ k, a ≤ k → k < b → P (d1.elem k)) :
    ∀ k, a ≤ k → k < b → P (d2.elem k) := by
  intro k hk hk2
  obtain ⟨k2, h1, h2, h3⟩ := h.mem k hk hk2
  rw [h3]
  exact hP k2 h1 h2

theorem Reorders.perm {α : Type} {d1 d2 : Slice α} {n : Nat} (h : Reorders d1 d2 0 n) :
    ((List.range n).map d2.elem).Perm ((List.range n).map d1.elem) := by
  obtain ⟨σ, hfix, hel⟩ := h
  have h1 : (List.range n).map d2.elem = ((List.range n).map σ).map d1.elem := by
    rw [List.map_map]
    apply List.map_congr_left
    intro k _
    exact hel k
  rw [h1]
  apply List.Perm.map
  rw [List.perm_ext_iff_of_nodup ((List.nodup_range n).map σ.injective) (List.nodup_range n)]
  intro k
  simp only [List.mem_map, List.mem_range]
  constructor
  · rintro ⟨k2, hk2, rfl⟩
    exact (perm_maps_in σ 0 n hfix k2 ⟨Nat.zero_le _, hk2⟩).2
  · intro hk
    have hfix2 : ∀ k, k < 0 ∨ n ≤ k → σ⁻¹ k = k := by
      intro k hk
      have := hfix k hk
      rw [Equiv.Perm.inv_eq_iff_eq]
      exact this.symm
    exact ⟨σ⁻¹ k, (perm_maps_in σ⁻¹ 0 n hfix2 k ⟨Nat.zero_le _, hk⟩).2, by simp⟩

/-! ### Sorted ranges -/

theorem SortedOn.shrink {α : Type} {less : α → α → Bool} {d : Slice α} {a b a2 b2 : Nat}
    (h : SortedOn less d a b) (ha : a ≤ a2) (hb : b2 ≤ b) : SortedOn less d a2 b2 :=
  fun i j hi hij hj => h i j (by omega) hij (by omega)

theorem SortedOn.of_adjacent {α : Type} {less : α → α → Bool} (hsw : StrictWeak less)
    {d : Slice α} {a b : Nat}
    (h : ∀ i, a ≤ i → i + 1 < b → less (d.elem (i + 1)) (d.elem i) = false) :
    SortedOn less d a b := by
  intro i j hi hij hj
  induction j with
  | zero => omega
  | succ j ih =>
    by_cases hij2 : i = j
    · subst hij2
      exact h i hi hj
    · have h1 := ih (by omega) (by omega)
      have h2 := h j (by omega) hj
      exact sw_le_trans hsw h1 h2

theorem SortedOn.congr {α : Type} {less : α → α → Bool} {d1 d2 : Slice α} {a b : Nat}
    (h : SortedOn less d1 a b) (heq : ∀ k, a ≤ k → k < b → d2.elem k = d1.elem k) :
    SortedOn less d2 a b := by
  intro i j hi hij hj
  rw [heq i hi (by omega), heq j (by omega) hj]
  exact h i j hi hij hj

theorem SortedOn.pairwise {α : Type} {less : α → α → Bool} {d : Slice α} {n : Nat}
    (h : SortedOn less d 0 n) :
    ((List.range n).map d.elem).Pairwise (fun x y => less y x = false) := by
  rw [List.pairwise_map]
  refine (List.pairwise_lt_range n).imp_of_mem ?_
  intro i j _ hj hij
  exact h i j (Nat.zero_le _) hij (List.mem_range.1 hj)

/-! ### Insertion sort -/

theorem insertionInner_spec {α : Type} {less : α → α → Bool} (hsw : StrictWeak less)
    (a i : Nat) : ∀ (j : Nat) (d : Slice α), a ≤ j → j ≤ i →
      SortedOn less d a j → SortedOn less d j (i + 1) →
      (∀ p q, a ≤ p → p < j → j < q → q ≤ i → less (d.elem q) (d.elem p) = false) →
      Reorders d (insertionInner less a j d) a (i + 1) ∧
        SortedOn less (insertionInner less a j d) a (i + 1) := by
  intro j
  induction j with
  | zero =>
    intro d ha _ _ hblock _
    have : a = 0 := by omega
    subst this
    exact ⟨Reorders.refl _ _ _, hblock⟩
  | succ j ih =>
    intro d ha hji hpre hblock hcross
    unfold insertionInner
    by_cases hc : j + 1 > a ∧ less (d.elem (j + 1)) (d.elem j) = true
    · simp only [hc, and_self, if_true]
      obtain ⟨hja, hlt⟩ := hc
      have hsw1 : ∀ k, k ≠ j + 1 → k ≠ j → (swap d (j + 1) j).elem k = d.elem k :=
        fun k h1 h2 => swap_elem_other d (j + 1) j k h1 h2
      have hl : (swap d (j + 1) j).elem (j + 1) = d.elem j := swap_elem_left d (j + 1) j
      have hr : (swap d (j + 1) j).elem j = d.elem (j + 1) := swap_elem_right d (j + 1) j
      have h := ih (swap d (j + 1) j) (by omega) (by omega) ?_ ?_ ?_
      · exact ⟨(Reorders.of_swap d (by omega) (by omega) (by omega) (by omega)).trans h.1, h.2⟩
      · intro p q hp hpq hq
        rw [hsw1 p (by omega) (by omega), hsw1 q (by omega) (by omega)]
        exact hpre p q hp hpq (by omega)
      · intro p q hp hpq hq
        by_cases hpj : p = j
        · subst hpj
          rw [hr]
          by_cases hqj : q = p + 1
          · subst hqj
            rw [hl]
            exact sw_asymm hsw hlt
          · rw [hsw1 q (by omega) (by omega)]
            exact hblock (p + 1) q (by omega) (by omega) hq
        · by_cases hpj1 : p = j + 1
          · subst hpj1
            rw [hl, hsw1 q (by omega) (by omega)]
            exact hcross j q (by omega) (by omega) (by omega) (by omega)
          · rw [hsw1 p (by omega) (by omega), hsw1 q (by omega) (by omega)]
            exact hblock p q (by omega) hpq hq
      · intro p q hp hpj hjq hqi
        rw [hsw1 p (by omega) (by omega)]
        by_cases hqj : q = j + 1
        · subst hqj
          rw [hl]
          exact hpre p j hp hpj (by omega)
        · rw [hsw1 q (by omega) (by omega)]
          exact hcross p q hp (by omega) (by omega) hqi
    · simp only [hc, if_false]
      refine ⟨Reorders.refl _ _ _, ?_⟩
      by_cases hja : j + 1 > a
      · have hle : less (d.elem (j + 1)) (d.elem j) = false := by
          cases hl : less (d.elem (j + 1)) (d.elem j) with
          | false => rfl
          | true => exact absurd ⟨hja, hl⟩ hc
        intro p q hp hpq hq
        by_cases hq1 : q < j + 1
        · exact hpre p q hp hpq hq1
        · by_cases hp1 : j + 1 ≤ p
          · exact hblock p q hp1 hpq hq
          · by_cases hq2 : q = j + 1
            · subst hq2
              by_cases hp2 : p = j
              · subst hp2
                exact hle
              · exact sw_le_trans hsw (hpre p j hp (by omega) (by omega)) hle
            · exact hcross p q hp (by omega) (by omega) (by omega)
      · have : a = j + 1 := by omega
        subst this
        exact hblock

theorem insertionOuter_spec {α : Type} {less : α → α → Bool} (hsw : StrictWeak less)
    (a : Nat) : ∀ (n i : Nat) (d : Slice α), a < i → SortedOn less d a i →
      Reorders d (insertionOuter less a n i d) a (i + n) ∧
        SortedOn less (insertionOuter less a n i d) a (i + n) := by
  intro n
  induction n with
  | zero =>
    intro i d _ hs
    exact ⟨Reorders.refl _ _ _, hs⟩
  | succ n ih =>
    intro i d hai hs
    unfold insertionOuter
    have h1 := insertionInner_spec hsw a i i d (by omega) (le_refl _) hs
      (fun p q hp hpq hq => by omega) (fun p q _ _ h3 h4 => by omega)
    have h2 := ih (i + 1) (insertionInner less a i d) (by omega) h1.2
    have e : i + 1 + n = i + (n + 1) := by omega
    rw [e] at h2
    exact ⟨(h1.1.mono (le_refl _) (by omega)).trans h2.1, h2.2⟩

theorem insertionSort_func_spec {α : Type} {less : α → α → Bool} (hsw : StrictWeak less)
    (d : Slice α) (a b : Nat) :
    Reorders d (insertionSort_func less d a b) a b ∧
      SortedOn less (insertionSort_func less d a b) a b := by
  unfold insertionSort_func
  by_cases hab : a + 1 ≤ b
  · have h := insertionOuter_spec hsw a (b - (a + 1)) (a + 1) d (by omega)
      (fun p q hp hpq hq => by omega)
    have e : a + 1 + (b - (a + 1)) = b := by omega
    rw [e] at h
    exact h
  · have e : b - (a + 1) = 0 := by omega
    rw [e]
    exact ⟨Reorders.refl _ _ _, fun p q hp hpq hq => by omega⟩

/-! ### Every step of the sort exchanges elements inside its range -/

theorem insertionInner_reorders {α : Type} (less : α → α → Bool) (a i : Nat) :
    ∀ (j : Nat) (d : Slice α), j ≤ i → Reorders d (insertionInner less a j d) a (i + 1) := by
  intro j
  induction j with
  | zero => intro d _; exact Reorders.refl _ _ _
  | succ j ih =>
    intro d hji
    unfold insertionInner
    by_cases hc : j + 1 > a ∧ less (d.elem (j + 1)) (d.elem j) = true
    · simp only [hc, and_self, if_true]
      exact (Reorders.of_swap d (by omega) (by omega) (by omega) (by omega)).trans
        (ih _ (by omega))
    · simp only [hc, if_false]
      exact Reorders.refl _ _ _

theorem insertionOuter_reorders {α : Type} (less : α → α → Bool) (a : Nat) :
    ∀ (n i : Nat) (d : Slice α), Reorders d (insertionOuter less a n i d) a (i + n) := by
  intro n
  induction n with
  | zero => intro i d; exact Reorders.refl _ _ _
  | succ n ih =>
    intro i d
    unfold insertionOuter
    have h1 := insertionInner_reorders less a i i d (le_refl _)
    have h2 := ih (i + 1) (insertionInner less a i d)
    have e : i + 1 + n = i + (n + 1) := by omega
    rw [e] at h2
    exact (h1.mono (le_refl _) (by omega)).trans h2

theorem insertionSort_func_reorders {α : Type} (less : α → α → Bool) (d : Slice α)
    (a b : Nat) : Reorders d (insertionSort_func less d a b) a b := by
  unfold insertionSort_func
  by_cases hab : a + 1 ≤ b
  · have h := insertionOuter_reorders less a (b - (a + 1)) (a + 1) d
    have e : a + 1 + (b - (a + 1)) = b := by omega
    rw [e] at h
    exact h
  · have e : b - (a + 1) = 0 := by omega
    rw [e]
    exact Reorders.refl _ _ _

theorem siftDown_reorders {α : Type} (less : α → α → Bool) (hi first : Nat) :
    ∀ (fuel root : Nat) (d : Slice α),
      Reorders d (siftDown_func less hi first fuel root d) first (first + hi) := by
  intro fuel
  induction fuel with
  | zero => intro root d; exact Reorders.refl _ _ _
  | succ fuel ih =>
    intro root d
    unfold siftDown_func
    by_cases h1 : 2 * root + 1 ≥ hi
    · simp only [h1, if_true]
      exact Reorders.refl _ _ _
    · simp only [h1, if_false]
      split_ifs with h2 h3 h3
      · exact (Reorders.of_swap d (by omega) (by omega) (by omega) (by omega)).trans (ih _ _)
      · exact Reorders.refl _ _ _
      · exact (Reorders.of_swap d (by omega) (by omega) (by omega) (by omega)).trans (ih _ _)
      · exact Reorders.refl _ _ _

theorem heapBuild_reorders {α : Type} (less : α → α → Bool) (hi first : Nat) :
    ∀ (i : Nat) (d : Slice α), Reorders d (heapBuild less hi first i d) first (first + hi) := by
  intro i
  induction i with
  | zero => intro d; exact siftDown_reorders less hi first hi 0 d
  | succ i ih =>
    intro d
    unfold heapBuild
    exact (siftDown_reorders less hi first hi (i + 1) d).trans (ih _)

theorem heapPop_reorders {α : Type} (less : α → α → Bool) (first : Nat) :
    ∀ (i : Nat) (d : Slice α), Reorders d (heapPop less first i d) first (first + (i + 1)) := by
  intro i
  induction i with
  | zero =>
    intro d
    exact Reorders.of_swap d (le_refl _) (by omega) (le_refl _) (by omega)
  | succ i ih =>
    intro d
    unfold heapPop
    have h1 : Reorders d (swap d first (first + (i + 1))) first (first + (i + 1 + 1)) :=
      Reorders.of_swap d (le_refl _) (by omega) (by omega) (by omega)
    have h2 := siftDown_reorders less (i + 1) first (i + 1) 0 (swap d first (first + (i + 1)))
    exact (h1.trans (h2.mono (le_refl _) (by omega))).trans ((ih _).mono (le_refl _) (by omega))

theorem heapSort_func_reorders {α : Type} (less : α → α → Bool) (d : Slice α) (a b : Nat) :
    Reorders d (heapSort_func less d a b) a b := by
  unfold heapSort_func
  by_cases h : b - a = 0
  · simp only [h, if_true]
    exact Reorders.refl _ _ _
  · simp only [h, if_false]
    have h1 := heapBuild_reorders less (b - a) a ((b - a - 1) / 2) d
    have h2 := heapPop_reorders less a (b - a - 1) (heapBuild less (b - a) a ((b - a - 1) / 2) d)
    have e1 : a + (b - a) = b := by omega
    have e2 : a + (b - a - 1 + 1) = b := by omega
    rw [e1] at h1
    rw [e2] at h2
    exact h1.trans h2

theorem partitionUp_bounds {α : Type} (less : α → α → Bool) (d : Slice α) (a j : Nat) :
    ∀ (fuel i : Nat), i ≤ partitionUp less d a j fuel i ∧
      (i ≤ j + 1 → partitionUp less d a j fuel i ≤ j + 1) := by
  intro fuel
  induction fuel with
  | zero => intro i; exact ⟨le_refl _, fun h => h⟩
  | succ fuel ih =>
    intro i
    unfold partitionUp
    split_ifs with h
    · have := ih (i + 1)
      exact ⟨by omega, fun _ => this.2 (by omega)⟩
    · exact ⟨le_refl _, fun h => h⟩

theorem partitionDown_bounds {α : Type} (less : α → α → Bool) (d : Slice α) (a i : Nat) :
    ∀ j : Nat, partitionDown less d a i j ≤ j ∧
      (i ≤ j + 1 → i ≤ partitionDown less d a i j + 1) := by
  intro j
  induction j with
  | zero => exact ⟨le_refl _, fun h => h⟩
  | succ j ih =>
    unfold partitionDown
    split_ifs with h
    · exact ⟨by omega, fun _ => ih.2 (by omega)⟩
    · exact ⟨le_refl _, fun h => h⟩

theorem partitionUp_stop {α : Type} (less : α → α → Bool) (d : Slice α) (a j : Nat) :
    ∀ (fuel i : Nat), j + 1 - i ≤ fuel →
      (partitionUp less d a j fuel i ≤ j →
        less (d.elem (partitionUp less d a j fuel i)) (d.elem a) = false) ∧
      ∀ k, i ≤ k → k < partitionUp less d a j fuel i → less (d.elem k) (d.elem a) = true := by
  intro fuel
  induction fuel with
  | zero =>
    intro i hf
    simp only [partitionUp]
    exact ⟨fun h => by omega, fun k h1 h2 => by omega⟩
  | succ fuel ih =>
    intro i hf
    unfold partitionUp
    by_cases h : i ≤ j ∧ less (d.elem i) (d.elem a) = true
    · simp only [h, and_self, if_true]
      have := ih (i + 1) (by omega)
      refine ⟨this.1, ?_⟩
      intro k hk hk2
      by_cases hki : k = i
      · rw [hki]; exact h.2
      · exact this.2 k (by omega) hk2
    · simp only [h, if_false]
      refine ⟨fun hij => ?_, fun k h1 h2 => by omega⟩
      cases hl : less (d.elem i) (d.elem a) with
      | false => rfl
      | true => exact absurd ⟨hij, hl⟩ h

theorem partitionDown_stop {α : Type} (less : α → α → Bool) (d : Slice α) (a i : Nat)
    (hi : 1 ≤ i) :
    ∀ j : Nat,
      (i ≤ partitionDown less d a i j →
        less (d.elem (partitionDown less d a i j)) (d.elem a) = true) ∧
      ∀ k, partitionDown less d a i j < k → k ≤ j → less (d.elem k) (d.elem a) = false := by
  intro j
  induction j with
  | zero =>
    simp only [partitionDown]
    exact ⟨fun h => by omega, fun k h1 h2 => by omega⟩
  | succ j ih =>
    unfold partitionDown
    by_cases h : i ≤ j + 1 ∧ less (d.elem (j + 1)) (d.elem a) = false
    · simp only [h, and_self, if_true]
      refine ⟨ih.1, ?_⟩
      intro k hk hk2
      by_cases hkj : k = j + 1
      · rw [hkj]; exact h.2
      · exact ih.2 k hk (by omega)
    · simp only [h, if_false]
      refine ⟨fun hij => ?_, fun k h1 h2 => by omega⟩
      cases hl : less (d.elem (j + 1)) (d.elem a) with
      | true => rfl
      | false => exact absurd ⟨hij, hl⟩ h

theorem partition_scan_lt {α : Type} (less : α → α → Bool) (d : Slice α) (a i j : Nat)
    (hi : 1 ≤ i)
    (h : ¬ partitionUp less d a j (j + 1 - i) i >
      partitionDown less d a (partitionUp less d a j (j + 1 - i) i) j) :
    partitionUp less d a j (j + 1 - i) i <
      partitionDown less d a (partitionUp less d a j (j + 1 - i) i) j := by
  have hu := partitionUp_bounds less d a j (j + 1 - i) i
  have hd := partitionDown_bounds less d a (partitionUp less d a j (j + 1 - i) i) j
  have hus := partitionUp_stop less d a j (j + 1 - i) i (le_refl _)
  have hds := partitionDown_stop less d a (partitionUp less d a j (j + 1 - i) i) (by omega) j
  by_contra hc
  have heq : partitionUp less d a j (j + 1 - i) i =
      partitionDown less d a (partitionUp less d a j (j + 1 - i) i) j := by omega
  have h1 := hus.1 (by omega)
  have h2 := hds.1 (by omega)
  rw [← heq, h1] at h2
  cases h2

theorem partitionLoop_reorders {α : Type} (less : α → α → Bool) (a b : Nat) :
    ∀ (fuel : Nat) (d : Slice α) (i j : Nat), a < i → j < b → i ≤ j + 1 →
      Reorders d (partitionLoop less a fuel d i j).1 a b ∧
        a ≤ (partitionLoop less a fuel d i j).2 ∧ (partitionLoop less a fuel d i j).2 < b := by
  intro fuel
  induction fuel with
  | zero => intro d i j hai hjb hij; exact ⟨Reorders.refl _ _ _, by simp [partitionLoop]; omega, hjb⟩
  | succ fuel ih =>
    intro d i j hai hjb hij
    unfold partitionLoop
    simp only
    have hu := partitionUp_bounds less d a j (j + 1 - i) i
    have hd := partitionDown_bounds less d a (partitionUp less d a j (j + 1 - i) i) j
    split_ifs with h
    · exact ⟨Reorders.refl _ _ _, by simp only; have := hd.2 (hu.2 hij); omega, by simp only; omega⟩
    · have hlt := partition_scan_lt less d a i j (by omega) h
      have h3 := ih (swap d (partitionUp less d a j (j + 1 - i) i)
        (partitionDown less d a (partitionUp less d a j (j + 1 - i) i) j))
        (partitionUp less d a j (j + 1 - i) i + 1)
        (partitionDown less d a (partitionUp less d a j (j + 1 - i) i) j - 1)
        (by omega) (by omega) (by omega)
      exact ⟨(Reorders.of_swap d (by omega) (by omega) (by omega) (by omega)).trans h3.1, h3.2⟩

theorem partition_func_reorders {α : Type} (less : α → α → Bool) (d : Slice α)
    (a b pivot : Nat) (hp : a ≤ pivot) (hp2 : pivot < b) :
    Reorders d (partition_func less d a b pivot).1 a b ∧
      a ≤ (partition_func less d a b pivot).2.1 ∧ (partition_func less d a b pivot).2.1 < b := by
  unfold partition_func
  simp only
  have h0 : Reorders d (swap d a pivot) a b :=
    Reorders.of_swap d (le_refl _) (by omega) hp hp2
  have hu := partitionUp_bounds less (swap d a pivot) a (b - 1) (b - 1 - a) (a + 1)
  have hd := partitionDown_bounds less (swap d a pivot) a
    (partitionUp less (swap d a pivot) a (b - 1) (b - 1 - a) (a + 1)) (b - 1)
  have hu2 := hu.2 (by omega)
  have hd2 := hd.2 hu2
  split_ifs with h
  · refine ⟨h0.trans (Reorders.of_swap _ (by omega) (by omega) (le_refl _) (by omega)),
      by simp only; omega, by simp only; omega⟩
  · have e : b - 1 - a = b - 1 + 1 - (a + 1) := by omega
    rw [e] at h hu hd hu2 hd2 ⊢
    have hlt := partition_scan_lt less (swap d a pivot) a (a + 1) (b - 1) (by omega) h
    have h3 := partitionLoop_reorders less a b (b - a)
      (swap (swap d a pivot)
        (partitionUp less (swap d a pivot) a (b - 1) (b - 1 + 1 - (a + 1)) (a + 1))
        (partitionDown less (swap d a pivot) a
          (partitionUp less (swap d a pivot) a (b - 1) (b - 1 + 1 - (a + 1)) (a + 1)) (b - 1)))
      (partitionUp less (swap d a pivot) a (b - 1) (b - 1 + 1 - (a + 1)) (a + 1) + 1)
      (partitionDown less (swap d a pivot) a
          (partitionUp less (swap d a pivot) a (b - 1) (b - 1 + 1 - (a + 1)) (a + 1)) (b - 1) - 1)
      (by omega) (by omega) (by omega)
    refine ⟨((h0.trans (Reorders.of_swap _ (by omega) (by omega) (by omega) (by omega))).trans
      h3.1).trans (Reorders.of_swap _ h3.2.1 h3.2.2 (le_refl _) (by omega)), h3.2.1, h3.2.2⟩

theorem partitionEqualUp_bounds {α : Type} (less : α → α → Bool) (d : Slice α) (a j : Nat) :
    ∀ (fuel i : Nat), i ≤ partitionEqualUp less d a j fuel i ∧
      (i ≤ j + 1 → partitionEqualUp less d a j fuel i ≤ j + 1) := by
  intro fuel
  induction fuel with
  | zero => intro i; exact ⟨le_refl _, fun h => h⟩
  | succ fuel ih =>
    intro i
    unfold partitionEqualUp
    split_ifs with h
    · have := ih (i + 1)
      exact ⟨by omega, fun _ => this.2 (by omega)⟩
    · exact ⟨le_refl _, fun h => h⟩

theorem partitionEqualDown_bounds {α : Type} (less : α → α → Bool) (d : Slice α) (a i : Nat) :
    ∀ j : Nat, partitionEqualDown less d a i j ≤ j ∧
      (i ≤ j + 1 → i ≤ partitionEqualDown less d a i j + 1) := by
  intro j
  induction j with
  | zero => exact ⟨le_refl _, fun h => h⟩
  | succ j ih =>
    unfold partitionEqualDown
    split_ifs with h
    · exact ⟨by omega, fun _ => ih.2 (by omega)⟩
    · exact ⟨le_refl _, fun h => h⟩

theorem partitionEqualUp_stop {α : Type} (less : α → α → Bool) (d : Slice α) (a j : Nat) :
    ∀ (fuel i : Nat), j + 1 - i ≤ fuel →
      (partitionEqualUp less d a j fuel i ≤ j →
        less (d.elem a) (d.elem (partitionEqualUp less d a j fuel i)) = true) ∧
      ∀ k, i ≤ k → k < partitionEqualUp less d a j fuel i →
        less (d.elem a) (d.elem k) = false := by
  intro fuel
  induction fuel with
  | zero =>
    intro i hf
    simp only [partitionEqualUp]
    exact ⟨fun h => by omega, fun k h1 h2 => by omega⟩
  | succ fuel ih =>
    intro i hf
    unfold partitionEqualUp
    by_cases h : i ≤ j ∧ less (d.elem a) (d.elem i) = false
    · simp only [h, and_self, if_true]
      have := ih (i + 1) (by omega)
      refine ⟨this.1, ?_⟩
      intro k hk hk2
      by_cases hki : k = i
      · rw [hki]; exact h.2
      · exact this.2 k (by omega) hk2
    · simp only [h, if_false]
      refine ⟨fun hij => ?_, fun k h1 h2 => by omega⟩
      cases hl : less (d.elem a) (d.elem i) with
      | true => rfl
      | false => exact absurd ⟨hij, hl⟩ h

theorem partitionEqualDown_stop {α : Type} (less : α → α → Bool) (d : Slice α) (a i : Nat)
    (hi : 1 ≤ i) :
    ∀ j : Nat,
      (i ≤ partitionEqualDown less d a i j →
        less (d.elem a) (d.elem (partitionEqualDown less d a i j)) = false) ∧
      ∀ k, partitionEqualDown less d a i j < k → k ≤ j →
        less (d.elem a) (d.elem k) = true := by
  intro j
  induction j with
  | zero =>
    simp only [partitionEqualDown]
    exact ⟨fun h => by omega, fun k h1 h2 => by omega⟩
  | succ j ih =>
    unfold partitionEqualDown
    by_cases h : i ≤ j + 1 ∧ less (d.elem a) (d.elem (j + 1)) = true
    · simp only [h, and_self, if_true]
      refine ⟨ih.1, ?_⟩
      intro k hk hk2
      by_cases hkj : k = j + 1
      · rw [hkj]; exact h.2
      · exact ih.2 k hk (by omega)
    · simp only [h, if_false]
      refine ⟨fun hij => ?_, fun k h1 h2 => by omega⟩
      cases hl : less (d.elem a) (d.elem (j + 1)) with
      | false => rfl
      | true => exact absurd ⟨hij, hl⟩ h

theorem partitionEqual_scan_lt {α : Type} (less : α → α → Bool) (d : Slice α) (a i j : Nat)
    (hi : 1 ≤ i)
    (h : ¬ partitionEqualUp less d a j (j + 1 - i) i >
      partitionEqualDown less d a (partitionEqualUp less d a j (j + 1 - i) i) j) :
    partitionEqualUp less d a j (j + 1 - i) i <
      partitionEqualDown less d a (partitionEqualUp less d a j (j + 1 - i) i) j := by
  have hu := partitionEqualUp_bounds less d a j (j + 1 - i) i
  have hus := partitionEqualUp_stop less d a j (j + 1 - i) i (le_refl _)
  have hds := partitionEqualDown_stop less d a
    (partitionEqualUp less d a j (j + 1 - i) i) (by omega) j
  have hd := partitionEqualDown_bounds less d a (partitionEqualUp less d a j (j + 1 - i) i) j
  by_contra hc
  have heq : partitionEqualUp less d a j (j + 1 - i) i =
      partitionEqualDown less d a (partitionEqualUp less d a j (j + 1 - i) i) j := by omega
  have h1 := hus.1 (by omega)
  have h2 := hds.1 (by omega)
  rw [← heq, h1] at h2
  cases h2

theorem partitionEqualLoop_reorders {α : Type} (less : α → α → Bool) (a b : Nat) :
    ∀ (fuel : Nat) (d : Slice α) (i j : Nat), a < i → j < b → i ≤ j + 1 →
      Reorders d (partitionEqualLoop less a fuel d i j).1 a b ∧
        a < (partitionEqualLoop less a fuel d i j).2 ∧
        (partitionEqualLoop less a fuel d i j).2 ≤ b := by
  intro fuel
  induction fuel with
  | zero =>
    intro d i j hai hjb hij
    exact ⟨Reorders.refl _ _ _, by simp [partitionEqualLoop]; omega,
      by simp [partitionEqualLoop]; omega⟩
  | succ fuel ih =>
    intro d i j hai hjb hij
    unfold partitionEqualLoop
    simp only
    have hu := partitionEqualUp_bounds less d a j (j + 1 - i) i
    have hd := partitionEqualDown_bounds less d a (partitionEqualUp less d a j (j + 1 - i) i) j
    split_ifs with h
    · exact ⟨Reorders.refl _ _ _, by simp only; omega, by simp only; have := hu.2 hij; omega⟩
    · have hlt := partitionEqual_scan_lt less d a i j (by omega) h
      have h3 := ih (swap d (partitionEqualUp less d a j (j + 1 - i) i)
        (partitionEqualDown less d a (partitionEqualUp less d a j (j + 1 - i) i) j))
        (partitionEqualUp less d a j (j + 1 - i) i + 1)
        (partitionEqualDown less d a (partitionEqualUp less d a j (j + 1 - i) i) j - 1)
        (by omega) (by omega) (by omega)
      exact ⟨(Reorders.of_swap d (by omega) (by omega) (by omega) (by omega)).trans h3.1, h3.2⟩

theorem partitionEqual_func_reorders {α : Type} (less : α → α → Bool) (d : Slice α)
    (a b pivot : Nat) (hp : a ≤ pivot) (hp2 : pivot < b) :
    Reorders d (partitionEqual_func less d a b pivot).1 a b ∧
      a < (partitionEqual_func less d a b pivot).2 ∧
      (partitionEqual_func less d a b pivot).2 ≤ b := by
  unfold partitionEqual_func
  have h0 : Reorders d (swap d a pivot) a b :=
    Reorders.of_swap d (le_refl _) (by omega) hp hp2
  have h3 := partitionEqualLoop_reorders less a b (b - a + 1) (swap d a pivot) (a + 1) (b - 1)
    (by omega) (by omega) (by omega)
  exact ⟨h0.trans h3.1, h3.2⟩

theorem shiftLeft_reorders {α : Type} (less : α → α → Bool) :
    ∀ (j : Nat) (d : Slice α), Reorders d (shiftLeft less j d) 0 (j + 1) := by
  intro j
  induction j with
  | zero => intro d; exact Reorders.refl _ _ _
  | succ j ih =>
    intro d
    unfold shiftLeft
    split_ifs with h
    · exact Reorders.refl _ _ _
    · exact (Reorders.of_swap d (Nat.zero_le _) (by omega) (Nat.zero_le _) (by omega)).trans
        ((ih _).mono (le_refl _) (by omega))

theorem shiftRight_reorders {α : Type} (less : α → α → Bool) (b : Nat) :
    ∀ (fuel j : Nat) (d : Slice α), 1 ≤ j →
      Reorders d (shiftRight less b fuel j d) (j - 1) b := by
  intro fuel
  induction fuel with
  | zero => intro j d _; exact Reorders.refl _ _ _
  | succ fuel ih =>
    intro j d hj
    unfold shiftRight
    split_ifs with h1 h2
    · exact Reorders.refl _ _ _
    · exact (Reorders.of_swap d (by omega) h1 (le_refl _) (by omega)).trans
        ((ih (j + 1) _ (by omega)).mono (by omega) (le_refl _))
    · exact Reorders.refl _ _ _

theorem partialScan_bounds {α : Type} (less : α → α → Bool) (d : Slice α) (b : Nat) :
    ∀ (fuel i : Nat), i ≤ partialScan less d b fuel i ∧
      (i ≤ b → partialScan less d b fuel i ≤ b) := by
  intro fuel
  induction fuel with
  | zero => intro i; exact ⟨le_refl _, fun h => h⟩
  | succ fuel ih =>
    intro i
    unfold partialScan
    split_ifs with h
    · have := ih (i + 1)
      exact ⟨by omega, fun _ => this.2 (by omega)⟩
    · exact ⟨le_refl _, fun h => h⟩

theorem partialInsertionLoop_reorders {α : Type} (less : α → α → Bool) (a b : Nat) :
    ∀ (steps i : Nat) (d : Slice α), 1 ≤ i → i ≤ b →
      Reorders d (partialInsertionLoop less a b steps i d).1 0 b := by
  intro steps
  induction steps with
  | zero => intro i d _ _; exact Reorders.refl _ _ _
  | succ steps ih =>
    intro i d hi hib
    unfold partialInsertionLoop
    simp only
    have hs := partialScan_bounds less d b (b - i) i
    have hs2 := hs.2 hib
    have hs1 := hs.1
    generalize partialScan less d b (b - i) i = s at hs1 hs2 ⊢
    by_cases h1 : s = b
    · simp only [h1, if_true]
      exact Reorders.refl _ _ _
    · simp only [h1, if_false]
      by_cases h2 : b - a < 50
      · simp only [h2, if_true]
        exact Reorders.refl _ _ _
      · simp only [h2, if_false]
        refine Reorders.trans ?_ (ih _ _ (by omega) hs2)
        have hsw : Reorders d (swap d s (s - 1)) 0 b :=
          Reorders.of_swap d (Nat.zero_le _) (by omega) (Nat.zero_le _) (by omega)
        have hleft : Reorders (swap d s (s - 1))
            (if s - a ≥ 2 then shiftLeft less (s - 1) (swap d s (s - 1))
              else swap d s (s - 1)) 0 b := by
          split_ifs
          · exact (shiftLeft_reorders less (s - 1) _).mono (le_refl _) (by omega)
          · exact Reorders.refl _ _ _
        refine (hsw.trans hleft).trans ?_
        generalize (if s - a ≥ 2 then shiftLeft less (s - 1) (swap d s (s - 1))
          else swap d s (s - 1)) = dl
        by_cases h3 : b - s ≥ 2
        · simp only [h3, if_true]
          exact (shiftRight_reorders less b (b - (s + 1)) (s + 1) dl (by omega)).mono
            (Nat.zero_le _) (le_refl _)
        · simp only [h3, if_false]
          exact Reorders.refl _ _ _

theorem partialInsertionSort_func_reorders {α : Type} (less : α → α → Bool) (d : Slice α)
    (a b : Nat) (hab : a < b) : Reorders d (partialInsertionSort_func less d a b).1 0 b :=
  partialInsertionLoop_reorders less a b 5 (a + 1) d (by omega) (by omega)

theorem two_pow_bitsLen_le (n : Nat) (hn : 0 < n) : 2 ^ bitsLen n ≤ 2 * n := by
  unfold bitsLen
  have h : n ≠ 0 := by omega
  simp only [h, if_false]
  have := Nat.log2_self_le h
  rw [pow_succ]
  omega

theorem breakOther_lt (r length : Nat) (hl : 0 < length) : breakOther r length < length := by
  unfold breakOther
  simp only
  have h1 : r &&& (2 ^ bitsLen length - 1) ≤ 2 ^ bitsLen length - 1 := Nat.and_le_right
  have h2 := two_pow_bitsLen_le length hl
  have h3 : 0 < 2 ^ bitsLen length := Nat.two_pow_pos _
  split_ifs with h
  · omega
  · omega

theorem breakPatterns_func_reorders {α : Type} (d : Slice α) (a b : Nat) :
    Reorders d (breakPatterns_func d a b) a b := by
  unfold breakPatterns_func
  split_ifs with h
  · simp only
    have hq : 2 ≤ (b - a) / 4 := by omega
    have hq2 : (b - a) / 4 * 4 ≤ b - a := Nat.div_mul_le_self _ _
    have o1 := breakOther_lt (xorshiftNext (b - a)) (b - a) (by omega)
    have o2 := breakOther_lt (xorshiftNext (xorshiftNext (b - a))) (b - a) (by omega)
    have o3 := breakOther_lt (xorshiftNext (xorshiftNext (xorshiftNext (b - a)))) (b - a)
      (by omega)
    refine ((Reorders.of_swap d (by omega) (by omega) (by omega) (by omega)).trans
      (Reorders.of_swap _ (by omega) (by omega) (by omega) (by omega))).trans
      (Reorders.of_swap _ (by omega) (by omega) (by omega) (by omega))
  · exact Reorders.refl _ _ _

theorem reverseLoop_reorders {α : Type} :
    ∀ (fuel i j : Nat) (d : Slice α), Reorders d (reverseLoop fuel i j d) i (j + 1) := by
  intro fuel
  induction fuel with
  | zero => intro i j d; exact Reorders.refl _ _ _
  | succ fuel ih =>
    intro i j d
    unfold reverseLoop
    split_ifs with h
    · exact (Reorders.of_swap d (le_refl _) (by omega) (by omega) (by omega)).trans
        ((ih (i + 1) (j - 1) _).mono (by omega) (by omega))
    · exact Reorders.refl _ _ _

theorem reverseRange_func_reorders {α : Type} (d : Slice α) (a b : Nat) (hab : a < b) :
    Reorders d (reverseRange_func d a b) a b := by
  unfold reverseRange_func
  have := reverseLoop_reorders (b - a) a (b - 1) d
  have e : b - 1 + 1 = b := by omega
  rw [e] at this
  exact this

theorem order2_func_cases {α : Type} (less : α → α → Bool) (d : Slice α) (x y s : Nat) :
    ((order2_func less d x y s).1 = x ∧ (order2_func less d x y s).2.1 = y) ∨
    ((order2_func less d x y s).1 = y ∧ (order2_func less d x y s).2.1 = x) := by
  unfold order2_func
  split_ifs
  · exact Or.inr ⟨rfl, rfl⟩
  · exact Or.inl ⟨rfl, rfl⟩

theorem median_func_mem {α : Type} (less : α → α → Bool) (d : Slice α) (x y z s : Nat) :
    (median_func less d x y z s).1 = x ∨ (median_func less d x y z s).1 = y ∨
      (median_func less d x y z s).1 = z := by
  unfold median_func
  simp only
  rcases order2_func_cases less d x y s with ⟨h1, h2⟩ | ⟨h1, h2⟩ <;>
  rcases order2_func_cases less d (order2_func less d x y s).2.1 z
    (order2_func less d x y s).2.2 with ⟨h3, h4⟩ | ⟨h3, h4⟩ <;>
  rcases order2_func_cases less d (order2_func less d x y s).1
    (order2_func less d (order2_func less d x y s).2.1 z (order2_func less d x y s).2.2).1
    (order2_func less d (order2_func less d x y s).2.1 z (order2_func less d x y s).2.2).2.2
    with ⟨h5, h6⟩ | ⟨h5, h6⟩ <;>
  (simp only [h1, h2] at h3 h4 h5 h6 ⊢
   simp only [h3, h4] at h5 h6 ⊢
   simp only [h6, true_or, or_true])

theorem medianAdjacent_func_mem {α : Type} (less : α → α → Bool) (d : Slice α) (x s : Nat)
    (hx : 1 ≤ x) :
    x - 1 ≤ (medianAdjacent_func less d x s).1 ∧ (medianAdjacent_func less d x s).1 ≤ x + 1 := by
  unfold medianAdjacent_func
  rcases median_func_mem less d (x - 1) x (x + 1) s with h | h | h <;> rw [h] <;> omega

theorem choosePivot_func_range {α : Type} (less : α → α → Bool) (d : Slice α) (a b : Nat)
    (hab : 8 ≤ b - a) :
    a ≤ (choosePivot_func less d a b).1 ∧ (choosePivot_func less d a b).1 < b := by
  have hq : 2 ≤ (b - a) / 4 := by omega
  have hq2 : (b - a) / 4 * 4 ≤ b - a := Nat.div_mul_le_self _ _
  have key : ∀ r : Nat × Nat, a ≤ r.1 ∧ r.1 < b →
      a ≤ (if r.2 = 0 then (r.1, sortedHint.increasingHint)
        else if r.2 = 12 then (r.1, sortedHint.decreasingHint)
        else (r.1, sortedHint.unknownHint)).1 ∧
      (if r.2 = 0 then (r.1, sortedHint.increasingHint)
        else if r.2 = 12 then (r.1, sortedHint.decreasingHint)
        else (r.1, sortedHint.unknownHint)).1 < b := by
    intro r hr
    split_ifs <;> exact hr
  unfold choosePivot_func
  simp only
  apply key
  simp only [hab, ge_iff_le, if_true]
  split_ifs with h50
  · have hq3 : 12 ≤ (b - a) / 4 := by omega
    have m1 := medianAdjacent_func_mem less d (a + (b - a) / 4 * 1) 0 (by omega)
    have m2 := medianAdjacent_func_mem less d (a + (b - a) / 4 * 2)
      (medianAdjacent_func less d (a + (b - a) / 4 * 1) 0).2 (by omega)
    have m3 := medianAdjacent_func_mem less d (a + (b - a) / 4 * 3)
      (medianAdjacent_func less d (a + (b - a) / 4 * 2)
        (medianAdjacent_func less d (a + (b - a) / 4 * 1) 0).2).2 (by omega)
    rcases median_func_mem less d (medianAdjacent_func less d (a + (b - a) / 4 * 1) 0).1
      (medianAdjacent_func less d (a + (b - a) / 4 * 2)
        (medianAdjacent_func less d (a + (b - a) / 4 * 1) 0).2).1
      (medianAdjacent_func less d (a + (b - a) / 4 * 3)
        (medianAdjacent_func less d (a + (b - a) / 4 * 2)
          (medianAdjacent_func less d (a + (b - a) / 4 * 1) 0).2).2).1
      (medianAdjacent_func less d (a + (b - a) / 4 * 3)
        (medianAdjacent_func less d (a + (b - a) / 4 * 2)
          (medianAdjacent_func less d (a + (b - a) / 4 * 1) 0).2).2).2 with h | h | h <;>
    rw [h] <;> omega
  · rcases median_func_mem less d (a + (b - a) / 4 * 1) (a + (b - a) / 4 * 2)
      (a + (b - a) / 4 * 3) 0 with h | h | h <;> rw [h] <;> omega

theorem pdqsortLoop_reorders {α : Type} (less : α → α → Bool) (n : Nat) :
    ∀ (fuel : Nat) (d : Slice α) (a b limit : Nat) (wb wp : Bool), b ≤ n →
      Reorders d (pdqsortLoop less fuel d a b limit wb wp) 0 n := by
  intro fuel
  induction fuel with
  | zero => intro d a b limit wb wp _; exact Reorders.refl _ _ _
  | succ fuel ih =>
    intro d a b limit wb wp hbn
    unfold pdqsortLoop
    by_cases h12 : b - a ≤ 12
    · simp only [h12, if_true]
      exact (insertionSort_func_reorders less d a b).mono (Nat.zero_le _) hbn
    · simp only [h12, if_false]
      by_cases hl : limit = 0
      · simp only [hl, if_true]
        exact (heapSort_func_reorders less d a b).mono (Nat.zero_le _) hbn
      · simp only [hl, if_false]
        have hd1 : Reorders d (if wb = true then d else breakPatterns_func d a b) 0 n := by
          split_ifs
          · exact Reorders.refl _ _ _
          · exact (breakPatterns_func_reorders d a b).mono (Nat.zero_le _) hbn
        generalize (if wb = true then d else breakPatterns_func d a b) = d1 at hd1 ⊢
        generalize (if wb = true then limit else limit - 1) = limit1
        have hc := choosePivot_func_range less d1 a b (by omega)
        generalize choosePivot_func less d1 a b = c at hc ⊢
        have hd2 : Reorders d1 (if c.2 = sortedHint.decreasingHint then
            reverseRange_func d1 a b else d1) 0 n := by
          split_ifs
          · exact (reverseRange_func_reorders d1 a b (by omega)).mono (Nat.zero_le _) hbn
          · exact Reorders.refl _ _ _
        generalize (if c.2 = sortedHint.decreasingHint then
            reverseRange_func d1 a b else d1) = d2 at hd2 ⊢
        have hpiv : a ≤ (if c.2 = sortedHint.decreasingHint then b - 1 - (c.1 - a) else c.1) ∧
            (if c.2 = sortedHint.decreasingHint then b - 1 - (c.1 - a) else c.1) < b := by
          split_ifs <;> omega
        generalize (if c.2 = sortedHint.decreasingHint then b - 1 - (c.1 - a) else c.1) = pivot
          at hpiv ⊢
        generalize (if c.2 = sortedHint.decreasingHint then sortedHint.increasingHint
          else c.2) = hint
        have hp : Reorders d2 (if wb = true ∧ wp = true ∧ hint = sortedHint.increasingHint then
            partialInsertionSort_func less d2 a b else (d2, false)).1 0 n := by
          split_ifs
          · exact (partialInsertionSort_func_reorders less d2 a b (by omega)).mono
              (le_refl _) hbn
          · exact Reorders.refl _ _ _
        generalize (if wb = true ∧ wp = true ∧ hint = sortedHint.increasingHint then
            partialInsertionSort_func less d2 a b else (d2, false)) = p at hp ⊢
        have hdp : Reorders d p.1 0 n := (hd1.trans hd2).trans hp
        by_cases hp2 : p.2 = true
        · simp only [hp2, if_true]
          exact hdp
        · simp only [hp2, if_false]
          by_cases heq : a > 0 ∧ less (p.1.elem (a - 1)) (p.1.elem pivot) = false
          · rw [if_pos heq]
            have he := partitionEqual_func_reorders less p.1 a b pivot hpiv.1 hpiv.2
            exact (hdp.trans (he.1.mono (Nat.zero_le _) hbn)).trans (ih _ _ _ _ _ _ hbn)
          · rw [if_neg heq]
            have hq := partition_func_reorders less p.1 a b pivot hpiv.1 hpiv.2
            have hdq := hdp.trans (hq.1.mono (Nat.zero_le _) hbn)
            have hmid : (partition_func less p.1 a b pivot).2.1 ≤ n := by omega
            by_cases hside : (partition_func less p.1 a b pivot).2.1 - a <
                b - (partition_func less p.1 a b pivot).2.1
            · rw [if_pos hside]
              exact (hdq.trans (ih _ _ _ _ _ _ hmid)).trans (ih _ _ _ _ _ _ hbn)
            · rw [if_neg hside]
              exact (hdq.trans (ih _ _ _ _ _ _ hbn)).trans (ih _ _ _ _ _ _ hmid)

theorem map_getD_range {α : Type} (l : List α) (x : α) :
    (List.range l.length).map (fun k => l.getD k x) = l := by
  apply List.ext_getElem
  · simp
  · intro i h1 h2
    simp [List.getD_eq_getElem?_getD, List.getElem?_eq_getElem h2]

theorem sortSlice_perm {α : Type} (less : α → α → Bool) (l : List α) :
    (sortSlice less l).Perm l := by
  unfold sortSlice
  cases l with
  | nil => exact List.Perm.refl _
  | cons x t =>
    simp only
    have h := pdqsortLoop_reorders less (x :: t).length ((x :: t).length - 0)
      { elem := fun k => (x :: t).getD k x } 0 (x :: t).length (bitsLen (x :: t).length)
      true true (le_refl _)
    have hp := h.perm
    rw [map_getD_range] at hp
    exact hp

/-! ### What a partition establishes -/

theorem partitionLoop_spec {α : Type} (less : α → α → Bool) (a b : Nat) :
    ∀ (fuel : Nat) (d : Slice α) (i j : Nat), a < i → j < b → i ≤ j + 1 → j + 1 - i ≤ fuel →
      (∀ k, a < k → k < i → less (d.elem k) (d.elem a) = true) →
      (∀ k, j < k → k < b → less (d.elem k) (d.elem a) = false) →
      (partitionLoop less a fuel d i j).1.elem a = d.elem a ∧
      (∀ k, a < k → k ≤ (partitionLoop less a fuel d i j).2 →
        less ((partitionLoop less a fuel d i j).1.elem k) (d.elem a) = true) ∧
      (∀ k, (partitionLoop less a fuel d i j).2 < k → k < b →
        less ((partitionLoop less a fuel d i j).1.elem k) (d.elem a) = false) := by
  intro fuel
  induction fuel with
  | zero =>
    intro d i j hai hjb hij hf hleft hright
    unfold partitionLoop
    exact ⟨rfl, fun k h1 h2 => hleft k h1 (by simp only at h2; omega), hright⟩
  | succ fuel ih =>
    intro d i j hai hjb hij hf hleft hright
    unfold partitionLoop
    simp only
    have hu := partitionUp_bounds less d a j (j + 1 - i) i
    have hus := partitionUp_stop less d a j (j + 1 - i) i (le_refl _)
    have hd := partitionDown_bounds less d a (partitionUp less d a j (j + 1 - i) i) j
    have hds := partitionDown_stop less d a (partitionUp less d a j (j + 1 - i) i) (by omega) j
    by_cases h : partitionUp less d a j (j + 1 - i) i >
        partitionDown less d a (partitionUp less d a j (j + 1 - i) i) j
    · rw [if_pos h]
      refine ⟨rfl, ?_, ?_⟩
      · intro k h1 h2
        by_cases hk : k < i
        · exact hleft k h1 hk
        · exact hus.2 k (by omega) (by omega)
      · intro k h1 h2
        by_cases hk : k ≤ j
        · exact hds.2 k h1 hk
        · exact hright k (by omega) h2
    · rw [if_neg h]
      have hlt := partition_scan_lt less d a i j (by omega) h
      have hu2 := hu.2 hij
      generalize partitionUp less d a j (j + 1 - i) i = i1 at *
      generalize partitionDown less d a i1 j = j1 at *
      have hsa : (swap d i1 j1).elem a = d.elem a := swap_elem_other d i1 j1 a (by omega) (by omega)
      have h3 := ih (swap d i1 j1) (i1 + 1) (j1 - 1) (by omega) (by omega) (by omega) (by omega)
        ?_ ?_
      · rw [hsa] at h3
        exact h3
      · intro k h1 h2
        rw [hsa]
        by_cases hk : k = i1
        · rw [hk, swap_elem_left]
          exact hds.1 (by omega)
        · rw [swap_elem_other d i1 j1 k hk (by omega)]
          by_cases hk2 : k < i
          · exact hleft k h1 hk2
          · exact hus.2 k (by omega) (by omega)
      · intro k h1 h2
        rw [hsa]
        by_cases hk : k = j1
        · rw [hk, swap_elem_right]
          exact hus.1 (by omega)
        · rw [swap_elem_other d i1 j1 k (by omega) hk]
          by_cases hk2 : k ≤ j
          · exact hds.2 k (by omega) hk2
          · exact hright k (by omega) h2

theorem partition_func_spec {α : Type} (less : α → α → Bool) (d : Slice α)
    (a b pivot : Nat) (hp : a ≤ pivot) (hp2 : pivot < b) :
    (partition_func less d a b pivot).1.elem (partition_func less d a b pivot).2.1 =
      d.elem pivot ∧
    (∀ k, a ≤ k → k < (partition_func less d a b pivot).2.1 →
      less ((partition_func less d a b pivot).1.elem k) (d.elem pivot) = true) ∧
    (∀ k, (partition_func less d a b pivot).2.1 < k → k < b →
      less ((partition_func less d a b pivot).1.elem k) (d.elem pivot) = false) := by
  unfold partition_func
  simp only
  have hpa : (swap d a pivot).elem a = d.elem pivot := swap_elem_left d a pivot
  have e : b - 1 - a = b - 1 + 1 - (a + 1) := by omega
  rw [e]
  have hu := partitionUp_bounds less (swap d a pivot) a (b - 1) (b - 1 + 1 - (a + 1)) (a + 1)
  have hus := partitionUp_stop less (swap d a pivot) a (b - 1) (b - 1 + 1 - (a + 1)) (a + 1)
    (le_refl _)
  have hd := partitionDown_bounds less (swap d a pivot) a
    (partitionUp less (swap d a pivot) a (b - 1) (b - 1 + 1 - (a + 1)) (a + 1)) (b - 1)
  have hds := partitionDown_stop less (swap d a pivot) a
    (partitionUp less (swap d a pivot) a (b - 1) (b - 1 + 1 - (a + 1)) (a + 1)) (by omega)
    (b - 1)
  have hu2 := hu.2 (by omega)
  have hd2 := hd.2 hu2
  rw [hpa] at hus hds
  by_cases h : partitionUp less (swap d a pivot) a (b - 1) (b - 1 + 1 - (a + 1)) (a + 1) >
      partitionDown less (swap d a pivot) a
        (partitionUp less (swap d a pivot) a (b - 1) (b - 1 + 1 - (a + 1)) (a + 1)) (b - 1)
  · rw [if_pos h]
    simp only
    generalize partitionUp less (swap d a pivot) a (b - 1) (b - 1 + 1 - (a + 1)) (a + 1) = i0
      at *
    generalize partitionDown less (swap d a pivot) a i0 (b - 1) = j0 at *
    refine ⟨by rw [swap_elem_left, hpa], ?_, ?_⟩
    · intro k h1 h2
      by_cases hk : k = a
      · rw [hk, swap_elem_right]
        exact hus.2 j0 (by omega) (by omega)
      · rw [swap_elem_other _ j0 a k (by omega) hk]
        exact hus.2 k (by omega) (by omega)
    · intro k h1 h2
      rw [swap_elem_other _ j0 a k (by omega) (by omega)]
      exact hds.2 k h1 (by omega)
  · rw [if_neg h]
    simp only
    have hlt := partition_scan_lt less (swap d a pivot) a (a + 1) (b - 1) (by omega) h
    generalize partitionUp less (swap d a pivot) a (b - 1) (b - 1 + 1 - (a + 1)) (a + 1) = i0
      at *
    generalize partitionDown less (swap d a pivot) a i0 (b - 1) = j0 at *
    have hsa : (swap (swap d a pivot) i0 j0).elem a = d.elem pivot := by
      rw [swap_elem_other _ i0 j0 a (by omega) (by omega), hpa]
    have hl := partitionLoop_spec less a b (b - a) (swap (swap d a pivot) i0 j0) (i0 + 1)
      (j0 - 1) (by omega) (by omega) (by omega) (by omega) ?_ ?_
    have hr := partitionLoop_reorders less a b (b - a) (swap (swap d a pivot) i0 j0) (i0 + 1)
      (j0 - 1) (by omega) (by omega) (by omega)
    · rw [hsa] at hl
      generalize partitionLoop less a (b - a) (swap (swap d a pivot) i0 j0) (i0 + 1) (j0 - 1) = r
        at hl hr
      refine ⟨by rw [swap_elem_left, hl.1], ?_, ?_⟩
      · intro k h1 h2
        by_cases hk : k = a
        · rw [hk, swap_elem_right]
          exact hl.2.1 r.2 (by omega) (le_refl _)
        · rw [swap_elem_other _ r.2 a k (by omega) hk]
          exact hl.2.1 k (by omega) (by omega)
      · intro k h1 h2
        rw [swap_elem_other _ r.2 a k (by omega) (by omega)]
        exact hl.2.2 k h1 h2
    · intro k h1 h2
      rw [hsa]
      by_cases hk : k = i0
      · rw [hk, swap_elem_left]
        exact hds.1 (by omega)
      · rw [swap_elem_other _ i0 j0 k hk (by omega)]
        exact hus.2 k (by omega) (by omega)
    · intro k h1 h2
      rw [hsa]
      by_cases hk : k = j0
      · rw [hk, swap_elem_right]
        exact hus.1 (by omega)
      · rw [swap_elem_other _ i0 j0 k (by omega) hk]
        exact hds.2 k (by omega) (by omega)

theorem partitionEqualLoop_spec {α : Type} (less : α → α → Bool) (a b : Nat) :
    ∀ (fuel : Nat) (d : Slice α) (i j : Nat), a < i → j < b → i ≤ j + 1 → j + 1 - i ≤ fuel →
      (∀ k, a < k → k < i → less (d.elem a) (d.elem k) = false) →
      (∀ k, j < k → k < b → less (d.elem a) (d.elem k) = true) →
      (partitionEqualLoop less a fuel d i j).1.elem a = d.elem a ∧
      (∀ k, a < k → k < (partitionEqualLoop less a fuel d i j).2 →
        less (d.elem a) ((partitionEqualLoop less a fuel d i j).1.elem k) = false) ∧
      (∀ k, (partitionEqualLoop less a fuel d i j).2 ≤ k → k < b →
        less (d.elem a) ((partitionEqualLoop less a fuel d i j).1.elem k) = true) := by
  intro fuel
  induction fuel with
  | zero =>
    intro d i j hai hjb hij hf hleft hright
    unfold partitionEqualLoop
    exact ⟨rfl, hleft, fun k h1 h2 => hright k (by simp only at h1; omega) h2⟩
  | succ fuel ih =>
    intro d i j hai hjb hij hf hleft hright
    unfold partitionEqualLoop
    simp only
    have hu := partitionEqualUp_bounds less d a j (j + 1 - i) i
    have hus := partitionEqualUp_stop less d a j (j + 1 - i) i (le_refl _)
    have hd := partitionEqualDown_bounds less d a (partitionEqualUp less d a j (j + 1 - i) i) j
    have hds := partitionEqualDown_stop less d a (partitionEqualUp less d a j (j + 1 - i) i)
      (by omega) j
    by_cases h : partitionEqualUp less d a j (j + 1 - i) i >
        partitionEqualDown less d a (partitionEqualUp less d a j (j + 1 - i) i) j
    · rw [if_pos h]
      refine ⟨rfl, ?_, ?_⟩
      · intro k h1 h2
        by_cases hk : k < i
        · exact hleft k h1 hk
        · exact hus.2 k (by omega) h2
      · intro k h1 h2
        by_cases hk : k ≤ j
        · exact hds.2 k (by simp only at h1; omega) hk
        · exact hright k (by omega) h2
    · rw [if_neg h]
      have hlt := partitionEqual_scan_lt less d a i j (by omega) h
      have hu2 := hu.2 hij
      generalize partitionEqualUp less d a j (j + 1 - i) i = i1 at *
      generalize partitionEqualDown less d a i1 j = j1 at *
      have hsa : (swap d i1 j1).elem a = d.elem a :=
        swap_elem_other d i1 j1 a (by omega) (by omega)
      have h3 := ih (swap d i1 j1) (i1 + 1) (j1 - 1) (by omega) (by omega) (by omega) (by omega)
        ?_ ?_
      · rw [hsa] at h3
        exact h3
      · intro k h1 h2
        rw [hsa]
        by_cases hk : k = i1
        · rw [hk, swap_elem_left]
          exact hds.1 (by omega)
        · rw [swap_elem_other d i1 j1 k hk (by omega)]
          by_cases hk2 : k < i
          · exact hleft k h1 hk2
          · exact hus.2 k (by omega) (by omega)
      · intro k h1 h2
        rw [hsa]
        by_cases hk : k = j1
        · rw [hk, swap_elem_right]
          exact hus.1 (by omega)
        · rw [swap_elem_other d i1 j1 k (by omega) hk]
          by_cases hk2 : k ≤ j
          · exact hds.2 k (by omega) hk2
          · exact hright k (by omega) h2

theorem partitionEqual_func_spec {α : Type} {less : α → α → Bool} (hsw : StrictWeak less)
    (d : Slice α) (a b pivot : Nat) (hp : a ≤ pivot) (hp2 : pivot < b) :
    (∀ k, a ≤ k → k < (partitionEqual_func less d a b pivot).2 →
      less (d.elem pivot) ((partitionEqual_func less d a b pivot).1.elem k) = false) ∧
    (∀ k, (partitionEqual_func less d a b pivot).2 ≤ k → k < b →
      less (d.elem pivot) ((partitionEqual_func less d a b pivot).1.elem k) = true) := by
  unfold partitionEqual_func
  have hpa : (swap d a pivot).elem a = d.elem pivot := swap_elem_left d a pivot
  have h := partitionEqualLoop_spec less a b (b - a + 1) (swap d a pivot) (a + 1) (b - 1)
    (by omega) (by omega) (by omega) (by omega) (fun k h1 h2 => by omega)
    (fun k h1 h2 => by omega)
  rw [hpa] at h
  refine ⟨?_, h.2.2⟩
  intro k h1 h2
  by_cases hk : k = a
  · rw [hk, h.1]
    exact hsw.1 _
  · exact h.2.1 k (by omega) h2

/-! ### Heap sort -/

theorem siftDown_spec {α : Type} {less : α → α → Bool} (hsw : StrictWeak less)
    (hi first lo : Nat) :
    ∀ (fuel root : Nat) (d : Slice α), hi - root ≤ fuel → lo ≤ root →
      (∀ r c, lo ≤ r → r ≠ root → (c = 2 * r + 1 ∨ c = 2 * r + 2) → c < hi →
        less (d.elem (first + r)) (d.elem (first + c)) = false) →
      (∀ p c, lo ≤ p → (root = 2 * p + 1 ∨ root = 2 * p + 2) →
        (c = 2 * root + 1 ∨ c = 2 * root + 2) → c < hi →
        less (d.elem (first + p)) (d.elem (first + c)) = false) →
      HeapOn less (siftDown_func less hi first fuel root d) first lo hi := by
  intro fuel
  induction fuel with
  | zero =>
    intro root d hf hlo h1 h2
    unfold siftDown_func
    intro r c hr hc hch
    by_cases hrr : r = root
    · omega
    · exact h1 r c hr hrr hc hch
  | succ fuel ih =>
    intro root d hf hlo h1 h2
    unfold siftDown_func
    by_cases hleaf : 2 * root + 1 ≥ hi
    · rw [if_pos hleaf]
      intro r c hr hc hch
      by_cases hrr : r = root
      · omega
      · exact h1 r c hr hrr hc hch
    · rw [if_neg hleaf]
      simp only
      have hmax : ∃ ch, ch = (if 2 * root + 2 < hi ∧
            less (d.elem (first + (2 * root + 1))) (d.elem (first + (2 * root + 2))) = true then
            2 * root + 2 else 2 * root + 1) ∧
          (ch = 2 * root + 1 ∨ ch = 2 * root + 2) ∧ ch < hi ∧
          ∀ c, (c = 2 * root + 1 ∨ c = 2 * root + 2) → c < hi →
            less (d.elem (first + ch)) (d.elem (first + c)) = false := by
        by_cases hc : 2 * root + 2 < hi ∧
            less (d.elem (first + (2 * root + 1))) (d.elem (first + (2 * root + 2))) = true
        · refine ⟨2 * root + 2, by rw [if_pos hc], Or.inr rfl, hc.1, ?_⟩
          intro c hcc _
          rcases hcc with rfl | rfl
          · exact sw_asymm hsw hc.2
          · exact hsw.1 _
        · refine ⟨2 * root + 1, by rw [if_neg hc], Or.inl rfl, by omega, ?_⟩
          intro c hcc hch
          rcases hcc with rfl | rfl
          · exact hsw.1 _
          · cases hl : less (d.elem (first + (2 * root + 1))) (d.elem (first + (2 * root + 2))) with
            | false => rfl
            | true => exact absurd ⟨hch, hl⟩ hc
      obtain ⟨ch, hchdef, hchild, hchhi, hchmax⟩ := hmax
      rw [← hchdef]
      by_cases hlt : less (d.elem (first + root)) (d.elem (first + ch)) = true
      · rw [if_pos hlt]
        have hl : (swap d (first + root) (first + ch)).elem (first + root) =
            d.elem (first + ch) := swap_elem_left _ _ _
        have hr : (swap d (first + root) (first + ch)).elem (first + ch) =
            d.elem (first + root) := swap_elem_right _ _ _
        have ho : ∀ k, k ≠ root → k ≠ ch →
            (swap d (first + root) (first + ch)).elem (first + k) = d.elem (first + k) :=
          fun k hk1 hk2 => swap_elem_other _ _ _ _ (by omega) (by omega)
        apply ih ch (swap d (first + root) (first + ch)) (by omega) (by omega)
        · intro r c hr1 hr2 hc hch2
          by_cases hrr : r = root
          · subst hrr
            rw [hl]
            by_cases hcc : c = ch
            · subst hcc
              rw [hr]
              exact sw_asymm hsw hlt
            · rw [ho c (by omega) hcc]
              exact hchmax c hc hch2
          · rw [ho r hrr hr2]
            by_cases hcr : c = root
            · subst hcr
              rw [hl]
              exact h2 r ch hr1 hc hchild hchhi
            · have hcc : c ≠ ch := by omega
              rw [ho c hcr hcc]
              exact h1 r c hr1 hrr hc hch2
        · intro p c hp hpc hc hch2
          have hpr : p = root := by omega
          subst hpr
          rw [hl, ho c (by omega) (by omega)]
          exact h1 ch c (by omega) (by omega) hc hch2
      · rw [if_neg hlt]
        have hle : less (d.elem (first + root)) (d.elem (first + ch)) = false := by
          simpa using hlt
        intro r c hr hc hch2
        by_cases hrr : r = root
        · subst hrr
          exact sw_le_trans hsw (hchmax c hc hch2) hle
        · exact h1 r c hr hrr hc hch2

theorem heapBuild_spec {α : Type} {less : α → α → Bool} (hsw : StrictWeak less)
    (hi first : Nat) :
    ∀ (i : Nat) (d : Slice α), HeapOn less d first (i + 1) hi →
      HeapOn less (heapBuild less hi first i d) first 0 hi := by
  intro i
  induction i with
  | zero =>
    intro d h
    unfold heapBuild
    exact siftDown_spec hsw hi first 0 hi 0 d (by omega) (le_refl _)
      (fun r c _ hr hc hch => h r c (by omega) hc hch)
      (fun p c _ hp _ _ => by omega)
  | succ i ih =>
    intro d h
    unfold heapBuild
    apply ih
    exact siftDown_spec hsw hi first (i + 1) hi (i + 1) d (by omega) (le_refl _)
      (fun r c hr1 hr hc hch => h r c (by omega) hc hch)
      (fun p c hp1 hp _ _ => by omega)

theorem heap_root_max {α : Type} {less : α → α → Bool} (hsw : StrictWeak less)
    (d : Slice α) (first hi : Nat) (h : HeapOn less d first 0 hi) :
    ∀ k, k < hi → less (d.elem (first + 0)) (d.elem (first + k)) = false := by
  intro k
  induction k using Nat.strong_induction_on with
  | _ k ih =>
    intro hk
    by_cases hk0 : k = 0
    · subst hk0
      exact hsw.1 _
    · have h1 := ih ((k - 1) / 2) (by omega) (by omega)
      have h2 := h ((k - 1) / 2) k (Nat.zero_le _) (by omega) hk
      exact sw_le_trans hsw h2 h1

theorem swap_self_elem {α : Type} (d : Slice α) (i k : Nat) :
    (swap d i i).elem k = d.elem k := by
  unfold swap
  simp only
  split_ifs with h
  · rw [h]
  · rfl

theorem heapPop_spec {α : Type} {less : α → α → Bool} (hsw : StrictWeak less)
    (first hi : Nat) :
    ∀ (i : Nat) (d : Slice α), i < hi → HeapOn less d first 0 (i + 1) →
      SortedOn less d (first + i + 1) (first + hi) →
      (∀ p q, p ≤ i → i < q → q < hi →
        less (d.elem (first + q)) (d.elem (first + p)) = false) →
      SortedOn less (heapPop less first i d) first (first + hi) := by
  intro i
  induction i with
  | zero =>
    intro d hihi _ hs hcross
    unfold heapPop
    intro p q hp hpq hq
    rw [swap_self_elem, swap_self_elem]
    by_cases hp0 : p = first
    · subst hp0
      have := hcross 0 (q - p) (le_refl _) (by omega) (by omega)
      have e : p + (q - p) = q := by omega
      rw [e] at this
      exact this
    · exact hs p q (by omega) hpq hq
  | succ i ih =>
    intro d hihi hheap hs hcross
    unfold heapPop
    have hmaxd := heap_root_max hsw d first (i + 2) hheap
    have hl : (swap d first (first + (i + 1))).elem first = d.elem (first + (i + 1)) :=
      swap_elem_left _ _ _
    have hr : (swap d first (first + (i + 1))).elem (first + (i + 1)) = d.elem first :=
      swap_elem_right _ _ _
    have ho : ∀ k, k ≠ first → k ≠ first + (i + 1) →
        (swap d first (first + (i + 1))).elem k = d.elem k :=
      fun k hk1 hk2 => swap_elem_other _ _ _ _ hk1 hk2
    have hreo := siftDown_reorders less (i + 1) first (i + 1) 0
      (swap d first (first + (i + 1)))
    have hheap2 := siftDown_spec hsw (i + 1) first 0 (i + 1) 0
      (swap d first (first + (i + 1))) (by omega) (le_refl _)
      (fun r c _ hr0 hc hch => by
        rw [ho (first + r) (by omega) (by omega), ho (first + c) (by omega) (by omega)]
        exact hheap r c (Nat.zero_le _) hc (by omega))
      (fun p c _ hp _ _ => by omega)
    generalize siftDown_func less (i + 1) first (i + 1) 0 (swap d first (first + (i + 1))) = d2
      at hreo hheap2 ⊢
    have hout : ∀ k, first + (i + 1) ≤ k → d2.elem k =
        (swap d first (first + (i + 1))).elem k := fun k hk => hreo.outside k (Or.inr hk)
    apply ih d2 (by omega) hheap2
    · intro p q hp hpq hq
      rw [hout p (by omega), hout q (by omega)]
      by_cases hp1 : p = first + (i + 1)
      · subst hp1
        rw [hr, ho q (by omega) (by omega)]
        have := hcross 0 (q - first) (Nat.zero_le _) (by omega) (by omega)
        have e : first + (q - first) = q := by omega
        rw [e] at this
        exact this
      · rw [ho p (by omega) hp1, ho q (by omega) (by omega)]
        exact hs p q (by omega) hpq hq
    · intro p q hp hiq hq
      obtain ⟨k2, hk1, hk2, hk3⟩ := hreo.mem (first + p) (by omega) (by omega)
      rw [hk3, hout (first + q) (by omega)]
      have hsrc : ∃ p2, p2 ≤ i + 1 ∧
          (swap d first (first + (i + 1))).elem k2 = d.elem (first + p2) := by
        by_cases hk0 : k2 = first
        · subst hk0
          exact ⟨i + 1, le_refl _, hl⟩
        · exact ⟨k2 - first, by omega, by
            rw [ho k2 hk0 (by omega)]
            congr 1
            omega⟩
      obtain ⟨p2, hp2, hp3⟩ := hsrc
      rw [hp3]
      by_cases hq1 : q = i + 1
      · subst hq1
        rw [hr]
        have := hmaxd p2 (by omega)
        simpa using this
      · rw [ho (first + q) (by omega) (by omega)]
        exact hcross p2 q hp2 (by omega) hq

theorem heapSort_func_spec {α : Type} {less : α → α → Bool} (hsw : StrictWeak less)
    (d : Slice α) (a b : Nat) : SortedOn less (heapSort_func less d a b) a b := by
  unfold heapSort_func
  by_cases h : b - a = 0
  · rw [if_pos h]
    intro p q hp hpq hq
    omega
  · rw [if_neg h]
    have hb := heapBuild_spec hsw (b - a) a ((b - a - 1) / 2) d
      (fun r c hr hc hch => by omega)
    have hp := heapPop_spec hsw a (b - a) (b - a - 1)
      (heapBuild less (b - a) a ((b - a - 1) / 2) d) (by omega)
      (by
        have e : b - a - 1 + 1 = b - a := by omega
        rw [e]
        exact hb)
      (fun p q hp hpq hq => by omega)
      (fun p q hp hpq hq => by omega)
    have e : a + (b - a) = b := by omega
    rw [e] at hp
    exact hp

/-! ### Partial insertion sort -/

theorem BoundedBelow.reorders {α : Type} {less : α → α → Bool} {d d2 : Slice α} {a b : Nat}
    (h : BoundedBelow less d a b) (hr : Reorders d d2 a b) : BoundedBelow less d2 a b := by
  intro ha k hk hk2
  obtain ⟨k2, h1, h2, h3⟩ := hr.mem k hk hk2
  rw [h3, hr.outside (a - 1) (Or.inl (by omega))]
  exact h ha k2 h1 h2

theorem BoundedBelow.narrow {α : Type} {less : α → α → Bool} {d : Slice α} {a b b2 : Nat}
    (h : BoundedBelow less d a b) (hb : b2 ≤ b) : BoundedBelow less d a b2 :=
  fun ha k hk hk2 => h ha k hk (by omega)

theorem shiftLeft_eq_insertionInner {α : Type} (less : α → α → Bool) (a : Nat) :
    ∀ (j : Nat) (d : Slice α), a ≤ j → BoundedBelow less d a (j + 1) →
      shiftLeft less j d = insertionInner less a j d := by
  intro j
  induction j with
  | zero =>
    intro d _ _
    unfold shiftLeft insertionInner
    rfl
  | succ j ih =>
    intro d haj hb
    unfold shiftLeft insertionInner
    by_cases hlt : less (d.elem (j + 1)) (d.elem j) = true
    · have hne : ¬ less (d.elem (j + 1)) (d.elem j) = false := by simp [hlt]
      rw [if_neg hne]
      by_cases hja : j + 1 > a
      · rw [if_pos ⟨hja, hlt⟩]
        apply ih _ (by omega)
        intro ha k hk hk2
        rw [swap_elem_other d (j + 1) j (a - 1) (by omega) (by omega)]
        by_cases hkj : k = j
        · rw [hkj, swap_elem_right]
          exact hb ha (j + 1) (by omega) (by omega)
        · rw [swap_elem_other d (j + 1) j k (by omega) hkj]
          exact hb ha k hk (by omega)
      · exfalso
        have ha : a = j + 1 := by omega
        have := hb (by omega) (j + 1) (by omega) (by omega)
        rw [ha] at this
        simp only [Nat.add_sub_cancel] at this
        rw [hlt] at this
        cases this
    · have hle : less (d.elem (j + 1)) (d.elem j) = false := by simpa using hlt
      rw [if_pos hle]
      have hn : ¬ (j + 1 > a ∧ less (d.elem (j + 1)) (d.elem j) = true) := fun h => hlt h.2
      rw [if_neg hn]

theorem partialScan_spec {α : Type} (less : α → α → Bool) (d : Slice α) (b : Nat) :
    ∀ (fuel i : Nat), b - i ≤ fuel →
      (∀ k, i ≤ k → k < partialScan less d b fuel i →
        less (d.elem k) (d.elem (k - 1)) = false) ∧
      (partialScan less d b fuel i < b →
        less (d.elem (partialScan less d b fuel i))
          (d.elem (partialScan less d b fuel i - 1)) = true) := by
  intro fuel
  induction fuel with
  | zero =>
    intro i hf
    unfold partialScan
    exact ⟨fun k h1 h2 => by omega, fun h => by omega⟩
  | succ fuel ih =>
    intro i hf
    unfold partialScan
    by_cases h : i < b ∧ less (d.elem i) (d.elem (i - 1)) = false
    · rw [if_pos h]
      have := ih (i + 1) (by omega)
      refine ⟨?_, this.2⟩
      intro k hk hk2
      by_cases hki : k = i
      · rw [hki]; exact h.2
      · exact this.1 k (by omega) hk2
    · rw [if_neg h]
      refine ⟨fun k h1 h2 => by omega, fun hib => ?_⟩
      cases hl : less (d.elem i) (d.elem (i - 1)) with
      | true => rfl
      | false => exact absurd ⟨hib, hl⟩ h

theorem partialInsertionLoop_spec {α : Type} {less : α → α → Bool} (hsw : StrictWeak less)
    (a b : Nat) :
    ∀ (steps i : Nat) (d : Slice α), a < i → i ≤ b → SortedOn less d a i →
      BoundedBelow less d a b →
      Reorders d (partialInsertionLoop less a b steps i d).1 a b ∧
        ((partialInsertionLoop less a b steps i d).2 = true →
          SortedOn less (partialInsertionLoop less a b steps i d).1 a b) := by
  intro steps
  induction steps with
  | zero =>
    intro i d _ _ _ _
    unfold partialInsertionLoop
    exact ⟨Reorders.refl _ _ _, fun h => by simp at h⟩
  | succ steps ih =>
    intro i d hai hib hsorted hbound
    unfold partialInsertionLoop
    simp only
    have hs := partialScan_bounds less d b (b - i) i
    have hs2 := hs.2 hib
    have hs1 := hs.1
    have hsp := partialScan_spec less d b (b - i) i (le_refl _)
    generalize partialScan less d b (b - i) i = s at hs1 hs2 hsp ⊢
    have hsorted2 : SortedOn less d a s := by
      apply SortedOn.of_adjacent hsw
      intro k hk hk2
      by_cases hki : k + 1 < i
      · exact hsorted k (k + 1) hk (by omega) hki
      · have := hsp.1 (k + 1) (by omega) hk2
        simpa using this
    by_cases h1 : s = b
    · rw [if_pos h1]
      simp only
      refine ⟨Reorders.refl _ _ _, fun _ => ?_⟩
      rw [← h1]
      exact hsorted2
    · rw [if_neg h1]
      by_cases h2 : b - a < 50
      · rw [if_pos h2]
        exact ⟨Reorders.refl _ _ _, fun h => by simp at h⟩
      · rw [if_neg h2]
        have hsw1 : Reorders d (swap d s (s - 1)) a b :=
          Reorders.of_swap d (by omega) (by omega) (by omega) (by omega)
        have hs1sorted : SortedOn less (swap d s (s - 1)) a (s - 1) := by
          apply (hsorted2.shrink (le_refl _) (by omega : s - 1 ≤ s)).congr
          intro k hk hk2
          exact swap_elem_other d s (s - 1) k (by omega) (by omega)
        have hleft : Reorders (swap d s (s - 1))
            (if s - a ≥ 2 then shiftLeft less (s - 1) (swap d s (s - 1))
              else swap d s (s - 1)) a s ∧
            SortedOn less (if s - a ≥ 2 then shiftLeft less (s - 1) (swap d s (s - 1))
              else swap d s (s - 1)) a s := by
          by_cases h3 : s - a ≥ 2
          · rw [if_pos h3]
            have hb1 : BoundedBelow less (swap d s (s - 1)) a (s - 1 + 1) :=
              (hbound.reorders hsw1).narrow (by omega)
            rw [shiftLeft_eq_insertionInner less a (s - 1) _ (by omega) hb1]
            have := insertionInner_spec hsw a (s - 1) (s - 1) (swap d s (s - 1)) (by omega)
              (le_refl _) hs1sorted (fun p q hp hpq hq => by omega)
              (fun p q _ _ h5 h6 => by omega)
            have e : s - 1 + 1 = s := by omega
            rw [e] at this
            exact this
          · rw [if_neg h3]
            exact ⟨Reorders.refl _ _ _, fun p q hp hpq hq => by omega⟩
        generalize (if s - a ≥ 2 then shiftLeft less (s - 1) (swap d s (s - 1))
          else swap d s (s - 1)) = dl at hleft ⊢
        have hright : Reorders dl
            (if b - s ≥ 2 then shiftRight less b (b - (s + 1)) (s + 1) dl else dl) s b := by
          by_cases h3 : b - s ≥ 2
          · rw [if_pos h3]
            exact shiftRight_reorders less b (b - (s + 1)) (s + 1) dl (by omega)
          · rw [if_neg h3]
            exact Reorders.refl _ _ _
        generalize (if b - s ≥ 2 then shiftRight less b (b - (s + 1)) (s + 1) dl else dl) = dr
          at hright ⊢
        have hddr : Reorders d dr a b :=
          (hsw1.trans (hleft.1.mono (le_refl _) (by omega))).trans
            (hright.mono (by omega) (le_refl _))
        have hdrsorted : SortedOn less dr a s :=
          hleft.2.congr (fun k hk hk2 => hright.outside k (Or.inl hk2))
        have h4 := ih s dr (by omega) hs2 hdrsorted (hbound.reorders hddr)
        exact ⟨hddr.trans h4.1, h4.2⟩

theorem partialInsertionSort_func_spec {α : Type} {less : α → α → Bool}
    (hsw : StrictWeak less) (d : Slice α) (a b : Nat) (hab : a < b)
    (hbound : BoundedBelow less d a b) :
    Reorders d (partialInsertionSort_func less d a b).1 a b ∧
      ((partialInsertionSort_func less d a b).2 = true →
        SortedOn less (partialInsertionSort_func less d a b).1 a b) :=
  partialInsertionLoop_spec hsw a b 5 (a + 1) d (by omega) (by omega)
    (fun p q hp hpq hq => by omega) hbound

/-! ### The quicksort loop -/

theorem sorted_of_split {α : Type} {less : α → α → Bool} (hsw : StrictWeak less)
    (d : Slice α) (a mid b : Nat)
    (hl : SortedOn less d a mid) (hr : SortedOn less d (mid + 1) b)
    (hlow : ∀ k, a ≤ k → k < mid → less (d.elem k) (d.elem mid) = true)
    (hhigh : ∀ k, mid < k → k < b → less (d.elem k) (d.elem mid) = false) :
    SortedOn less d a b := by
  intro i j hi hij hj
  by_cases hjm : j < mid
  · exact hl i j hi hij hjm
  · by_cases him : mid < i
    · exact hr i j (by omega) hij hj
    · by_cases hjm2 : j = mid
      · subst hjm2
        exact sw_asymm hsw (hlow i hi (by omega))
      · by_cases him2 : i = mid
        · subst him2
          exact hhigh j (by omega) hj
        · have h1 := hlow i hi (by omega)
          have h2 := hhigh j (by omega) hj
          exact sw_asymm hsw (sw_lt_of_lt_of_le hsw h1 h2)

theorem sorted_of_equal_prefix {α : Type} {less : α → α → Bool} (hsw : StrictWeak less)
    (d3 d4 : Slice α) (a mid b : Nat) (pv : α)
    (hle : ∀ k, a ≤ k → k < mid → less pv (d3.elem k) = false)
    (hge : ∀ k, a ≤ k → k < b → less (d3.elem k) pv = false)
    (hgt : ∀ k, mid ≤ k → k < b → less pv (d3.elem k) = true)
    (hre : Reorders d3 d4 mid b) (hs : SortedOn less d4 mid b) :
    SortedOn less d4 a b := by
  intro i j hi hij hj
  by_cases him : mid ≤ i
  · exact hs i j him hij hj
  · rw [hre.outside i (Or.inl (by omega))]
    by_cases hjm : j < mid
    · rw [hre.outside j (Or.inl hjm)]
      exact sw_le_trans hsw (hle i hi (by omega)) (hge j (by omega) hj)
    · obtain ⟨k2, h1, h2, h3⟩ := hre.mem j (by omega) hj
      rw [h3]
      exact sw_asymm hsw (sw_lt_of_le_of_lt hsw (hle i hi (by omega)) (hgt k2 h1 h2))

theorem pdqsortLoop_spec {α : Type} {less : α → α → Bool} (hsw : StrictWeak less) :
    ∀ (fuel : Nat) (d : Slice α) (a b limit : Nat) (wb wp : Bool), b - a ≤ fuel →
      BoundedBelow less d a b →
      Reorders d (pdqsortLoop less fuel d a b limit wb wp) a b ∧
        SortedOn less (pdqsortLoop less fuel d a b limit wb wp) a b := by
  intro fuel
  induction fuel with
  | zero =>
    intro d a b limit wb wp hf _
    unfold pdqsortLoop
    exact ⟨Reorders.refl _ _ _, fun p q hp hpq hq => by omega⟩
  | succ fuel ih =>
    intro d a b limit wb wp hf hbound
    unfold pdqsortLoop
    by_cases h12 : b - a ≤ 12
    · rw [if_pos h12]
      exact insertionSort_func_spec hsw d a b
    · rw [if_neg h12]
      by_cases hl : limit = 0
      · rw [if_pos hl]
        exact ⟨heapSort_func_reorders less d a b, heapSort_func_spec hsw d a b⟩
      · rw [if_neg hl]
        simp only
        have hd1 : Reorders d (if wb = true then d else breakPatterns_func d a b) a b := by
          split_ifs
          · exact Reorders.refl _ _ _
          · exact breakPatterns_func_reorders d a b
        generalize (if wb = true then d else breakPatterns_func d a b) = d1 at hd1 ⊢
        generalize (if wb = true then limit else limit - 1) = limit1
        have hc := choosePivot_func_range less d1 a b (by omega)
        generalize choosePivot_func less d1 a b = c at hc ⊢
        have hd2 : Reorders d1 (if c.2 = sortedHint.decreasingHint then
            reverseRange_func d1 a b else d1) a b := by
          split_ifs
          · exact reverseRange_func_reorders d1 a b (by omega)
          · exact Reorders.refl _ _ _
        generalize (if c.2 = sortedHint.decreasingHint then
            reverseRange_func d1 a b else d1) = d2 at hd2 ⊢
        have hpiv : a ≤ (if c.2 = sortedHint.decreasingHint then b - 1 - (c.1 - a) else c.1) ∧
            (if c.2 = sortedHint.decreasingHint then b - 1 - (c.1 - a) else c.1) < b := by
          split_ifs <;> omega
        generalize (if c.2 = sortedHint.decreasingHint then b - 1 - (c.1 - a) else c.1) = pivot
          at hpiv ⊢
        generalize (if c.2 = sortedHint.decreasingHint then sortedHint.increasingHint
          else c.2) = hint
        have hbound2 : BoundedBelow less d2 a b := hbound.reorders (hd1.trans hd2)
        have hp : Reorders d2 (if wb = true ∧ wp = true ∧ hint = sortedHint.increasingHint then
            partialInsertionSort_func less d2 a b else (d2, false)).1 a b ∧
            ((if wb = true ∧ wp = true ∧ hint = sortedHint.increasingHint then
              partialInsertionSort_func less d2 a b else (d2, false)).2 = true →
              SortedOn less (if wb = true ∧ wp = true ∧ hint = sortedHint.increasingHint then
                partialInsertionSort_func less d2 a b else (d2, false)).1 a b) := by
          split_ifs
          · exact partialInsertionSort_func_spec hsw d2 a b (by omega) hbound2
          · exact ⟨Reorders.refl _ _ _, fun h => by simp at h⟩
        generalize (if wb = true ∧ wp = true ∧ hint = sortedHint.increasingHint then
            partialInsertionSort_func less d2 a b else (d2, false)) = p at hp ⊢
        have hdp : Reorders d p.1 a b := (hd1.trans hd2).trans hp.1
        have hboundp : BoundedBelow less p.1 a b := hbound.reorders hdp
        by_cases hp2 : p.2 = true
        · rw [if_pos hp2]
          exact ⟨hdp, hp.2 hp2⟩
        · rw [if_neg hp2]
          by_cases heq : a > 0 ∧ less (p.1.elem (a - 1)) (p.1.elem pivot) = false
          · rw [if_pos heq]
            have he := partitionEqual_func_reorders less p.1 a b pivot hpiv.1 hpiv.2
            have hes := partitionEqual_func_spec hsw p.1 a b pivot hpiv.1 hpiv.2
            have hge : ∀ k, a ≤ k → k < b → less (p.1.elem k) (p.1.elem pivot) = false :=
              fun k hk hk2 => sw_le_trans hsw heq.2 (hboundp heq.1 k hk hk2)
            have hge2 := he.1.forall (fun x => less x (p.1.elem pivot) = false) hge
            generalize partitionEqual_func less p.1 a b pivot = e at he hes hge2 ⊢
            have hb3 : BoundedBelow less e.1 e.2 b := by
              intro _ k hk hk2
              have h1 := hes.1 (e.2 - 1) (by omega) (by omega)
              have h2 := hes.2 k hk hk2
              exact sw_asymm hsw (sw_lt_of_le_of_lt hsw h1 h2)
            have h3 := ih e.1 e.2 b limit1 wb wp (by omega) hb3
            exact ⟨(hdp.trans he.1).trans (h3.1.mono (by omega) (le_refl _)),
              sorted_of_equal_prefix hsw e.1 _ a e.2 b (p.1.elem pivot) hes.1 hge2 hes.2
                h3.1 h3.2⟩
          · rw [if_neg heq]
            have hq := partition_func_reorders less p.1 a b pivot hpiv.1 hpiv.2
            have hqs := partition_func_spec less p.1 a b pivot hpiv.1 hpiv.2
            generalize partition_func less p.1 a b pivot = q at hq hqs ⊢
            have hdq : Reorders d q.1 a b := hdp.trans hq.1
            have hboundq : BoundedBelow less q.1 a b := hbound.reorders hdq
            by_cases hside : q.2.1 - a < b - q.2.1
            · rw [if_pos hside]
              have h4 := ih q.1 a q.2.1 limit1 true true (by omega) (hboundq.narrow (by omega))
              generalize pdqsortLoop less fuel q.1 a q.2.1 limit1 true true = d4 at h4 ⊢
              have hmid4 : d4.elem q.2.1 = p.1.elem pivot := by
                rw [h4.1.outside q.2.1 (Or.inr (le_refl _)), hqs.1]
              have hb5 : BoundedBelow less d4 (q.2.1 + 1) b := by
                intro _ k hk hk2
                simp only [Nat.add_sub_cancel]
                rw [hmid4, h4.1.outside k (Or.inr (by omega))]
                exact hqs.2.2 k (by omega) hk2
              have h5 := ih d4 (q.2.1 + 1) b limit1 (decide (q.2.1 - a ≥ (b - a) / 8)) q.2.2
                (by omega) hb5
              generalize pdqsortLoop less fuel d4 (q.2.1 + 1) b limit1
                (decide (q.2.1 - a ≥ (b - a) / 8)) q.2.2 = d5 at h5 ⊢
              refine ⟨(hdq.trans (h4.1.mono (le_refl _) (by omega))).trans
                (h5.1.mono (by omega) (le_refl _)), ?_⟩
              have hmid5 : d5.elem q.2.1 = p.1.elem pivot := by
                rw [h5.1.outside q.2.1 (Or.inl (by omega)), hmid4]
              apply sorted_of_split hsw d5 a q.2.1 b
              · exact h4.2.congr (fun k hk hk2 => h5.1.outside k (Or.inl (by omega)))
              · exact h5.2
              · intro k hk hk2
                rw [hmid5, h5.1.outside k (Or.inl (by omega))]
                obtain ⟨k2, h1, h2, h3⟩ := h4.1.mem k hk hk2
                rw [h3]
                exact hqs.2.1 k2 h1 h2
              · intro k hk hk2
                rw [hmid5]
                obtain ⟨k2, h1, h2, h3⟩ := h5.1.mem k (by omega) hk2
                rw [h3, h4.1.outside k2 (Or.inr (by omega))]
                exact hqs.2.2 k2 (by omega) h2
            · rw [if_neg hside]
              have hb4 : BoundedBelow less q.1 (q.2.1 + 1) b := by
                intro _ k hk hk2
                simp only [Nat.add_sub_cancel]
                rw [hqs.1]
                exact hqs.2.2 k (by omega) hk2
              have h4 := ih q.1 (q.2.1 + 1) b limit1 true true (by omega) hb4
              generalize pdqsortLoop less fuel q.1 (q.2.1 + 1) b limit1 true true = d4 at h4 ⊢
              have hb5 : BoundedBelow less d4 a q.2.1 :=
                (hboundq.reorders (h4.1.mono (by omega) (le_refl _))).narrow (by omega)
              have h5 := ih d4 a q.2.1 limit1 (decide (b - q.2.1 ≥ (b - a) / 8)) q.2.2
                (by omega) hb5
              generalize pdqsortLoop less fuel d4 a q.2.1 limit1
                (decide (b - q.2.1 ≥ (b - a) / 8)) q.2.2 = d5 at h5 ⊢
              refine ⟨(hdq.trans (h4.1.mono (by omega) (le_refl _))).trans
                (h5.1.mono (le_refl _) (by omega)), ?_⟩
              have hmid5 : d5.elem q.2.1 = p.1.elem pivot := by
                rw [h5.1.outside q.2.1 (Or.inr (le_refl _)),
                  h4.1.outside q.2.1 (Or.inl (by omega)), hqs.1]
              apply sorted_of_split hsw d5 a q.2.1 b
              · exact h5.2
              · exact h4.2.congr (fun k hk hk2 => h5.1.outside k (Or.inr (by omega)))
              · intro k hk hk2
                rw [hmid5]
                obtain ⟨k2, h1, h2, h3⟩ := h5.1.mem k hk hk2
                rw [h3, h4.1.outside k2 (Or.inl (by omega))]
                exact hqs.2.1 k2 h1 h2
              · intro k hk hk2
                rw [hmid5, h5.1.outside k (Or.inr (by omega))]
                obtain ⟨k2, h1, h2, h3⟩ := h4.1.mem k (by omega) hk2
                rw [h3]
                exact hqs.2.2 k2 (by omega) h2

theorem sortSlice_sorted {α : Type} {less : α → α → Bool} (hsw : StrictWeak less)
    (l : List α) : (sortSlice less l).Pairwise (fun x y => less y x = false) := by
  unfold sortSlice
  cases l with
  | nil => exact List.Pairwise.nil
  | cons x t =>
    simp only
    have h := pdqsortLoop_spec hsw ((x :: t).length - 0)
      { elem := fun k => (x :: t).getD k x } 0 (x :: t).length (bitsLen (x :: t).length)
      true true (le_refl _) (fun h => by omega)
    exact h.2.pairwise

/-! ### Insertion keeps the order of ties -/

theorem swap_standsBefore {α : Type} {less : α → α → Bool} (d : Slice α) (n j : Nat)
    (x y : α) (hj : j + 1 < n) (hless : less (d.elem (j + 1)) (d.elem j) = true)
    (hxy : less y x = false) (h : StandsBefore d n x y) :
    StandsBefore (swap d (j + 1) j) n x y := by
  obtain ⟨p, q, hpq, hq, hx, hy⟩ := h
  by_cases hpair : p = j ∧ q = j + 1
  · obtain ⟨rfl, rfl⟩ := hpair
    rw [hx, hy, hxy] at hless
    exact absurd hless (by simp)
  · have key : ∀ k, (swap d (j + 1) j).elem
        (if k = j then j + 1 else if k = j + 1 then j else k) = d.elem k := by
      intro k
      by_cases h1 : k = j
      · subst h1
        rw [if_pos rfl]
        exact swap_elem_left d (k + 1) k
      · by_cases h2 : k = j + 1
        · subst h2
          rw [if_neg h1, if_pos rfl, swap_elem]
          simp
        · rw [if_neg h1, if_neg h2]
          exact swap_elem_other d (j + 1) j k h2 h1
    refine ⟨if p = j then j + 1 else if p = j + 1 then j else p,
      if q = j then j + 1 else if q = j + 1 then j else q, ?_, ?_, ?_, ?_⟩
    · split_ifs <;> omega
    · split_ifs <;> omega
    · rw [key, hx]
    · rw [key, hy]

theorem insertionInner_stable {α : Type} (less : α → α → Bool) (a n : Nat) (x y : α)
    (hxy : less y x = false) :
    ∀ (j : Nat) (d : Slice α), j < n → StandsBefore d n x y →
      StandsBefore (insertionInner less a j d) n x y := by
  intro j
  induction j with
  | zero =>
    intro d _ h
    unfold insertionInner
    exact h
  | succ j ih =>
    intro d hj h
    unfold insertionInner
    by_cases hc : j + 1 > a ∧ less (d.elem (j + 1)) (d.elem j) = true
    · rw [if_pos hc]
      exact ih _ (by omega) (swap_standsBefore d n j x y hj hc.2 hxy h)
    · rw [if_neg hc]
      exact h

theorem insertionOuter_stable {α : Type} (less : α → α → Bool) (a n : Nat) (x y : α)
    (hxy : less y x = false) :
    ∀ (m i : Nat) (d : Slice α), (m ≠ 0 → i + m ≤ n) → StandsBefore d n x y →
      StandsBefore (insertionOuter less a m i d) n x y := by
  intro m
  induction m with
  | zero =>
    intro i d _ h
    unfold insertionOuter
    exact h
  | succ m ih =>
    intro i d hm h
    unfold insertionOuter
    have hi : i + (m + 1) ≤ n := hm (by omega)
    exact ih (i + 1) _ (fun _ => by omega)
      (insertionInner_stable less a n x y hxy i d (by omega) h)

theorem insertionSort_func_stable {α : Type} (less : α → α → Bool) (d : Slice α) (n : Nat)
    (x y : α) (hxy : less y x = false) (h : StandsBefore d n x y) :
    StandsBefore (insertionSort_func less d 0 n) n x y := by
  unfold insertionSort_func
  exact insertionOuter_stable less 0 n x y hxy _ _ d (fun _ => by omega) h

theorem standsBefore_of_sublist {α : Type} (x0 x y : α) :
    ∀ l : List α, [x, y].Sublist l →
      StandsBefore { elem := fun k => l.getD k x0 } l.length x y := by
  intro l
  induction l with
  | nil =>
    intro h
    cases h
  | cons c t ih =>
    intro h
    cases h with
    | cons _ h2 =>
      obtain ⟨i, j, hij, hj, hx, hy⟩ := ih h2
      exact ⟨i + 1, j + 1, by omega, by simpa using hj, by simpa using hx, by simpa using hy⟩
    | cons₂ _ h2 =>
      have hmem : y ∈ t := List.singleton_sublist.mp h2
      obtain ⟨j, hj, hy⟩ := List.mem_iff_getElem.mp hmem
      refine ⟨0, j + 1, by omega, by simpa using hj, by simp, ?_⟩
      simp [List.getD_eq_getElem?_getD, List.getElem?_eq_getElem hj, hy]

theorem sublist_of_standsBefore {α : Type} (f : Nat → α) :
    ∀ (n i j : Nat), i < j → j < n → [f i, f j].Sublist ((List.range n).map f) := by
  intro n
  induction n with
  | zero => intro i j _ hj; omega
  | succ n ih =>
    intro i j hij hj
    rw [List.range_succ, List.map_append]
    by_cases hjn : j = n
    · subst hjn
      have h1 : [f i].Sublist ((List.range j).map f) :=
        List.singleton_sublist.mpr (List.mem_map.mpr ⟨i, List.mem_range.mpr hij, rfl⟩)
      exact List.Sublist.append h1 (List.Sublist.refl _)
    · exact (ih i j hij (by omega)).trans (List.sublist_append_left _ _)

/-- Up to twelve elements `sort.Slice` sorts by insertion, which never moves an
element past one that is not `less` than it. -/
theorem sortSlice_stable {α : Type} (less : α → α → Bool) (l : List α)
    (hlen : l.length ≤ 12) (x y : α) (hxy : less y x = false) (hsub : [x, y].Sublist l) :
    [x, y].Sublist (sortSlice less l) := by
  unfold sortSlice
  cases l with
  | nil => cases hsub
  | cons c t =>
    simp only
    have h0 := standsBefore_of_sublist c x y (c :: t) hsub
    have hloop : pdqsort_func less { elem := fun k => (c :: t).getD k c } 0 (c :: t).length
        (bitsLen (c :: t).length) =
        insertionSort_func less { elem := fun k => (c :: t).getD k c } 0 (c :: t).length := by
      unfold pdqsort_func
      have hpos : (c :: t).length - 0 = t.length + 1 := by simp
      rw [hpos]
      unfold pdqsortLoop
      rw [if_pos (by simpa using hlen)]
    rw [hloop]
    obtain ⟨i, j, hij, hj, hx, hy⟩ :=
      insertionSort_func_stable less _ (c :: t).length x y hxy h0
    rw [← hx, ← hy]
    exact sublist_of_standsBefore _ _ i j hij hj

/-! ### Rank with the library sort -/

/-- The `sort.Slice` of the Go library meets the contract of `Runtime`, and
`rankFlightsGo` is `rankFlights` under such a runtime. -/
theorem rankFlightsGo_is_rankFlights :
    ∃ rt : Runtime, (∀ less l, rt.sortSlice less l = sortSlice less l) ∧
      ∀ flights, rankFlights rt flights = rankFlightsGo flights :=
  ⟨{ zoneOffset := fun _ => 0
     sortSlice := fun less l => sortSlice less l
     mapRange := fun m => m
     sortSlice_perm := fun less l => sortSlice_perm less l
     sortSlice_sorted := fun _ l h => sortSlice_sorted h l
     mapRange_perm := fun m => List.Perm.refl m },
    fun _ _ => rfl, fun _ => rfl⟩

/-- The comparison of `rankFlights` is a strict weak ordering. -/
theorem bestValue_strictWeak :
    StrictWeak (fun a b : Flight => decide (bestValue a < bestValue b)) := by
  refine ⟨fun a => by simp, fun a b c h1 h2 => ?_, fun a b c h1 h2 => ?_⟩
  · simp only [decide_eq_true_eq] at h1 h2 ⊢
    exact lt_trans h1 h2
  · simp only [decide_eq_false_iff_not, not_lt] at h1 h2 ⊢
    exact le_trans h2 h1

set_option maxRecDepth 100000 in
/-- The steps of `pdqsort_func` on the thirteen offers: `choosePivot_func` picks
index 6 without a swap, `partialInsertionSort_func` gives up at the last element,
`partition_func` puts the pivot at index 1. -/
theorem pdqsort_steps_thirteen :
    choosePivot_func (fun a b => decide (bestValue a < bestValue b)) thirteenSlice 0 13 =
      (6, sortedHint.increasingHint) ∧
    (partialInsertionSort_func (fun a b => decide (bestValue a < bestValue b))
      thirteenSlice 0 13).2 = false ∧
    (partition_func (fun a b => decide (bestValue a < bestValue b))
      thirteenSlice 0 13 6).2 = (1, false) := by
  refine ⟨by decide, by decide, by decide⟩

set_option maxRecDepth 100000 in
/-- C23 fails on the thirteen offers of `thirteenOffers`: GA401 and GA407 have one
composite score and GA401 stands before GA407 in the input, and `rankFlights`, whose
`sort.Slice` partitions a slice of more than twelve elements around the element at
index 6, returns GA407 before GA401. -/
theorem rankFlights_not_stable :
    thirteenOffers.length = 13 ∧
    bestValue (tiedOffer "GA401") = bestValue (tiedOffer "GA407") ∧
    [tiedOffer "GA401", tiedOffer "GA407"].Sublist thirteenOffers ∧
    (rankFlightsGo thirteenOffers).1 =
      [cheaperOffer, tiedOffer "GA407", tiedOffer "GA403", tiedOffer "GA404",
        tiedOffer "GA405", tiedOffer "GA406", tiedOffer "GA401", tiedOffer "GA408",
        tiedOffer "GA409", tiedOffer "GA410", tiedOffer "GA411", tiedOffer "GA412",
        tiedOffer "GA402"] ∧
    ¬ [tiedOffer "GA401", tiedOffer "GA407"].Sublist (rankFlightsGo thirteenOffers).1 := by
  refine ⟨by decide, by decide, by decide, by decide, by decide⟩

/-- C23 as amended: for every list of offers the output of `rankFlights` is a
permutation of the input in which no offer stands before an offer of strictly lower
composite score, and its error is nil; for a list of at most twelve offers, which
`sort.Slice` sorts by insertion, two offers with equal composite score stand in the
output in the same relative order as in the input. -/
theorem rankFlights_order (flights : List Flight) (a b : Flight) :
    (rankFlightsGo flights).1.Perm flights ∧
    (rankFlightsGo flights).2 = none ∧
    ([a, b].Sublist (rankFlightsGo flights).1 → bestValue a ≤ bestValue b) ∧
    (flights.length ≤ 12 → bestValue a = bestValue b → [a, b].Sublist flights →
      [a, b].Sublist (rankFlightsGo flights).1) := by
  refine ⟨sortSlice_perm _ flights, rfl, ?_, ?_⟩
  · intro hsub
    have hsorted := (sortSlice_sorted bestValue_strictWeak flights).sublist hsub
    simpa using hsorted
  · intro hlen heq hsub
    exact sortSlice_stable _ flights hlen a b (by simp [heq]) hsub

set_option maxRecDepth 100000 in
/-- Witness of C23 as amended, on the twelve offers of `twelveOffers`: the cheaper
offer comes first and the eleven offers of one score keep their order, GA401 before
GA407. -/
theorem rankFlights_order_witness :
    twelveOffers.length ≤ 12 ∧
    bestValue (tiedOffer "GA401") = bestValue (tiedOffer "GA407") ∧
    [tiedOffer "GA401", tiedOffer "GA407"].Sublist twelveOffers ∧
    [tiedOffer "GA401", tiedOffer "GA407"].Sublist (rankFlightsGo twelveOffers).1 ∧
    (rankFlightsGo twelveOffers).1 =
      cheaperOffer :: ["GA401", "GA402", "GA403", "GA404", "GA405", "GA406", "GA407",
        "GA408", "GA409", "GA410", "GA411"].map tiedOffer ∧
    (rankFlightsGo twelveOffers).1.Perm twelveOffers ∧
    bestValue cheaperOffer ≤ bestValue (tiedOffer "GA401") :=
  ⟨by decide, by decide, by decide,
    (rankFlights_order twelveOffers (tiedOffer "GA401") (tiedOffer "GA407")).2.2.2
      (by decide) (by decide) (by decide),
    by decide,
    (rankFlights_order twelveOffers (tiedOffer "GA401") (tiedOffer "GA407")).1,
    (rankFlights_order twelveOffers cheaperOffer (tiedOffer "GA401")).2.2.1 (by decide)⟩

/-! ### Set never fails -/

/-- C24: `Set` never fails. In every state reached from a cache constructed with
maxSize at least 1 by any sequence of Set and Get operations (any keys, any times;
no operation of the sequence panics), every key of the store map occurs in the order
list; so when the store is full (`len(store) >= maxSize`, the eviction branch) the
order list is not empty, and `Set` with any key, time and value returns. -/
theorem cache_set_never_fails (maxSize ttl : Int) (ops : List CacheOp) (hsize : 1 ≤ maxSize) :
    ∃ c, aggregatorCache.run (newAggregatorCache maxSize ttl) ops = some c ∧
      (∀ k ∈ c.store.map Prod.fst, k ∈ c.order) ∧
      ((c.store.length : Int) ≥ c.maxSize → c.order ≠ []) ∧
      ∀ (now : Int) (key : String) (value : SearchResponse),
        ∃ c1, aggregatorCache.Set c now key value = some c1 := by
  obtain ⟨c, hrun, inv, hm, _⟩ :=
    run_preserves ops (newAggregatorCache maxSize ttl) (CacheInv_new maxSize ttl) hsize
  have hm2 : c.maxSize = maxSize := hm
  refine ⟨c, hrun, inv.2, ?_, ?_⟩
  · intro hfull horder
    cases hstore : c.store with
    | nil =>
      rw [hstore] at hfull
      simp only [List.length_nil, Nat.cast_zero] at hfull
      omega
    | cons e rest =>
      have := inv.2 e.1 (by rw [hstore]; simp)
      rw [horder] at this
      cases this
  · intro now key value
    exact Set_succeeds c now key value inv (by rw [hm2]; exact hsize)

/-- Witness of C24: the history `overfillOps` in a cache of capacity 2. -/
theorem cache_set_never_fails_witness :
    (1 : Int) ≤ 2 ∧
    ∃ c, aggregatorCache.run (newAggregatorCache 2 60) overfillOps = some c ∧
      (∀ k ∈ c.store.map Prod.fst, k ∈ c.order) ∧
      ((c.store.length : Int) ≥ c.maxSize → c.order ≠ []) ∧
      ∀ (now : Int) (key : String) (value : SearchResponse),
        ∃ c1, aggregatorCache.Set c now key value = some c1 :=
  ⟨by decide, cache_set_never_fails 2 60 overfillOps (by decide)⟩

/-! ### Rank and sort only reorder -/

/-- C25: `rankFlights` and `sortFlights` only reorder. For every list and every
request the output of each is a permutation of its input, hence of the same length
and with the same offers, each as often as in the input; neither returns an error. -/
theorem rank_and_sort_permute (rt : Runtime) (flights : List Flight) (req : SearchRequest) :
    (rankFlights rt flights).1.Perm flights ∧
    (sortFlights rt flights req).1.Perm flights ∧
    (rankFlights rt flights).1.length = flights.length ∧
    (sortFlights rt flights req).1.length = flights.length ∧
    (∀ f : Flight, (rankFlights rt flights).1.count f = flights.count f ∧
      (sortFlights rt flights req).1.count f = flights.count f) ∧
    (rankFlights rt flights).2 = none ∧ (sortFlights rt flights req).2 = none := by
  have hrank : (rankFlights rt flights).1.Perm flights := rt.sortSlice_perm _ _
  have hsort := sortFlights_perm rt flights req
  exact ⟨hrank, hsort, hrank.length_eq, hsort.length_eq,
    fun f => ⟨hrank.count_eq f, hsort.count_eq f⟩, rfl, sortFlights_snd rt flights req⟩

/-! ### One-sided time windows -/

theorem filterFlights_congr (rt : Runtime) (flights : List Flight) (req req2 : SearchRequest)
    (h : ∀ f, filterKeeps rt req f = filterKeeps rt req2 f) :
    filterFlights rt flights req = filterFlights rt flights req2 := by
  unfold filterFlights
  rw [filterFlightsLoop_eq, filterFlightsLoop_eq]
  have : filterKeeps rt req = filterKeeps rt req2 := funext h
  rw [this]

/-- C26: a one-sided time-of-day window is ignored. For every offer list and every
request in which one of DepartureTimeStart and DepartureTimeEnd is present and the
other is absent, `filterFlights` returns what it returns for the same request with
that bound removed; likewise for ArrivalTimeStart and ArrivalTimeEnd. -/
theorem filterFlights_one_sided_window (rt : Runtime) (flights : List Flight)
    (req : SearchRequest) :
    (req.DepartureTimeStart ≠ none → req.DepartureTimeEnd = none →
      filterFlights rt flights req = filterFlights rt flights (withoutDepartureTimeStart req)) ∧
    (req.DepartureTimeStart = none → req.DepartureTimeEnd ≠ none →
      filterFlights rt flights req = filterFlights rt flights (withoutDepartureTimeEnd req)) ∧
    (req.ArrivalTimeStart ≠ none → req.ArrivalTimeEnd = none →
      filterFlights rt flights req = filterFlights rt flights (withoutArrivalTimeStart req)) ∧
    (req.ArrivalTimeStart = none → req.ArrivalTimeEnd ≠ none →
      filterFlights rt flights req = filterFlights rt flights (withoutArrivalTimeEnd req)) := by
  refine ⟨?_, ?_, ?_, ?_⟩
  · intro _ h2
    apply filterFlights_congr
    intro f
    unfold filterKeeps withoutDepartureTimeStart
    simp only [h2]
    cases req.DepartureTimeStart <;> rfl
  · intro h1 _
    apply filterFlights_congr
    intro f
    unfold filterKeeps withoutDepartureTimeEnd
    simp only [h1]
  · intro _ h2
    apply filterFlights_congr
    intro f
    unfold filterKeeps withoutArrivalTimeStart
    simp only [h2]
    cases req.ArrivalTimeStart <;> rfl
  · intro h1 _
    apply filterFlights_congr
    intro f
    unfold filterKeeps withoutArrivalTimeEnd
    simp only [h1]

set_option maxRecDepth 100000 in
/-- Witness of C26: a start of the departure window alone, and an end of the arrival
window alone, keep the three sample offers, none of which lies in the window. -/
theorem filterFlights_one_sided_window_witness :
    lateDepartureRequest.DepartureTimeStart ≠ none ∧
    lateDepartureRequest.DepartureTimeEnd = none ∧
    filterFlights stdRuntime [offerA, offerB, offerC] lateDepartureRequest =
      filterFlights stdRuntime [offerA, offerB, offerC]
        (withoutDepartureTimeStart lateDepartureRequest) ∧
    earlyArrivalRequest.ArrivalTimeStart = none ∧
    earlyArrivalRequest.ArrivalTimeEnd ≠ none ∧
    filterFlights stdRuntime [offerA, offerB, offerC] earlyArrivalRequest =
      filterFlights stdRuntime [offerA, offerB, offerC]
        (withoutArrivalTimeEnd earlyArrivalRequest) ∧
    filterFlights stdRuntime [offerA, offerB, offerC] lateDepartureRequest =
      ([offerA, offerB, offerC], none) :=
  ⟨by decide, rfl,
    (filterFlights_one_sided_window stdRuntime [offerA, offerB, offerC]
      lateDepartureRequest).1 (by decide) rfl,
    rfl, by decide,
    (filterFlights_one_sided_window stdRuntime [offerA, offerB, offerC]
      earlyArrivalRequest).2.2.2 rfl (by decide),
    by decide⟩

/-! ### The tie-break of deduplicate -/

theorem mem_mapSet_cases (m : GoMap Flight) (key : String) (v : Flight) (e : String × Flight)
    (hnd : (m.map Prod.fst).Nodup) (h : e ∈ mapSet m key v) :
    e = (key, v) ∨ (e ∈ m ∧ e.1 ≠ key) := by
  by_cases hk : e.1 = key
  · left
    have h1 : mapGet (mapSet m key v) e.1 = some e.2 :=
      mapGet_of_mem _ _ _ (nodup_keys_mapSet m key v hnd) h
    rw [hk, mapGet_mapSet_same] at h1
    cases h1
    exact Prod.ext hk rfl
  · rcases mem_mapSet m key v e h with h1 | h1
    · exact Or.inl h1
    · exact Or.inr ⟨h1, hk⟩

theorem FirstSeenInv_extend (seen : List Flight) (f : Flight)
    (e : String × Flight)
    (hold : ∃ pre post, seen = pre ++ e.2 :: post ∧
      (∀ g ∈ pre, flightKey g = e.1 → e.2.Price.Amount < g.Price.Amount) ∧
      (∀ g ∈ post, flightKey g = e.1 → e.2.Price.Amount ≤ g.Price.Amount))
    (hf : flightKey f = e.1 → e.2.Price.Amount ≤ f.Price.Amount) :
    ∃ pre post, seen ++ [f] = pre ++ e.2 :: post ∧
      (∀ g ∈ pre, flightKey g = e.1 → e.2.Price.Amount < g.Price.Amount) ∧
      (∀ g ∈ post, flightKey g = e.1 → e.2.Price.Amount ≤ g.Price.Amount) := by
  obtain ⟨pre, post, hsplit, hpre, hpost⟩ := hold
  refine ⟨pre, post ++ [f], by rw [hsplit]; simp, hpre, ?_⟩
  intro g hg
  rcases List.mem_append.1 hg with h | h
  · exact hpost g h
  · simp only [List.mem_singleton] at h
    rw [h]
    exact hf

theorem FirstSeenInv_set (m : GoMap Flight) (seen : List Flight) (f : Flight)
    (inv : DedupInv m seen) (fs : FirstSeenInv m seen)
    (hlt : ∀ v, mapGet m (flightKey f) = some v → f.Price.Amount < v.Price.Amount) :
    FirstSeenInv (mapSet m (flightKey f) f) (seen ++ [f]) := by
  intro e he
  rcases mem_mapSet_cases m _ f e inv.1 he with h | ⟨h, hne⟩
  · subst h
    refine ⟨seen, [], rfl, ?_, by simp⟩
    intro g hg hk
    obtain ⟨v, hv, hle⟩ := inv.2.2 g hg
    simp only at hk
    rw [hk] at hv
    exact lt_of_lt_of_le (hlt v hv) hle
  · exact FirstSeenInv_extend seen f e (fs e h) (fun hk => absurd hk.symm hne)

theorem FirstSeenInv_keep (m : GoMap Flight) (seen : List Flight) (f existing : Flight)
    (inv : DedupInv m seen) (fs : FirstSeenInv m seen)
    (hget : mapGet m (flightKey f) = some existing)
    (hge : ¬ f.Price.Amount < existing.Price.Amount) : FirstSeenInv m (seen ++ [f]) := by
  intro e he
  refine FirstSeenInv_extend seen f e (fs e he) ?_
  intro hk
  have h1 : mapGet m e.1 = some e.2 := mapGet_of_mem _ _ _ inv.1 he
  rw [← hk, hget] at h1
  cases h1
  exact not_lt.1 hge

theorem FirstSeenInv_loop (rest : List Flight) :
    ∀ (m : GoMap Flight) (seen : List Flight), DedupInv m seen → FirstSeenInv m seen →
      FirstSeenInv (comparePricesLoop m rest) (seen ++ rest) := by
  induction rest with
  | nil => intro m seen _ fs; simpa [comparePricesLoop] using fs
  | cons f rest ih =>
    intro m seen inv fs
    have hassoc : seen ++ f :: rest = (seen ++ [f]) ++ rest := by simp
    rw [hassoc]
    unfold comparePricesLoop
    cases hget : mapGet m (flightKey f) with
    | none =>
      simp only [hget]
      exact ih _ _ (DedupInv_set m seen f inv (by simp [hget]))
        (FirstSeenInv_set m seen f inv fs (by simp [hget]))
    | some existing =>
      simp only [hget]
      by_cases hlt : f.Price.Amount < existing.Price.Amount
      · simp only [hlt, if_true]
        have hlt2 : ∀ v, mapGet m (flightKey f) = some v →
            f.Price.Amount < v.Price.Amount := by
          intro v hv
          rw [hget] at hv
          cases hv
          exact hlt
        exact ih _ _ (DedupInv_set m seen f inv hlt2) (FirstSeenInv_set m seen f inv fs hlt2)
      · simp only [hlt, if_false]
        exact ih _ _ (DedupInv_keep m seen f existing inv hget hlt)
          (FirstSeenInv_keep m seen f existing inv fs hget hlt)

theorem FirstSeenInv_final (flights : List Flight) :
    FirstSeenInv (comparePricesLoop [] flights) flights := by
  have h := FirstSeenInv_loop flights [] [] ⟨by simp, by simp, by simp⟩
    (by intro e he; cases he)
  simpa using h

/-- C27: the tie-break of deduplicate is first-seen. Every offer `s` in the output of
`comparePrices` stands at a place of the input list before which every offer of its
(FlightNumber, Departure.Timestamp) group is strictly dearer and after which none of
the group is cheaper: `s` is the earliest input offer with the minimum price of its
group. This holds for every order in which the map is ranged over. -/
theorem comparePrices_first_seen (rt : Runtime) (flights : List Flight) (s : Flight)
    (hs : s ∈ (comparePrices rt flights).1) :
    ∃ pre post, flights = pre ++ s :: post ∧
      (∀ g ∈ pre, groupOf g = groupOf s → s.Price.Amount < g.Price.Amount) ∧
      (∀ g ∈ post, groupOf g = groupOf s → s.Price.Amount ≤ g.Price.Amount) := by
  have hmem := (mem_comparePrices rt flights s).1 hs
  obtain ⟨pre, post, hsplit, hpre, hpost⟩ := FirstSeenInv_final flights _ hmem
  exact ⟨pre, post, hsplit,
    fun g hg hgrp => hpre g hg ((flightKey_eq_iff g s).2 hgrp),
    fun g hg hgrp => hpost g hg ((flightKey_eq_iff g s).2 hgrp)⟩

set_option maxRecDepth 100000 in
/-- Witness of C27: of the GA400 offers A (1250000), B (1100000) and D (1100000), in
this order, the survivor is B, the first of the two cheapest; D is not in the
output. -/
theorem comparePrices_first_seen_witness :
    offerB ∈ (comparePrices stdRuntime [offerA, offerB, offerD, offerC]).1 ∧
    offerD ∉ (comparePrices stdRuntime [offerA, offerB, offerD, offerC]).1 ∧
    groupOf offerD = groupOf offerB ∧ offerD.Price.Amount = offerB.Price.Amount ∧
    ∃ pre post, [offerA, offerB, offerD, offerC] = pre ++ offerB :: post ∧
      (∀ g ∈ pre, groupOf g = groupOf offerB → offerB.Price.Amount < g.Price.Amount) ∧
      (∀ g ∈ post, groupOf g = groupOf offerB → offerB.Price.Amount ≤ g.Price.Amount) :=
  ⟨by decide, by decide, by decide, by decide,
    comparePrices_first_seen stdRuntime [offerA, offerB, offerD, offerC] offerB (by decide)⟩

/-! ### Eviction and metadata under the two defects -/

set_option maxRecDepth 100000 in
/-- C13 fails on the code. In a cache of capacity 2 the stores of `a`, `a`, `b`, `c`
leave exactly two entries under the two keys `b` and `c`; `Set` of the further key
`d` then evicts neither: the store holds `b`, `c` and `d`, and `Get` still finds `b`,
the earliest-inserted key present, as well as `c` and `d`. -/
theorem fifo_eviction_skipped :
    aggregatorCache.run (newAggregatorCache 2 300000000000) staleOps = some staleCache ∧
    staleCache.store.map Prod.fst = ["b", "c"] ∧
    (staleCache.store.length : Int) = staleCache.maxSize ∧
    aggregatorCache.Set staleCache 4 "d" zeroResponse = some staleCacheAfter ∧
    staleCacheAfter.store.map Prod.fst = ["b", "c", "d"] ∧
    aggregatorCache.Get staleCacheAfter 5 "b" = ((sampleResponse, true), staleCacheAfter) ∧
    aggregatorCache.Get staleCacheAfter 5 "c" = ((sampleResponse, true), staleCacheAfter) ∧
    aggregatorCache.Get staleCacheAfter 5 "d" = ((zeroResponse, true), staleCacheAfter) := by
  decide

set_option maxRecDepth 100000 in
/-- C20 fails on the code. Four registered sources all answer their first invocation
and their goroutines execute `successCount++` at the same time (`racingSchedule4`, an
interleaving in program order): `Search` returns without error on a cache miss and
reports ProvidersQueried = 4, ProvidersSucceeded = 1 and ProvidersFailed = 3. -/
theorem search_reports_lost_update :
    validSchedule (fourSources.providers.map goroutine) racingSchedule4 ∧
    succeeded (fourSources.providers.map goroutine) = [0, 1, 2, 3] ∧
    (aggregatorCache.Get aggCache sampleEnv.nowGet (cacheKey sampleRequest)).1.2 = false ∧
    AggregatorService.Search fourSources stdRuntime racingSchedule4 aggCache sampleEnv
      sampleRequest = some (racedResponse, none, racedCacheAfter) ∧
    racedResponse.Metadata.ProvidersQueried = 4 ∧
    racedResponse.Metadata.ProvidersSucceeded = 1 ∧
    racedResponse.Metadata.ProvidersFailed = 3 := by
  refine ⟨?_, by decide, by decide, by decide, by decide, by decide, by decide⟩
  unfold validSchedule
  decide

set_option maxRecDepth 100000 in
/-- The same call when the four goroutines finish one after the other: the counts are
4, 4 and 0. -/
theorem search_sequential_schedule :
    AggregatorService.Search fourSources stdRuntime
      (sequentialSchedule (fourSources.providers.map goroutine)) aggCache sampleEnv
      sampleRequest = some (sampleResponse, none, sampleCacheAfter) := by
  decide

end FlightAgg
